import Mathlib

/-!
Verification of the graph-data-structure library (src/index.js).

The library keeps three JS objects: an adjacency map from node id to the
array of direct successors, a weight table and an identifier table, both
keyed by the string encoding u ++ "|" ++ v of an ordered pair.  JS objects
are modelled as association lists with one entry per key and insertion
order preserved: property read is first-entry lookup, property write
overwrites in place or appends, property delete removes the key.
Numbers used as edge weights are modelled as integers; the JS value
Infinity used by Dijkstra becomes the distinguished element of the
Dist type, and a missing map entry (JS undefined) is a none lookup.
Recursive procedures are modelled with an explicit fuel parameter; each
public entry point passes fuel that provably suffices, and the fuel-out
branches are proved unreachable where a claim depends on it.
-/

set_option linter.unusedVariables false

namespace GraphDS

/-- Node identifiers are opaque strings. -/
abbrev NodeId := String

/-- JS encodeEdge: the string key u + "|" + v of the weight and id tables. -/
def encodeEdge (u v : NodeId) : String := u ++ "|" ++ v

/-- JS object property read: the first entry with the given key. -/
def alookup {α β : Type} [DecidableEq α] : List (α × β) → α → Option β
  | [], _ => none
  | p :: rest, k => if p.1 = k then some p.2 else alookup rest k

/-- JS object property write: overwrite the entry in place if the key is
present, otherwise append a new entry (JS objects preserve insertion order). -/
def aset {α β : Type} [DecidableEq α] : List (α × β) → α → β → List (α × β)
  | [], k, v => [(k, v)]
  | p :: rest, k, v => if p.1 = k then (k, v) :: rest else p :: aset rest k v

/-- JS delete of an object property: the key is removed entirely. -/
def adel {α β : Type} [DecidableEq α] : List (α × β) → α → List (α × β)
  | [], _ => []
  | p :: rest, k => if p.1 = k then adel rest k else p :: adel rest k

/-- The internal state of one graph instance: the `edges` adjacency object,
the `edgeWeights` object and the `edgeIds` object of src/index.js. -/
structure Graph where
  edges : List (NodeId × List NodeId)
  edgeWeights : List (String × Int)
  edgeIds : List (String × String)
deriving DecidableEq

/-- Graph() with no serialized argument: all three objects start empty. -/
def emptyGraph : Graph := ⟨[], [], []⟩

/-- JS adjacent: edges[node] || []. -/
def adjacent (g : Graph) (node : NodeId) : List NodeId :=
  (alookup g.edges node).getD []

/-- JS addNode: edges[node] = adjacent(node). -/
def addNode (g : Graph) (node : NodeId) : Graph :=
  { g with edges := aset g.edges node (adjacent g node) }

/-- append x if not already present (insertion into the JS nodeSet object). -/
def addUnique (l : List NodeId) (x : NodeId) : List NodeId :=
  if x ∈ l then l else l ++ [x]

/-- JS nodes(): every key of the adjacency object and every value in any
adjacency list, in order of first appearance, without duplicates. -/
def nodes (g : Graph) : List NodeId :=
  g.edges.foldl (fun acc p => p.2.foldl addUnique (addUnique acc p.1)) []

/-- JS setEdgeWeight. -/
def setEdgeWeight (g : Graph) (u v : NodeId) (w : Int) : Graph :=
  { g with edgeWeights := aset g.edgeWeights (encodeEdge u v) w }

/-- JS getEdgeWeight: the stored weight, or 1 if none was set. -/
def getEdgeWeight (g : Graph) (u v : NodeId) : Int :=
  (alookup g.edgeWeights (encodeEdge u v)).getD 1

/-- JS setEdgeId. -/
def setEdgeId (g : Graph) (u v : NodeId) (i : String) : Graph :=
  { g with edgeIds := aset g.edgeIds (encodeEdge u v) i }

/-- JS getEdgeId: the stored identifier or undefined (none). -/
def getEdgeId (g : Graph) (u v : NodeId) : Option String :=
  alookup g.edgeIds (encodeEdge u v)

/-- JS addEdge(u, v, weight?, edgeId?): addNode(u); addNode(v);
adjacent(u).push(v); optionally set weight and identifier. -/
def addEdge (g : Graph) (u v : NodeId) (weight : Option Int) (edgeId : Option String) : Graph :=
  let g1 := addNode (addNode g u) v
  let g2 := { g1 with edges := aset g1.edges u (adjacent g1 u ++ [v]) }
  let g3 := match weight with
    | some w => setEdgeWeight g2 u v w
    | none => g2
  match edgeId with
  | some i => setEdgeId g3 u v i
  | none => g3

/-- JS removeEdge(u, v): if edges[u] exists, filter all occurrences of v out
of u's adjacency array and delete the identifier entry for (u, v).  The
weight table is not touched. -/
def removeEdge (g : Graph) (u v : NodeId) : Graph :=
  if (alookup g.edges u).isSome then
    { g with
      edges := aset g.edges u ((adjacent g u).filter (fun x => decide (x ≠ v))),
      edgeIds := adel g.edgeIds (encodeEdge u v) }
  else g

/-- JS hasEdge: v appears in u's adjacency array. -/
def hasEdge (g : Graph) (u v : NodeId) : Bool :=
  decide (v ∈ adjacent g u)

/-- JS removeNode: for every key u and every occurrence of node in edges[u],
removeEdge(u, node); then delete edges[node]. -/
def removeNode (g : Graph) (node : NodeId) : Graph :=
  let g1 := (g.edges.map Prod.fst).foldl
    (fun h u => (adjacent h u).foldl
      (fun h2 v => if v = node then removeEdge h2 u v else h2) h) g
  { g1 with edges := adel g1.edges node }

/-- One entry of Serialized.nodes. -/
structure SerNode where
  id : NodeId
deriving DecidableEq

/-- One entry of Serialized.links: source, target, weight, id. -/
structure SerLink where
  source : NodeId
  target : NodeId
  weight : Int
  id : Option String
deriving DecidableEq

/-- The serialized wire format. -/
structure Serialized where
  nodes : List SerNode
  links : List SerLink
deriving DecidableEq

/-- JS serialize(): every node in nodes() order, then for each node in that
order one link per adjacency occurrence, carrying getEdgeWeight and
getEdgeId of the pair. -/
def serialize (g : Graph) : Serialized :=
  { nodes := (nodes g).map (fun i => ⟨i⟩),
    links := ((nodes g).map (fun s =>
      (adjacent g s).map (fun t => ⟨s, t, getEdgeWeight g s t, getEdgeId g s t⟩))).flatten }

/-- JS deserialize(serialized): addNode for every listed node, then
addEdge(link.source, link.target, link.weight) for every listed link.
Note the link id is not passed on. -/
def deserialize (g : Graph) (s : Serialized) : Graph :=
  let g1 := s.nodes.foldl (fun h n => addNode h n.id) g
  s.links.foldl (fun h l => addEdge h l.source l.target (some l.weight) none) g1

/-- Options of depthFirstSearchBase. -/
structure DfsOpts where
  includeSourceNodes : Bool
  errorOnCycle : Bool
  collectCycles : Bool
deriving DecidableEq

/-- Mutable state of one depthFirstSearchBase run: the visited and visiting
maps, the post-order nodeList, and the cycles object keyed by the node the
back edge was followed from (undefined for a top-level call). -/
structure DfsSt where
  visited : List NodeId
  visiting : List NodeId
  nodeList : List NodeId
  cycles : List (Option NodeId × NodeId)
deriving DecidableEq

/-- Result of a traversal step: normal state, the thrown CycleError, or
fuel exhaustion (a modelling artifact, proved unreachable for the fuel the
public entry points pass). -/
inductive DfsRes where
  | ok (s : DfsSt)
  | cycleErr
  | fuelOut
deriving DecidableEq

mutual
/-- JS DFSVisit(node, from): on a node currently in the visiting state,
either throw the CycleError, or record the back edge in cycles, or fall
through; on an unvisited node mark it visited and visiting, descend into
all adjacent nodes, clear the visiting flag and push the node onto the
post-order nodeList. -/
def DFSVisit (g : Graph) (opts : DfsOpts) (fuel : Nat) (frm : Option NodeId) (node : NodeId)
    (s : DfsSt) : DfsRes :=
  if node ∈ s.visiting ∧ opts.errorOnCycle = true then .cycleErr
  else if node ∈ s.visiting ∧ opts.collectCycles = true then
    .ok { s with cycles := aset s.cycles frm node }
  else if node ∉ s.visited then
    match fuel with
    | 0 => .fuelOut
    | f + 1 =>
      match visitAdj g opts f node (adjacent g node)
          { s with visited := node :: s.visited, visiting := node :: s.visiting } with
      | .ok s2 => .ok { s2 with visiting := s2.visiting.erase node,
                                nodeList := s2.nodeList ++ [node] }
      | e => e
  else .ok s
termination_by ((fuel, 0, 0) : Nat × Nat × Nat)

/-- adjacent(node).forEach(adj => DFSVisit(adj, node)), with the thrown
error propagating. -/
def visitAdj (g : Graph) (opts : DfsOpts) (fuel : Nat) (frm : NodeId) (l : List NodeId)
    (s : DfsSt) : DfsRes :=
  match l with
  | [] => .ok s
  | v :: rest =>
    match DFSVisit g opts fuel (some frm) v s with
    | .ok s2 => visitAdj g opts fuel frm rest s2
    | e => e
termination_by ((fuel, 1, l.length) : Nat × Nat × Nat)
end

/-- sourceNodes.forEach(source => DFSVisit(source)) for the
includeSourceNodes = true case. -/
def dfsSourcesInc (g : Graph) (opts : DfsOpts) : Nat → List NodeId → DfsSt → DfsRes
  | _, [], s => .ok s
  | fuel, src :: rest, s =>
    match DFSVisit g opts fuel none src s with
    | .ok s2 => dfsSourcesInc g opts fuel rest s2
    | e => e

/-- For includeSourceNodes = false: all sources are already pre-marked
visited, and only their successors are descended into. -/
def dfsSourcesExc (g : Graph) (opts : DfsOpts) : Nat → List NodeId → DfsSt → DfsRes
  | _, [], s => .ok s
  | fuel, src :: rest, s =>
    match visitAdj g opts fuel src (adjacent g src) s with
    | .ok s2 => dfsSourcesExc g opts fuel rest s2
    | e => e

/-- JS depthFirstSearchBase: sourceNodes defaults to nodes(); when
includeSourceNodes is false every source is pre-marked visited. -/
def depthFirstSearchBase (g : Graph) (opts : DfsOpts) (sourceNodes : Option (List NodeId)) :
    DfsRes :=
  let src := sourceNodes.getD (nodes g)
  let fuel := (nodes g).length + src.length + 1
  if opts.includeSourceNodes then dfsSourcesInc g opts fuel src ⟨[], [], [], []⟩
  else dfsSourcesExc g opts fuel src ⟨src, [], [], []⟩

/-- Result of topologicalSort: the sorted order, the uncaught CycleError, or
the fuel artifact (proved unreachable). -/
inductive TopoRes where
  | sorted (l : List NodeId)
  | cycleError
  | fuelExhausted
deriving DecidableEq

/-- JS topologicalSort(sourceNodes?, includeSourceNodes = true): traversal
with errorOnCycle, post-order result reversed; the CycleError is not caught. -/
def topologicalSort (g : Graph) (sourceNodes : Option (List NodeId))
    (includeSourceNodes : Bool) : TopoRes :=
  match depthFirstSearchBase g ⟨includeSourceNodes, true, false⟩ sourceNodes with
  | .ok s => .sorted s.nodeList.reverse
  | .cycleErr => .cycleError
  | .fuelOut => .fuelExhausted

/-- JS hasCycle(): run traversal over all nodes with errorOnCycle; a caught
CycleError becomes true, normal completion becomes false. -/
def hasCycle (g : Graph) : Bool :=
  match depthFirstSearchBase g ⟨true, true, false⟩ none with
  | .cycleErr => true
  | _ => false

/-- JS getCycles(sourceNodes?): traversal with collectCycles;
includeSourceNodes is true exactly when sourceNodes was supplied.  Each
recorded back edge is normalised into a (min, max) pair by string order. -/
def getCycles (g : Graph) (sourceNodes : Option (List NodeId)) : List (NodeId × NodeId) :=
  match depthFirstSearchBase g ⟨sourceNodes.isSome, false, true⟩ sourceNodes with
  | .ok s => s.cycles.map (fun p =>
      let k := p.1.getD "undefined"
      if k < p.2 then (k, p.2) else (p.2, k))
  | _ => []

/-- Shared state of lowestCommonAncestors: the visited map of the first
pass, the node1Ancestors array and the lcas array. -/
structure LcaSt where
  visited : List NodeId
  node1Ancestors : List NodeId
  lcas : List NodeId
deriving DecidableEq

mutual
/-- JS CA1Visit: record every node reached from node1 in node1Ancestors;
when node2 itself is reached, push it onto lcas and short-circuit by
returning false. -/
def CA1Visit (g : Graph) (node2 : NodeId) (fuel : Nat) (node : NodeId) (s : LcaSt) :
    Option (Bool × LcaSt) :=
  if node ∈ s.visited then some (true, s)
  else
    match fuel with
    | 0 => none
    | f + 1 =>
      let s1 := { s with visited := node :: s.visited,
                         node1Ancestors := s.node1Ancestors ++ [node] }
      if node = node2 then some (false, { s1 with lcas := s1.lcas ++ [node] })
      else CA1All g node2 f (adjacent g node) s1
termination_by ((fuel, 0, 0) : Nat × Nat × Nat)

/-- adjacent(node).every(CA1Visit ...): stop at the first false. -/
def CA1All (g : Graph) (node2 : NodeId) (fuel : Nat) (l : List NodeId) (s : LcaSt) :
    Option (Bool × LcaSt) :=
  match l with
  | [] => some (true, s)
  | v :: rest =>
    match CA1Visit g node2 fuel v s with
    | some (true, s2) => CA1All g node2 fuel rest s2
    | r => r
termination_by ((fuel, 1, l.length) : Nat × Nat × Nat)
end

mutual
/-- JS CA2Visit: walking from node2 with a fresh visited map, push any node
recorded in node1Ancestors onto lcas; descend further only while lcas is
still empty. -/
def CA2Visit (g : Graph) (fuel : Nat) (node : NodeId) (vs : List NodeId × LcaSt) :
    Option (List NodeId × LcaSt) :=
  if node ∈ vs.1 then some vs
  else
    match fuel with
    | 0 => none
    | f + 1 =>
      let vs1 := (node :: vs.1, vs.2)
      if node ∈ vs1.2.node1Ancestors then
        some (vs1.1, { vs1.2 with lcas := vs1.2.lcas ++ [node] })
      else if vs1.2.lcas = [] then CA2All g f (adjacent g node) vs1
      else some vs1
termination_by ((fuel, 0, 0) : Nat × Nat × Nat)

/-- adjacent(node).forEach(CA2Visit ...): every child is tried. -/
def CA2All (g : Graph) (fuel : Nat) (l : List NodeId) (vs : List NodeId × LcaSt) :
    Option (List NodeId × LcaSt) :=
  match l with
  | [] => some vs
  | v :: rest =>
    match CA2Visit g fuel v vs with
    | some vs2 => CA2All g fuel rest vs2
    | none => none
termination_by ((fuel, 1, l.length) : Nat × Nat × Nat)
end

/-- JS lowestCommonAncestors(node1, node2): first pass from node1; if it
did not short-circuit, second pass from node2; return lcas. -/
def lowestCommonAncestors (g : Graph) (node1 node2 : NodeId) : List NodeId :=
  let fuel := (nodes g).length + 2
  match CA1Visit g node2 fuel node1 ⟨[], [], []⟩ with
  | none => []
  | some (b, s) =>
    if b then
      match CA2Visit g fuel node2 ([], s) with
      | none => []
      | some (_, s2) => s2.lcas
    else s.lcas

/-- A Dijkstra distance value: the Infinity sentinel or a finite number. -/
inductive Dist where
  | inf
  | fin (x : Int)
deriving DecidableEq

/-- JS d[u] + w where d[u] is Infinity or finite. -/
def distAdd : Dist → Int → Dist
  | .inf, _ => .inf
  | .fin a, w => .fin (a + w)

/-- JS d[v] > s where d[v] may be undefined (undefined comparisons are
false) and either side may be Infinity. -/
def distGtD : Option Dist → Dist → Bool
  | none, _ => false
  | some .inf, .inf => false
  | some .inf, .fin _ => true
  | some (.fin _), .inf => false
  | some (.fin a), .fin b => decide (b < a)

/-- JS d[node] < min inside extractMin (undefined compares false). -/
def distLtD : Option Dist → Dist → Bool
  | none, _ => false
  | some .inf, _ => false
  | some (.fin _), .inf => true
  | some (.fin a), .fin b => decide (a < b)

/-- JS extractMin: linear scan over the keys of q; the first node whose
distance strictly improves the running minimum wins; null when every
remaining node is at Infinity. -/
def extractMin (d : List (NodeId × Dist)) (q : List NodeId) : Option NodeId :=
  (q.foldl
    (fun acc node =>
      if distLtD (alookup d node) acc.1 then ((alookup d node).getD .inf, some node) else acc)
    ((Dist.inf, none) : Dist × Option NodeId)).2

/-- JS relax(u, v): if d[v] > d[u] + w then update d[v] and p[v]. -/
def relax (g : Graph) (dp : List (NodeId × Dist) × List (NodeId × NodeId)) (u v : NodeId) :
    List (NodeId × Dist) × List (NodeId × NodeId) :=
  let w := getEdgeWeight g u v
  match alookup dp.1 u with
  | none => dp
  | some du =>
    let s := distAdd du w
    if distGtD (alookup dp.1 v) s then (aset dp.1 v s, aset dp.2 v u) else dp

/-- adjacent(u).forEach(v => relax(u, v)). -/
def relaxAll (g : Graph) (dp : List (NodeId × Dist) × List (NodeId × NodeId)) (u : NodeId) :
    List NodeId → List (NodeId × Dist) × List (NodeId × NodeId)
  | [] => dp
  | v :: rest => relaxAll g (relax g dp u v) u rest

/-- The while loop of dijkstra(): until q is empty, extract the minimum
(returning outright when null) and relax all its outgoing edges.  Fuel is
the initial size of q, which suffices since each round removes one key. -/
def dijkstraLoop (g : Graph) :
    Nat → (List (NodeId × Dist) × List (NodeId × NodeId)) → List NodeId →
    List (NodeId × Dist) × List (NodeId × NodeId)
  | 0, dp, _ => dp
  | fuel + 1, dp, q =>
    if q.isEmpty then dp
    else
      match extractMin dp.1 q with
      | none => dp
      | some u => dijkstraLoop g fuel (relaxAll g dp u (adjacent g u)) (q.erase u)

/-- The failure modes of shortestPath; outOfFuel is the modelling artifact
for a predecessor walk that would not terminate (proved unreachable where
claims depend on it). -/
inductive SPErr where
  | srcNotInGraph
  | dstNotInGraph
  | noPathFound
  | outOfFuel
deriving DecidableEq

/-- JS path(): walk predecessor links from destination, accumulating nodes
and edge weights.  The loop condition `while (p[node])` is a JS truthiness
test, so the walk stops both when the entry is absent (undefined) and when
it holds the empty-string node id, which is falsy; fail with the no-path
error when the walk stops anywhere other than the source. -/
def pathWalk (g : Graph) (p : List (NodeId × NodeId)) (source : NodeId) :
    Nat → NodeId → List NodeId → Int → Except SPErr (List NodeId × Int)
  | fuel, node, acc, wt =>
    match alookup p node with
    | some pn =>
      if pn = "" then
        if node = source then .ok ((acc ++ [node]).reverse, wt) else .error .noPathFound
      else
        match fuel with
        | 0 => .error .outOfFuel
        | f + 1 => pathWalk g p source f pn (acc ++ [node]) (wt + getEdgeWeight g pn node)
    | none =>
      if node = source then .ok ((acc ++ [node]).reverse, wt) else .error .noPathFound

/-- JS shortestPath(source, destination): initialise every node at
Infinity, reject a source or destination that is not at the Infinity
sentinel (i.e. absent), set d[source] = 0, run the Dijkstra loop over the
queue of all nodes, then reconstruct the path. -/
def shortestPath (g : Graph) (source destination : NodeId) : Except SPErr (List NodeId × Int) :=
  let ns := nodes g
  let d0 := ns.foldl (fun dd n => aset dd n Dist.inf) []
  if alookup d0 source ≠ some Dist.inf then .error .srcNotInGraph
  else if alookup d0 destination ≠ some Dist.inf then .error .dstNotInGraph
  else
    let dp := dijkstraLoop g ns.length (aset d0 source (Dist.fin 0), []) ns
    pathWalk g dp.2 source (ns.length + 1) destination [] 0

/-- A nonempty directed path (one or more edges). -/
inductive EdgePath (g : Graph) : NodeId → NodeId → Prop where
  | single {u v : NodeId} : hasEdge g u v = true → EdgePath g u v
  | cons {u w v : NodeId} : hasEdge g u w = true → EdgePath g w v → EdgePath g u v

/-- The graph contains a cycle: a nonempty path from some node to itself
(a self-loop is the one-edge case). -/
def HasCycleIn (g : Graph) : Prop := ∃ u, EdgePath g u u

/-- v is reachable from u following zero or more edges. -/
def Reaches (g : Graph) (u v : NodeId) : Prop := u = v ∨ EdgePath g u v

/-- u occurs strictly before v in the list l. -/
def Before (l : List NodeId) (u v : NodeId) : Prop :=
  ∃ l1 l2, l = l1 ++ u :: l2 ∧ v ∈ l2

/-- Consecutive members of l are connected by edges. -/
def chainList (g : Graph) : List NodeId → Bool
  | [] => true
  | [_] => true
  | u :: v :: rest => hasEdge g u v && chainList g (v :: rest)

/-- l is a walk from s to t. -/
def IsWalk (g : Graph) (s t : NodeId) (l : List NodeId) : Prop :=
  l.head? = some s ∧ l.getLast? = some t ∧ chainList g l = true

/-- Total weight of a walk: the sum of getEdgeWeight over consecutive pairs. -/
def walkWeight (g : Graph) : List NodeId → Int
  | [] => 0
  | [_] => 0
  | u :: v :: rest => getEdgeWeight g u v + walkWeight g (v :: rest)

/-- Every present edge has nonnegative weight (decidable: quantifies over
the adjacency entries only). -/
def nonnegWeights (g : Graph) : Prop :=
  ∀ p ∈ g.edges, ∀ v ∈ p.2, 0 ≤ getEdgeWeight g p.1 v

/-- Every adjacency target is itself an adjacency key.  This holds for
every graph built through the public interface, because addEdge adds both
endpoints as keys. -/
def ClosedGraph (g : Graph) : Prop :=
  ∀ p ∈ g.edges, ∀ v ∈ p.2, (alookup g.edges v).isSome = true

/-- No adjacency list contains a duplicate entry. -/
def NoDupEdges (g : Graph) : Prop :=
  ∀ p ∈ g.edges, p.2.Nodup

instance (g : Graph) : Decidable (ClosedGraph g) := by
  unfold ClosedGraph
  infer_instance

instance (g : Graph) : Decidable (NoDupEdges g) := by
  unfold NoDupEdges
  infer_instance

instance (g : Graph) : Decidable (nonnegWeights g) := by
  unfold nonnegWeights
  infer_instance

/-- Every edge has an explicitly stored weight. -/
def AllWeightsSet (g : Graph) : Prop :=
  ∀ p ∈ g.edges, ∀ v ∈ p.2, (alookup g.edgeWeights (encodeEdge p.1 v)).isSome = true

/-- Every edge has an explicitly stored identifier. -/
def AllIdsSet (g : Graph) : Prop :=
  ∀ p ∈ g.edges, ∀ v ∈ p.2, (alookup g.edgeIds (encodeEdge p.1 v)).isSome = true

instance (g : Graph) : Decidable (AllWeightsSet g) := by
  unfold AllWeightsSet
  infer_instance

instance (g : Graph) : Decidable (AllIdsSet g) := by
  unfold AllIdsSet
  infer_instance

/-- The visiting map read as the current exploration stack (most recent
first): consecutive entries are connected by tree edges. -/
def StackOk (g : Graph) : List NodeId → Prop
  | [] => True
  | [_] => True
  | a :: b :: rest => hasEdge g b a = true ∧ StackOk g (b :: rest)

/-- Every member of the list has all its successors strictly earlier. -/
def OrdList (g : Graph) (L : List NodeId) : Prop :=
  ∀ l1 u l2, L = l1 ++ u :: l2 → ∀ v ∈ adjacent g u, v ∈ l1

/-- The relation between a DFSVisit call and its caller: a recursive call
comes from the node on top of the visiting stack along an edge, a top-level
call happens with an empty visiting stack. -/
def CallOk (g : Graph) (frm : Option NodeId) (node : NodeId) (s : DfsSt) : Prop :=
  match frm with
  | some f => s.visiting.head? = some f ∧ hasEdge g f node = true
  | none => s.visiting = []

/-- Invariants of the traversal state during a run with errorOnCycle. -/
def DfsInv (g : Graph) (s : DfsSt) : Prop :=
  (∀ x ∈ s.visiting, x ∈ s.visited) ∧
  (∀ x ∈ s.nodeList, x ∈ s.visited) ∧
  s.nodeList.Nodup ∧
  (∀ x ∈ s.visited, x ∈ s.nodeList ∨ x ∈ s.visiting) ∧
  (∀ x ∈ s.nodeList, x ∉ s.visiting) ∧
  s.visiting.Nodup ∧
  StackOk g s.visiting ∧
  OrdList g s.nodeList

/-- Number of graph nodes not yet visited: the fuel measure of the DFS. -/
def dfsCount (g : Graph) (s : DfsSt) : Nat :=
  ((nodes g).filter (fun x => decide (x ∉ s.visited))).length

/-- Shape and monotonicity facts about one DFSVisit call that returns
normally: visiting is restored, visited only grows, nodeList only extends,
new visited nodes are the argument or adjacency targets. -/
def DfsMonoV (g : Graph) (opts : DfsOpts) (fuel : Nat) : Prop :=
  ∀ frm node s s2, DFSVisit g opts fuel frm node s = .ok s2 →
    (∀ x ∈ s.visiting, x ∈ s.visited) →
    s2.visiting = s.visiting ∧
    (∀ x ∈ s.visited, x ∈ s2.visited) ∧
    (∃ t, s2.nodeList = s.nodeList ++ t) ∧
    (∀ x ∈ s2.visited, x ∈ s.visited ∨ x = node ∨ ∃ m, x ∈ adjacent g m) ∧
    (∀ x ∈ s2.visiting, x ∈ s2.visited) ∧
    node ∈ s2.visited

/-- The same facts for a whole adjacency sweep. -/
def DfsMonoA (g : Graph) (opts : DfsOpts) (fuel : Nat) : Prop :=
  ∀ frm l s s2, visitAdj g opts fuel frm l s = .ok s2 →
    (∀ x ∈ s.visiting, x ∈ s.visited) →
    s2.visiting = s.visiting ∧
    (∀ x ∈ s.visited, x ∈ s2.visited) ∧
    (∃ t, s2.nodeList = s.nodeList ++ t) ∧
    (∀ x ∈ s2.visited, x ∈ s.visited ∨ x ∈ l ∨ ∃ m, x ∈ adjacent g m) ∧
    (∀ x ∈ s2.visiting, x ∈ s2.visited) ∧
    (∀ v ∈ l, v ∈ s2.visited)

/-- Preservation of the traversal invariants by one normally-returning
DFSVisit call in errorOnCycle mode, together with the fact that the visited
node ends up on the post-order list. -/
def DfsInvV (g : Graph) (opts : DfsOpts) (fuel : Nat) : Prop :=
  ∀ frm node s s2, DFSVisit g opts fuel frm node s = .ok s2 →
    DfsInv g s → CallOk g frm node s →
    DfsInv g s2 ∧ node ∈ s2.nodeList

/-- The same preservation for a whole adjacency sweep. -/
def DfsInvA (g : Graph) (opts : DfsOpts) (fuel : Nat) : Prop :=
  ∀ frm l s s2, visitAdj g opts fuel frm l s = .ok s2 →
    DfsInv g s → s.visiting.head? = some frm → (∀ v ∈ l, hasEdge g frm v = true) →
    DfsInv g s2 ∧ ∀ v ∈ l, v ∈ s2.nodeList

/-- A CycleError raised anywhere below a well-formed call really reflects a
cycle in the graph. -/
def DfsCycV (g : Graph) (opts : DfsOpts) (fuel : Nat) : Prop :=
  ∀ frm node s, DFSVisit g opts fuel frm node s = .cycleErr →
    (∀ x ∈ s.visiting, x ∈ s.visited) → StackOk g s.visiting → CallOk g frm node s →
    HasCycleIn g

/-- The same for a whole adjacency sweep. -/
def DfsCycA (g : Graph) (opts : DfsOpts) (fuel : Nat) : Prop :=
  ∀ frm l s, visitAdj g opts fuel frm l s = .cycleErr →
    (∀ x ∈ s.visiting, x ∈ s.visited) → StackOk g s.visiting →
    s.visiting.head? = some frm → (∀ v ∈ l, hasEdge g frm v = true) →
    HasCycleIn g

/-- Fuel strictly above the number of unvisited graph nodes never runs out. -/
def DfsFuelV (g : Graph) (opts : DfsOpts) (fuel : Nat) : Prop :=
  ∀ frm node s, node ∈ nodes g → (∀ x ∈ s.visiting, x ∈ s.visited) →
    dfsCount g s < fuel → DFSVisit g opts fuel frm node s ≠ .fuelOut

/-- The same for a whole adjacency sweep. -/
def DfsFuelA (g : Graph) (opts : DfsOpts) (fuel : Nat) : Prop :=
  ∀ frm l s, (∀ v ∈ l, v ∈ nodes g) → (∀ x ∈ s.visiting, x ∈ s.visited) →
    dfsCount g s < fuel → visitAdj g opts fuel frm l s ≠ .fuelOut

/-- Bool check that a list is topologically ordered: scanning left to
right, every member has all its successors in the already-scanned prefix. -/
def ordCheckAux (g : Graph) : List NodeId → List NodeId → Bool
  | _, [] => true
  | acc, u :: rest =>
    (adjacent g u).all (fun v => decide (v ∈ acc)) && ordCheckAux g (acc ++ [u]) rest

/-- Entry point of the Bool topological-order check. -/
def ordCheck (g : Graph) (L : List NodeId) : Bool := ordCheckAux g [] L

/-- Every finite distance and every predecessor entry belongs to a node
reachable from the source; the invariant behind the no-path error. -/
def ReachInv (g : Graph) (s : NodeId) (d : List (NodeId × Dist))
    (p : List (NodeId × NodeId)) : Prop :=
  (∀ v x, alookup d v = some (Dist.fin x) → Reaches g s v) ∧
  (∀ v u, alookup p v = some u → Reaches g s v)

/-- The Dijkstra loop invariant, relative to graph g and source s.  d and p
are the distance and predecessor tables, q the keys still in the priority
queue, E the settled nodes in order of extraction. -/
structure DijInv (g : Graph) (s : NodeId) (d : List (NodeId × Dist))
    (p : List (NodeId × NodeId)) (q E : List NodeId) : Prop where
  dom : ∀ v, (alookup d v).isSome = true ↔ v ∈ nodes g
  qsub : ∀ v ∈ q, v ∈ nodes g
  qnd : q.Nodup
  seds : ∀ v ∈ nodes g, v ∉ q → v ∈ E
  esub : ∀ v ∈ E, v ∈ nodes g ∧ v ∉ q
  educ : E.Nodup
  dsrc : alookup d s = some (Dist.fin 0)
  reals : ∀ v x, alookup d v = some (Dist.fin x) →
    ∃ l, IsWalk g s v l ∧ walkWeight g l = x
  sfin : ∀ u ∈ E, ∃ x, alookup d u = some (Dist.fin x)
  sopt : ∀ u ∈ E, ∀ x, alookup d u = some (Dist.fin x) →
    ∀ l, IsWalk g s u l → x ≤ walkWeight g l
  sfront : ∀ u ∈ E, ∀ v ∈ adjacent g u, ∀ x, alookup d u = some (Dist.fin x) →
    ∃ y, alookup d v = some (Dist.fin y) ∧ y ≤ x + getEdgeWeight g u v
  sdom : ∀ u ∈ E, ∀ x, alookup d u = some (Dist.fin x) →
    ∀ v ∈ q, ∀ y, alookup d v = some (Dist.fin y) → x ≤ y
  pred : ∀ v u, alookup p v = some u → u ∈ E ∧ hasEdge g u v = true ∧
    ∃ xu, alookup d u = some (Dist.fin xu) ∧
      alookup d v = some (Dist.fin (xu + getEdgeWeight g u v))
  pord : ∀ v u, alookup p v = some u → v ∈ E → Before E u v
  psrc : alookup p s = none
  pson : ∀ v, v ≠ s → ∀ x, alookup d v = some (Dist.fin x) → (alookup p v).isSome = true

/-- The intermediate state (d1, p1) reached while relaxAll processes the
edges out of the freshly extracted node u: every entry is either untouched
or was strictly improved to go through u. -/
def MidInv (g : Graph) (s u : NodeId) (xu : Int) (d : List (NodeId × Dist))
    (p : List (NodeId × NodeId)) (q : List NodeId)
    (d1 : List (NodeId × Dist)) (p1 : List (NodeId × NodeId)) : Prop :=
  (∀ v, (alookup d1 v).isSome = true ↔ v ∈ nodes g) ∧
  (∀ v, (alookup d1 v = alookup d v ∧ alookup p1 v = alookup p v) ∨
    (v ∈ adjacent g u ∧ v ∈ q.erase u ∧
      distGtD (alookup d v) (Dist.fin (xu + getEdgeWeight g u v)) = true ∧
      alookup d1 v = some (Dist.fin (xu + getEdgeWeight g u v)) ∧
      alookup p1 v = some u)) ∧
  (∀ v x, alookup d1 v = some (Dist.fin x) → ∃ l, IsWalk g s v l ∧ walkWeight g l = x)

/-! ### Concrete graphs used by witnesses and counterexamples -/

/-- One edge a → b with weight 2 and identifier e. -/
def gC5 : Graph := addEdge emptyGraph "a" "b" (some 2) (some "e")

/-- The one-edge graph a → b (no weight argument). -/
def gAB : Graph := addEdge emptyGraph "a" "b" none none

/-- Two isolated nodes a and b (no edges at all). -/
def gIso : Graph := addNode (addNode emptyGraph "a") "b"

/-- One edge from the empty-string node id to b (no weight argument). -/
def gEB : Graph := addEdge emptyGraph "" "b" none none


end GraphDS

namespace GraphDS

/-! ### Association list lemmas -/

theorem alookup_aset_self {α β : Type} [DecidableEq α] (l : List (α × β)) (k : α) (v : β) :
    alookup (aset l k v) k = some v := by
  induction l with
  | nil => simp [aset, alookup]
  | cons p rest ih =>
    by_cases h : p.1 = k
    · simp [aset, h, alookup]
    · simp [aset, h, alookup, ih]

theorem alookup_aset_ne {α β : Type} [DecidableEq α] (l : List (α × β)) (k k' : α) (v : β)
    (h : k' ≠ k) : alookup (aset l k v) k' = alookup l k' := by
  have hks : k ≠ k' := Ne.symm h
  induction l with
  | nil => simp [aset, alookup, hks]
  | cons p rest ih =>
    by_cases hp : p.1 = k
    · have hp' : ¬ (p.1 = k') := by rw [hp]; exact hks
      simp [aset, hp, alookup, hks, hp']
    · by_cases hp' : p.1 = k'
      · simp [aset, hp, alookup, hp', h]
      · simp [aset, hp, alookup, hp', ih]

theorem alookup_adel_self {α β : Type} [DecidableEq α] (l : List (α × β)) (k : α) :
    alookup (adel l k) k = none := by
  induction l with
  | nil => simp [adel, alookup]
  | cons p rest ih =>
    by_cases h : p.1 = k
    · simp [adel, h, ih]
    · simp [adel, h, alookup, ih]

theorem alookup_adel_ne {α β : Type} [DecidableEq α] (l : List (α × β)) (k k' : α)
    (h : k' ≠ k) : alookup (adel l k) k' = alookup l k' := by
  induction l with
  | nil => simp [adel]
  | cons p rest ih =>
    by_cases hp : p.1 = k
    · have hp' : ¬ (p.1 = k') := by rw [hp]; exact Ne.symm h
      simp [adel, hp, alookup, hp', ih, Ne.symm h]
    · simp [adel, hp, alookup, ih]

theorem aset_keys {α β : Type} [DecidableEq α] (l : List (α × β)) (k : α) (v : β) :
    (aset l k v).map Prod.fst =
      if k ∈ l.map Prod.fst then l.map Prod.fst else l.map Prod.fst ++ [k] := by
  induction l with
  | nil => simp [aset]
  | cons p rest ih =>
    by_cases h : p.1 = k
    · simp [aset, h]
    · have hk : k ≠ p.1 := Ne.symm h
      rw [show aset (p :: rest) k v = p :: aset rest k v from by simp [aset, h]]
      simp only [List.map_cons, ih]
      by_cases hm : k ∈ rest.map Prod.fst
      · simp [hm, hk]
      · simp [hm, hk]

theorem alookup_isSome_iff_keys {α β : Type} [DecidableEq α] (l : List (α × β)) (k : α) :
    (alookup l k).isSome = true ↔ k ∈ l.map Prod.fst := by
  induction l with
  | nil => simp [alookup]
  | cons p rest ih =>
    by_cases h : p.1 = k
    · simp [alookup, h, List.mem_cons]
    · simp [alookup, h, ih, Ne.symm h]

/-! ### Small store lemmas -/

theorem adjacent_addNode (g : Graph) (n m : NodeId) : adjacent (addNode g n) m = adjacent g m := by
  unfold addNode adjacent
  by_cases h : m = n
  · subst h
    simp [alookup_aset_self]
  · simp [alookup_aset_ne _ _ _ _ h]

theorem addNode_edgeWeights (g : Graph) (n : NodeId) :
    (addNode g n).edgeWeights = g.edgeWeights := rfl

theorem addNode_edgeIds (g : Graph) (n : NodeId) :
    (addNode g n).edgeIds = g.edgeIds := rfl

theorem addEdge_edges (g : Graph) (u v : NodeId) (w : Option Int) (e : Option String) :
    (addEdge g u v w e).edges =
      aset (addNode (addNode g u) v).edges u (adjacent (addNode (addNode g u) v) u ++ [v]) := by
  unfold addEdge
  cases w <;> cases e <;> rfl

theorem addEdge_edgeWeights_some (g : Graph) (u v : NodeId) (w : Int) (e : Option String) :
    (addEdge g u v (some w) e).edgeWeights = aset g.edgeWeights (encodeEdge u v) w := by
  unfold addEdge
  cases e <;> rfl

theorem addEdge_edgeWeights_none (g : Graph) (u v : NodeId) (e : Option String) :
    (addEdge g u v none e).edgeWeights = g.edgeWeights := by
  unfold addEdge
  cases e <;> rfl

theorem adjacent_addEdge_self (g : Graph) (u v : NodeId) (w : Option Int) (e : Option String) :
    adjacent (addEdge g u v w e) u = adjacent g u ++ [v] := by
  have h0 : adjacent (addEdge g u v w e) u = (alookup (addEdge g u v w e).edges u).getD [] := rfl
  rw [h0, addEdge_edges, alookup_aset_self]
  simp [adjacent_addNode]

theorem adjacent_addEdge_ne (g : Graph) (u v m : NodeId) (w : Option Int) (e : Option String)
    (h : m ≠ u) : adjacent (addEdge g u v w e) m = adjacent g m := by
  have h0 : adjacent (addEdge g u v w e) m = (alookup (addEdge g u v w e).edges m).getD [] := rfl
  rw [h0, addEdge_edges, alookup_aset_ne _ _ _ _ h]
  have h2 : adjacent (addNode (addNode g u) v) m =
      (alookup (addNode (addNode g u) v).edges m).getD [] := rfl
  rw [← h2, adjacent_addNode, adjacent_addNode]

theorem getEdgeWeight_addEdge_some (g : Graph) (u v : NodeId) (w : Int) (e : Option String) :
    getEdgeWeight (addEdge g u v (some w) e) u v = w := by
  unfold getEdgeWeight
  rw [addEdge_edgeWeights_some, alookup_aset_self]
  rfl

theorem addEdge_key_isSome (g : Graph) (u v : NodeId) (w : Option Int) (e : Option String) :
    (alookup (addEdge g u v w e).edges u).isSome = true := by
  rw [addEdge_edges, alookup_aset_self]
  rfl

theorem removeEdge_hasEdge_self (g : Graph) (u v : NodeId) :
    hasEdge (removeEdge g u v) u v = false := by
  cases hl : alookup g.edges u with
  | none =>
    unfold removeEdge
    rw [hl]
    simp [hasEdge, adjacent, hl]
  | some l =>
    unfold removeEdge
    rw [hl]
    simp [hasEdge, adjacent, alookup_aset_self]

theorem removeEdge_edgeWeights (g : Graph) (u v : NodeId) :
    (removeEdge g u v).edgeWeights = g.edgeWeights := by
  unfold removeEdge
  split <;> rfl

theorem removeEdge_getEdgeId_self (g : Graph) (u v : NodeId)
    (h : (alookup g.edges u).isSome = true) : getEdgeId (removeEdge g u v) u v = none := by
  unfold removeEdge getEdgeId
  rw [if_pos h]
  exact alookup_adel_self _ _

theorem hasEdge_key (g : Graph) (u v : NodeId) (h : hasEdge g u v = true) :
    (alookup g.edges u).isSome = true := by
  unfold hasEdge at h
  simp at h
  unfold adjacent at h
  cases hl : alookup g.edges u with
  | none => rw [hl] at h; simp at h
  | some l => rfl

theorem setEdgeWeight_edges (g : Graph) (u v : NodeId) (w : Int) :
    (setEdgeWeight g u v w).edges = g.edges := rfl

theorem getEdgeWeight_setEdgeWeight (g : Graph) (u v : NodeId) (w : Int) :
    getEdgeWeight (setEdgeWeight g u v w) u v = w := by
  unfold getEdgeWeight setEdgeWeight
  simp [alookup_aset_self]

theorem getEdgeWeight_removeEdge (g : Graph) (a b x y : NodeId) :
    getEdgeWeight (removeEdge g a b) x y = getEdgeWeight g x y := by
  unfold getEdgeWeight
  rw [removeEdge_edgeWeights]

theorem getEdgeWeight_addEdge_none (g : Graph) (a b x y : NodeId) (e : Option String) :
    getEdgeWeight (addEdge g a b none e) x y = getEdgeWeight g x y := by
  unfold getEdgeWeight
  rw [addEdge_edgeWeights_none]

/-- C8: for an edge (u, v) added with explicit weight w, or an existing edge
whose weight was set with setEdgeWeight(u, v, w), after removeEdge(u, v) the
edge is gone (hasEdge false) and its identifier is the absent marker, yet
getEdgeWeight(u, v) still returns w, and re-adding the edge without a weight
argument yields getEdgeWeight(u, v) = w again. -/
theorem claim_C8_stale_weight (g : Graph) (u v : NodeId) (w : Int) :
    (hasEdge (removeEdge (addEdge g u v (some w) none) u v) u v = false ∧
     getEdgeId (removeEdge (addEdge g u v (some w) none) u v) u v = none ∧
     getEdgeWeight (removeEdge (addEdge g u v (some w) none) u v) u v = w ∧
     getEdgeWeight (addEdge (removeEdge (addEdge g u v (some w) none) u v) u v none none) u v
       = w) ∧
    (hasEdge g u v = true →
     hasEdge (removeEdge (setEdgeWeight g u v w) u v) u v = false ∧
     getEdgeId (removeEdge (setEdgeWeight g u v w) u v) u v = none ∧
     getEdgeWeight (removeEdge (setEdgeWeight g u v w) u v) u v = w ∧
     getEdgeWeight (addEdge (removeEdge (setEdgeWeight g u v w) u v) u v none none) u v = w) := by
  refine ⟨⟨removeEdge_hasEdge_self _ _ _, ?_, ?_, ?_⟩,
    fun hEdge => ⟨removeEdge_hasEdge_self _ _ _, ?_, ?_, ?_⟩⟩
  · exact removeEdge_getEdgeId_self _ _ _ (addEdge_key_isSome g u v (some w) none)
  · rw [getEdgeWeight_removeEdge, getEdgeWeight_addEdge_some]
  · rw [getEdgeWeight_addEdge_none, getEdgeWeight_removeEdge, getEdgeWeight_addEdge_some]
  · refine removeEdge_getEdgeId_self _ _ _ ?_
    rw [setEdgeWeight_edges]
    exact hasEdge_key g u v hEdge
  · rw [getEdgeWeight_removeEdge, getEdgeWeight_setEdgeWeight]
  · rw [getEdgeWeight_addEdge_none, getEdgeWeight_removeEdge, getEdgeWeight_setEdgeWeight]

/-- Witness for C8 at the concrete graph a → b with weight set to 5. -/
theorem claim_C8_witness :
    hasEdge gAB "a" "b" = true ∧
    (hasEdge (removeEdge (setEdgeWeight gAB "a" "b" 5) "a" "b") "a" "b" = false ∧
     getEdgeId (removeEdge (setEdgeWeight gAB "a" "b" 5) "a" "b") "a" "b" = none ∧
     getEdgeWeight (removeEdge (setEdgeWeight gAB "a" "b" 5) "a" "b") "a" "b" = 5 ∧
     getEdgeWeight (addEdge (removeEdge (setEdgeWeight gAB "a" "b" 5) "a" "b") "a" "b" none none)
       "a" "b" = 5) :=
  ⟨by decide, (claim_C8_stale_weight gAB "a" "b" 5).2 (by decide)⟩

/-! ### nodes() membership -/

theorem mem_addUnique (l : List NodeId) (z y : NodeId) :
    y ∈ addUnique l z ↔ y ∈ l ∨ y = z := by
  unfold addUnique
  by_cases h : z ∈ l
  · simp [h]
    intro he
    subst he
    exact h
  · simp [h]

theorem addUnique_nodup (l : List NodeId) (z : NodeId) (h : l.Nodup) :
    (addUnique l z).Nodup := by
  unfold addUnique
  by_cases hz : z ∈ l
  · simpa [hz]
  · simp [hz, h, List.nodup_append]

theorem mem_foldl_addUnique (l : List NodeId) (acc : List NodeId) (y : NodeId) :
    y ∈ l.foldl addUnique acc ↔ y ∈ acc ∨ y ∈ l := by
  induction l generalizing acc with
  | nil => simp
  | cons a rest ih =>
    simp only [List.foldl_cons, ih, mem_addUnique, List.mem_cons]
    tauto

theorem foldl_addUnique_nodup (l : List NodeId) (acc : List NodeId) (h : acc.Nodup) :
    (l.foldl addUnique acc).Nodup := by
  induction l generalizing acc with
  | nil => exact h
  | cons a rest ih => exact ih _ (addUnique_nodup _ _ h)

theorem mem_nodes_aux (es : List (NodeId × List NodeId)) (acc : List NodeId) (y : NodeId) :
    y ∈ es.foldl (fun acc p => p.2.foldl addUnique (addUnique acc p.1)) acc ↔
      y ∈ acc ∨ ∃ p ∈ es, y = p.1 ∨ y ∈ p.2 := by
  induction es generalizing acc with
  | nil => simp
  | cons p rest ih =>
    simp only [List.foldl_cons, ih, mem_foldl_addUnique, mem_addUnique, List.mem_cons]
    constructor
    · rintro (((h | h) | h) | ⟨q, hq, h⟩)
      · exact Or.inl h
      · exact Or.inr ⟨p, Or.inl rfl, Or.inl h⟩
      · exact Or.inr ⟨p, Or.inl rfl, Or.inr h⟩
      · exact Or.inr ⟨q, Or.inr hq, h⟩
    · rintro (h | ⟨q, (hq | hq), h⟩)
      · exact Or.inl (Or.inl (Or.inl h))
      · subst hq
        rcases h with h | h
        · exact Or.inl (Or.inl (Or.inr h))
        · exact Or.inl (Or.inr h)
      · exact Or.inr ⟨q, hq, h⟩

theorem mem_nodes_iff (g : Graph) (y : NodeId) :
    y ∈ nodes g ↔ ∃ p ∈ g.edges, y = p.1 ∨ y ∈ p.2 := by
  unfold nodes
  rw [mem_nodes_aux]
  simp

theorem nodes_nodup (g : Graph) : (nodes g).Nodup := by
  unfold nodes
  generalize g.edges = es
  have : ([] : List NodeId).Nodup := List.nodup_nil
  generalize ([] : List NodeId) = acc at this
  induction es generalizing acc with
  | nil => exact this
  | cons p rest ih =>
    exact ih _ (foldl_addUnique_nodup _ _ (addUnique_nodup _ _ this))

theorem not_key_adjacent_nil (g : Graph) (m : NodeId) (h : m ∉ g.edges.map Prod.fst) :
    adjacent g m = [] := by
  unfold adjacent
  cases hl : alookup g.edges m with
  | none => rfl
  | some l =>
    exfalso
    apply h
    rw [← alookup_isSome_iff_keys, hl]
    rfl

theorem mem_nodes_of_key (g : Graph) (m : NodeId) (h : m ∈ g.edges.map Prod.fst) :
    m ∈ nodes g := by
  rw [mem_nodes_iff]
  rcases List.mem_map.mp h with ⟨p, hp, hk⟩
  exact ⟨p, hp, Or.inl hk.symm⟩

theorem alookup_mem {β : Type} (l : List (NodeId × β)) (m : NodeId) (b : β)
    (h : alookup l m = some b) : (m, b) ∈ l := by
  induction l with
  | nil => simp [alookup] at h
  | cons p rest ih =>
    by_cases hp : p.1 = m
    · simp only [alookup, if_pos hp] at h
      injection h with hb
      subst hb
      rw [← hp, Prod.mk.eta]
      exact List.mem_cons_self _ _
    · simp only [alookup, if_neg hp] at h
      exact List.mem_cons_of_mem _ (ih h)

theorem mem_nodes_of_adjacent (g : Graph) (m z : NodeId) (h : z ∈ adjacent g m) :
    z ∈ nodes g := by
  rw [mem_nodes_iff]
  unfold adjacent at h
  cases hl : alookup g.edges m with
  | none => rw [hl] at h; simp at h
  | some l =>
    rw [hl] at h
    simp at h
    exact ⟨(m, l), alookup_mem _ _ _ hl, Or.inr h⟩

theorem alookup_of_mem_nodup {β : Type} (l : List (NodeId × β)) (p : NodeId × β)
    (hnd : (l.map Prod.fst).Nodup) (h : p ∈ l) : alookup l p.1 = some p.2 := by
  induction l with
  | nil => simp at h
  | cons q rest ih =>
    rw [List.map_cons, List.nodup_cons] at hnd
    rcases List.mem_cons.mp h with he | hm
    · subst he
      simp [alookup]
    · have hne : ¬ (q.1 = p.1) := by
        intro hq
        apply hnd.1
        rw [hq]
        exact List.mem_map_of_mem _ hm
      simp only [alookup, if_neg hne]
      exact ih hnd.2 hm

/-! ### removeNode characterisation -/

theorem aset_aset {α β : Type} [DecidableEq α] (l : List (α × β)) (k : α) (a b : β) :
    aset (aset l k a) k b = aset l k b := by
  induction l with
  | nil => simp [aset]
  | cons p rest ih =>
    by_cases h : p.1 = k
    · simp [aset, h]
    · simp [aset, h, ih]

theorem adel_adel {α β : Type} [DecidableEq α] (l : List (α × β)) (k : α) :
    adel (adel l k) k = adel l k := by
  induction l with
  | nil => simp [adel]
  | cons p rest ih =>
    by_cases h : p.1 = k
    · simp [adel, h, ih]
    · simp [adel, h, ih]

theorem adjacent_removeEdge_self (g : Graph) (u v : NodeId) :
    adjacent (removeEdge g u v) u = (adjacent g u).filter (fun x => decide (x ≠ v)) := by
  cases hl : alookup g.edges u with
  | none =>
    unfold removeEdge
    rw [hl]
    simp [adjacent, hl]
  | some l =>
    unfold removeEdge
    rw [hl]
    simp only [Option.isSome_some, if_pos]
    show (alookup (aset g.edges u ((adjacent g u).filter (fun x => decide (x ≠ v)))) u).getD []
      = (adjacent g u).filter (fun x => decide (x ≠ v))
    rw [alookup_aset_self]
    rfl

theorem adjacent_removeEdge_ne (g : Graph) (u v m : NodeId) (h : m ≠ u) :
    adjacent (removeEdge g u v) m = adjacent g m := by
  unfold removeEdge
  split
  · show (alookup (aset g.edges u _) m).getD [] = adjacent g m
    rw [alookup_aset_ne _ _ _ _ h]
    rfl
  · rfl

theorem removeEdge_keys (g : Graph) (u v : NodeId) :
    (removeEdge g u v).edges.map Prod.fst = g.edges.map Prod.fst := by
  cases hl : alookup g.edges u with
  | none =>
    unfold removeEdge
    rw [hl]
    rfl
  | some l =>
    unfold removeEdge
    rw [hl]
    simp only [Option.isSome_some, if_pos]
    show (aset g.edges u _).map Prod.fst = g.edges.map Prod.fst
    rw [aset_keys]
    have : u ∈ g.edges.map Prod.fst := by
      rw [← alookup_isSome_iff_keys, hl]
      rfl
    simp [this]

theorem graph_ext (g1 g2 : Graph) (he : g1.edges = g2.edges)
    (hw : g1.edgeWeights = g2.edgeWeights) (hi : g1.edgeIds = g2.edgeIds) : g1 = g2 := by
  cases g1
  cases g2
  simp_all

theorem removeEdge_of_nokey (g : Graph) (u v : NodeId) (h : alookup g.edges u = none) :
    removeEdge g u v = g := by
  unfold removeEdge
  rw [h]
  rfl

theorem removeEdge_eq_of_key (g : Graph) (u v : NodeId) (l : List NodeId)
    (h : alookup g.edges u = some l) :
    removeEdge g u v = { g with edges := aset g.edges u (l.filter (fun x => decide (x ≠ v))),
                                edgeIds := adel g.edgeIds (encodeEdge u v) } := by
  have hadj : adjacent g u = l := by
    unfold adjacent
    rw [h]
    rfl
  unfold removeEdge
  rw [hadj, h]
  rfl

theorem removeEdge_idem (g : Graph) (u v : NodeId) :
    removeEdge (removeEdge g u v) u v = removeEdge g u v := by
  cases hl : alookup g.edges u with
  | none => rw [removeEdge_of_nokey g u v hl, removeEdge_of_nokey g u v hl]
  | some l =>
    have h1 := removeEdge_eq_of_key g u v l hl
    have hl2 : alookup (removeEdge g u v).edges u
        = some (l.filter (fun x => decide (x ≠ v))) := by
      rw [h1]
      exact alookup_aset_self _ _ _
    have h2 := removeEdge_eq_of_key (removeEdge g u v) u v _ hl2
    rw [h2]
    apply graph_ext
    · show aset (removeEdge g u v).edges u _ = (removeEdge g u v).edges
      rw [h1]
      show aset (aset g.edges u _) u _ = aset g.edges u _
      rw [aset_aset]
      congr 1
      simp
    · rfl
    · show adel (removeEdge g u v).edgeIds _ = (removeEdge g u v).edgeIds
      rw [h1]
      show adel (adel g.edgeIds _) _ = adel g.edgeIds _
      rw [adel_adel]

theorem inner_fold_eq (x u : NodeId) (A : List NodeId) (h : Graph) :
    A.foldl (fun h2 v => if v = x then removeEdge h2 u v else h2) h
      = if x ∈ A then removeEdge h u x else h := by
  induction A generalizing h with
  | nil => simp
  | cons a rest ih =>
    by_cases hax : a = x
    · subst hax
      simp only [List.foldl_cons, if_pos rfl, List.mem_cons, true_or, if_true, ih]
      by_cases hr : a ∈ rest
      · rw [if_pos hr, removeEdge_idem]
      · rw [if_neg hr]
    · have hxa : ¬ (x = a) := fun he => hax he.symm
      simp [List.foldl_cons, hax, ih, hxa]

theorem removeNode_fold_eq (g : Graph) (x : NodeId) :
    removeNode g x =
      { (g.edges.map Prod.fst).foldl
          (fun h u => if x ∈ adjacent h u then removeEdge h u x else h) g with
        edges := adel ((g.edges.map Prod.fst).foldl
          (fun h u => if x ∈ adjacent h u then removeEdge h u x else h) g).edges x } := by
  have hf : (g.edges.map Prod.fst).foldl
      (fun h u => (adjacent h u).foldl
        (fun h2 v => if v = x then removeEdge h2 u v else h2) h) g
      = (g.edges.map Prod.fst).foldl
        (fun h u => if x ∈ adjacent h u then removeEdge h u x else h) g := by
    apply List.foldl_ext
    intro h u _
    exact inner_fold_eq x u (adjacent h u) h
  unfold removeNode
  simp only [hf]

theorem step_adjacent_self (h : Graph) (u x : NodeId) :
    adjacent (if x ∈ adjacent h u then removeEdge h u x else h) u
      = (adjacent h u).filter (fun z => decide (z ≠ x)) := by
  by_cases hx : x ∈ adjacent h u
  · rw [if_pos hx, adjacent_removeEdge_self]
  · rw [if_neg hx, List.filter_eq_self.mpr]
    intro a ha
    simp
    intro he
    subst he
    exact hx ha

theorem step_adjacent_ne (h : Graph) (u x m : NodeId) (hm : m ≠ u) :
    adjacent (if x ∈ adjacent h u then removeEdge h u x else h) m = adjacent h m := by
  by_cases hx : x ∈ adjacent h u
  · rw [if_pos hx, adjacent_removeEdge_ne _ _ _ _ hm]
  · rw [if_neg hx]

theorem step_keys (h : Graph) (u x : NodeId) :
    (if x ∈ adjacent h u then removeEdge h u x else h).edges.map Prod.fst
      = h.edges.map Prod.fst := by
  by_cases hx : x ∈ adjacent h u
  · rw [if_pos hx, removeEdge_keys]
  · rw [if_neg hx]

theorem outer_fold_adjacent (x : NodeId) (K : List NodeId) (hK : K.Nodup) (h : Graph)
    (m : NodeId) :
    adjacent (K.foldl (fun h u => if x ∈ adjacent h u then removeEdge h u x else h) h) m
      = if m ∈ K then (adjacent h m).filter (fun z => decide (z ≠ x)) else adjacent h m := by
  induction K generalizing h with
  | nil => simp
  | cons u K ih =>
    have hnd := List.nodup_cons.mp hK
    by_cases hmu : m = u
    · subst hmu
      simp only [List.foldl_cons, List.mem_cons, true_or, if_pos]
      rw [ih hnd.2, if_neg hnd.1, step_adjacent_self]
    · simp only [List.foldl_cons]
      rw [ih hnd.2, step_adjacent_ne _ _ _ _ hmu]
      by_cases hmK : m ∈ K
      · simp [hmK, hmu]
      · simp [hmK, hmu]

theorem outer_fold_keys (x : NodeId) (K : List NodeId) (h : Graph) :
    (K.foldl (fun h u => if x ∈ adjacent h u then removeEdge h u x else h) h).edges.map Prod.fst
      = h.edges.map Prod.fst := by
  induction K generalizing h with
  | nil => rfl
  | cons u K ih =>
    simp only [List.foldl_cons]
    rw [ih, step_keys]

theorem adel_keys {α β : Type} [DecidableEq α] (l : List (α × β)) (k : α) :
    (adel l k).map Prod.fst = (l.map Prod.fst).filter (fun z => decide (z ≠ k)) := by
  induction l with
  | nil => simp [adel]
  | cons p rest ih =>
    by_cases h : p.1 = k
    · simp [adel, h, ih]
    · simp [adel, h, ih]

theorem mem_adel {α β : Type} [DecidableEq α] (l : List (α × β)) (k : α) (p : α × β) :
    p ∈ adel l k ↔ p ∈ l ∧ p.1 ≠ k := by
  induction l with
  | nil => simp [adel]
  | cons q rest ih =>
    by_cases h : q.1 = k
    · rw [adel, if_pos h, ih]
      constructor
      · rintro ⟨hm, hne⟩
        exact ⟨List.mem_cons_of_mem _ hm, hne⟩
      · rintro ⟨hm, hne⟩
        rcases List.mem_cons.mp hm with he | hm
        · exfalso
          apply hne
          rw [he, h]
        · exact ⟨hm, hne⟩
    · rw [adel, if_neg h]
      constructor
      · intro hm
        rcases List.mem_cons.mp hm with he | hm
        · subst he
          exact ⟨List.mem_cons_self _ _, h⟩
        · have := (ih.mp hm)
          exact ⟨List.mem_cons_of_mem _ this.1, this.2⟩
      · rintro ⟨hm, hne⟩
        rcases List.mem_cons.mp hm with he | hm
        · subst he
          exact List.mem_cons_self _ _
        · exact List.mem_cons_of_mem _ (ih.mpr ⟨hm, hne⟩)

theorem adjacent_removeNode (g : Graph) (x m : NodeId)
    (hnk : (g.edges.map Prod.fst).Nodup) :
    adjacent (removeNode g x) m
      = if m = x then [] else (adjacent g m).filter (fun z => decide (z ≠ x)) := by
  rw [removeNode_fold_eq]
  by_cases hmx : m = x
  · subst hmx
    simp only [if_pos rfl]
    unfold adjacent
    simp only
    rw [alookup_adel_self]
    rfl
  · rw [if_neg hmx]
    have h1 : adjacent { (g.edges.map Prod.fst).foldl
        (fun h u => if x ∈ adjacent h u then removeEdge h u x else h) g with
        edges := adel ((g.edges.map Prod.fst).foldl
          (fun h u => if x ∈ adjacent h u then removeEdge h u x else h) g).edges x } m
        = adjacent ((g.edges.map Prod.fst).foldl
          (fun h u => if x ∈ adjacent h u then removeEdge h u x else h) g) m := by
      unfold adjacent
      simp only
      rw [alookup_adel_ne _ _ _ hmx]
    rw [h1, outer_fold_adjacent x _ hnk]
    by_cases hm : m ∈ g.edges.map Prod.fst
    · rw [if_pos hm]
    · rw [if_neg hm, not_key_adjacent_nil g m hm]
      rfl

/-- C9: after removeNode(x), x is gone from nodes(), adjacent(x) is empty,
no adjacency list contains x, and for nodes y, z distinct from x the
membership of y in nodes() and the value of hasEdge(y, z) are unchanged.
The hypotheses state that the adjacency object has no duplicate keys (true
of every JS object) and that every adjacency target is itself a key (true
of every graph built through the public interface). -/
theorem claim_C9_removeNode (g : Graph) (x : NodeId)
    (hnk : (g.edges.map Prod.fst).Nodup) (hc : ClosedGraph g) :
    x ∉ nodes (removeNode g x) ∧
    adjacent (removeNode g x) x = [] ∧
    (∀ y, x ∉ adjacent (removeNode g x) y) ∧
    (∀ y, y ≠ x → (y ∈ nodes (removeNode g x) ↔ y ∈ nodes g)) ∧
    (∀ y z, y ≠ x → z ≠ x → hasEdge (removeNode g x) y z = hasEdge g y z) := by
  have hadj : ∀ m, adjacent (removeNode g x) m
      = if m = x then [] else (adjacent g m).filter (fun z => decide (z ≠ x)) :=
    fun m => adjacent_removeNode g x m hnk
  have hkeys : (removeNode g x).edges.map Prod.fst
      = (g.edges.map Prod.fst).filter (fun z => decide (z ≠ x)) := by
    rw [removeNode_fold_eq]
    show (adel _ x).map Prod.fst = _
    rw [adel_keys, outer_fold_keys]
  have hkeysnd : ((removeNode g x).edges.map Prod.fst).Nodup := by
    rw [hkeys]
    exact List.Nodup.filter _ hnk
  have hnoadjx : ∀ y, x ∉ adjacent (removeNode g x) y := by
    intro y
    rw [hadj y]
    by_cases hy : y = x
    · simp [hy]
    · simp [hy]
  refine ⟨?_, ?_, hnoadjx, ?_, ?_⟩
  · rw [mem_nodes_iff]
    rintro ⟨p, hp, hx⟩
    rcases hx with hx | hx
    · have : p.1 ∈ (removeNode g x).edges.map Prod.fst := List.mem_map_of_mem _ hp
      rw [hkeys] at this
      have hne : p.1 ≠ x := by simpa using (List.mem_filter.mp this).2
      exact hne hx.symm
    · have hl : alookup (removeNode g x).edges p.1 = some p.2 :=
        alookup_of_mem_nodup _ _ hkeysnd hp
      have : x ∈ adjacent (removeNode g x) p.1 := by
        unfold adjacent
        rw [hl]
        exact hx
      exact hnoadjx _ this
  · rw [hadj x]
    simp
  · intro y hy
    constructor
    · rw [mem_nodes_iff, mem_nodes_iff]
      rintro ⟨p, hp, hcase⟩
      rcases hcase with hcase | hcase
      · have : p.1 ∈ (removeNode g x).edges.map Prod.fst := List.mem_map_of_mem _ hp
        rw [hkeys] at this
        rcases List.mem_map.mp (List.mem_filter.mp this).1 with ⟨q, hq, hqk⟩
        exact ⟨q, hq, Or.inl (by rw [hcase, hqk])⟩
      · have hl : alookup (removeNode g x).edges p.1 = some p.2 :=
          alookup_of_mem_nodup _ _ hkeysnd hp
        have hy2 : y ∈ adjacent (removeNode g x) p.1 := by
          unfold adjacent
          rw [hl]
          exact hcase
        rw [hadj p.1] at hy2
        by_cases hpx : p.1 = x
        · rw [if_pos hpx] at hy2
          simp at hy2
        · rw [if_neg hpx] at hy2
          simp at hy2
          have := mem_nodes_of_adjacent g p.1 y hy2.1
          rw [mem_nodes_iff] at this
          exact this
    · intro hyg
      rw [mem_nodes_iff] at hyg
      rcases hyg with ⟨p, hp, hcase⟩
      have keymem : ∀ m : NodeId, m ≠ x → m ∈ g.edges.map Prod.fst
          → m ∈ nodes (removeNode g x) := by
        intro m hmx hmk
        apply mem_nodes_of_key
        rw [hkeys]
        exact List.mem_filter.mpr ⟨hmk, by simp [hmx]⟩
      rcases hcase with hcase | hcase
      · subst hcase
        exact keymem _ hy (List.mem_map_of_mem _ hp)
      · by_cases hpx : p.1 = x
        · have : (alookup g.edges y).isSome = true := hc p hp y hcase
          rw [alookup_isSome_iff_keys] at this
          exact keymem _ hy this
        · have hl : alookup g.edges p.1 = some p.2 := alookup_of_mem_nodup _ _ hnk hp
          have : y ∈ adjacent (removeNode g x) p.1 := by
            rw [hadj p.1, if_neg hpx]
            simp [hy]
            unfold adjacent
            rw [hl]
            exact hcase
          exact mem_nodes_of_adjacent _ _ _ this
  · intro y z hyz hzx
    rw [show hasEdge (removeNode g x) y z = decide (z ∈ adjacent (removeNode g x) y) from rfl]
    rw [show hasEdge g y z = decide (z ∈ adjacent g y) from rfl]
    rw [hadj y, if_neg hyz]
    simp [hzx]

/-- Witness for C9 at the triangle a → b → c → a with b removed. -/
theorem claim_C9_witness :
    ((addEdge (addEdge (addEdge emptyGraph "a" "b" none none) "b" "c" none none)
        "c" "a" none none).edges.map Prod.fst).Nodup ∧
    ClosedGraph (addEdge (addEdge (addEdge emptyGraph "a" "b" none none) "b" "c" none none)
        "c" "a" none none) ∧
    "b" ∉ nodes (removeNode (addEdge (addEdge (addEdge emptyGraph "a" "b" none none)
        "b" "c" none none) "c" "a" none none) "b") :=
  ⟨by decide, by decide,
    (claim_C9_removeNode (addEdge (addEdge (addEdge emptyGraph "a" "b" none none)
      "b" "c" none none) "c" "a" none none) "b" (by decide) (by decide)).1⟩

/-! ### Serialization round trip -/

theorem addUnique_of_mem (l : List NodeId) (x : NodeId) (h : x ∈ l) : addUnique l x = l := by
  unfold addUnique
  rw [if_pos h]

theorem keys_addNode (g : Graph) (n : NodeId) :
    (addNode g n).edges.map Prod.fst = addUnique (g.edges.map Prod.fst) n := by
  show (aset g.edges n (adjacent g n)).map Prod.fst = _
  rw [aset_keys]
  rfl

theorem keys_addEdge (g : Graph) (u v : NodeId) (w : Option Int) (e : Option String) :
    (addEdge g u v w e).edges.map Prod.fst
      = addUnique (addUnique (g.edges.map Prod.fst) u) v := by
  rw [addEdge_edges, aset_keys]
  have hu : u ∈ (addNode (addNode g u) v).edges.map Prod.fst := by
    rw [keys_addNode, keys_addNode, mem_addUnique]
    left
    rw [mem_addUnique]
    right
    rfl
  rw [if_pos hu, keys_addNode, keys_addNode]

theorem edgeIds_addEdge_none (g : Graph) (u v : NodeId) (w : Option Int) :
    (addEdge g u v w none).edgeIds = g.edgeIds := by
  unfold addEdge
  cases w <;> rfl

theorem getEdgeWeight_congr_key (g : Graph) (a b c d : NodeId)
    (h : encodeEdge a b = encodeEdge c d) : getEdgeWeight g a b = getEdgeWeight g c d := by
  unfold getEdgeWeight
  rw [h]

theorem foldAddNode_adjacent (L : List SerNode) (h : Graph) (m : NodeId) :
    adjacent (L.foldl (fun h n => addNode h n.id) h) m = adjacent h m := by
  induction L generalizing h with
  | nil => rfl
  | cons n L ih => rw [List.foldl_cons, ih, adjacent_addNode]

theorem foldAddNode_edgeWeights (L : List SerNode) (h : Graph) :
    (L.foldl (fun h n => addNode h n.id) h).edgeWeights = h.edgeWeights := by
  induction L generalizing h with
  | nil => rfl
  | cons n L ih => rw [List.foldl_cons, ih, addNode_edgeWeights]

theorem foldAddNode_edgeIds (L : List SerNode) (h : Graph) :
    (L.foldl (fun h n => addNode h n.id) h).edgeIds = h.edgeIds := by
  induction L generalizing h with
  | nil => rfl
  | cons n L ih => rw [List.foldl_cons, ih, addNode_edgeIds]

theorem foldAddNode_keys (L : List SerNode) (h : Graph) :
    (L.foldl (fun h n => addNode h n.id) h).edges.map Prod.fst
      = (L.map SerNode.id).foldl addUnique (h.edges.map Prod.fst) := by
  induction L generalizing h with
  | nil => rfl
  | cons n L ih => rw [List.foldl_cons, ih, keys_addNode, List.map_cons, List.foldl_cons]

theorem foldl_addUnique_disjoint (l : List NodeId) (acc : List NodeId) (hl : l.Nodup)
    (hd : ∀ x ∈ l, x ∉ acc) : l.foldl addUnique acc = acc ++ l := by
  induction l generalizing acc with
  | nil => simp
  | cons a rest ih =>
    have hnd := List.nodup_cons.mp hl
    rw [List.foldl_cons]
    have h1 : addUnique acc a = acc ++ [a] := by
      unfold addUnique
      rw [if_neg (hd a (List.mem_cons_self _ _))]
    rw [h1]
    have hih := ih (acc ++ [a]) hnd.2 (by
      intro x hx
      simp only [List.mem_append, List.mem_singleton]
      rintro (hxa | hxa)
      · exact hd x (List.mem_cons_of_mem _ hx) hxa
      · subst hxa
        exact hnd.1 hx)
    rw [hih]
    simp

theorem foldAddEdge_adjacent (LS : List SerLink) (h : Graph) (m : NodeId) :
    adjacent (LS.foldl (fun h l => addEdge h l.source l.target (some l.weight) none) h) m
      = adjacent h m ++ (LS.filter (fun l => decide (l.source = m))).map SerLink.target := by
  induction LS generalizing h with
  | nil => simp
  | cons l LS ih =>
    rw [List.foldl_cons, ih]
    by_cases hs : l.source = m
    · subst hs
      rw [List.filter_cons_of_pos (by simp), List.map_cons,
        adjacent_addEdge_self]
      simp
    · rw [List.filter_cons_of_neg (by simp [hs]),
        adjacent_addEdge_ne _ _ _ _ _ _ (Ne.symm hs)]

theorem foldAddEdge_keys_fixed (LS : List SerLink) (h : Graph)
    (hend : ∀ l ∈ LS, l.source ∈ h.edges.map Prod.fst ∧ l.target ∈ h.edges.map Prod.fst) :
    (LS.foldl (fun h l => addEdge h l.source l.target (some l.weight) none) h).edges.map Prod.fst
      = h.edges.map Prod.fst := by
  induction LS generalizing h with
  | nil => rfl
  | cons l LS ih =>
    have he := hend l (List.mem_cons_self _ _)
    have hkeys : (addEdge h l.source l.target (some l.weight) none).edges.map Prod.fst
        = h.edges.map Prod.fst := by
      rw [keys_addEdge, addUnique_of_mem _ _ he.1, addUnique_of_mem _ _ he.2]
    rw [List.foldl_cons, ih, hkeys]
    intro l' hl'
    rw [hkeys]
    exact hend l' (List.mem_cons_of_mem _ hl')

theorem foldAddEdge_edgeIds (LS : List SerLink) (h : Graph) :
    (LS.foldl (fun h l => addEdge h l.source l.target (some l.weight) none) h).edgeIds
      = h.edgeIds := by
  induction LS generalizing h with
  | nil => rfl
  | cons l LS ih => rw [List.foldl_cons, ih, edgeIds_addEdge_none]

theorem foldAddEdge_weights_absent (LS : List SerLink) (h : Graph) (k : String)
    (habs : ∀ l ∈ LS, encodeEdge l.source l.target ≠ k) :
    alookup (LS.foldl (fun h l => addEdge h l.source l.target (some l.weight) none)
      h).edgeWeights k = alookup h.edgeWeights k := by
  induction LS generalizing h with
  | nil => rfl
  | cons l LS ih =>
    rw [List.foldl_cons, ih _ (fun l' hl' => habs l' (List.mem_cons_of_mem _ hl')),
      addEdge_edgeWeights_some,
      alookup_aset_ne _ _ _ _ (Ne.symm (habs l (List.mem_cons_self _ _)))]

theorem foldAddEdge_weights_const (LS : List SerLink) (h : Graph) (k : String) (c : Int)
    (hall : ∀ l ∈ LS, encodeEdge l.source l.target = k → l.weight = c)
    (hex : ∃ l ∈ LS, encodeEdge l.source l.target = k) :
    alookup (LS.foldl (fun h l => addEdge h l.source l.target (some l.weight) none)
      h).edgeWeights k = some c := by
  induction LS generalizing h with
  | nil =>
    rcases hex with ⟨l, hl, _⟩
    simp at hl
  | cons l LS ih =>
    rw [List.foldl_cons]
    by_cases hk : encodeEdge l.source l.target = k
    · have hw : l.weight = c := hall l (List.mem_cons_self _ _) hk
      have hbase : alookup (addEdge h l.source l.target (some l.weight) none).edgeWeights k
          = some c := by
        rw [addEdge_edgeWeights_some, ← hk, alookup_aset_self, hw]
      by_cases hex2 : ∃ l' ∈ LS, encodeEdge l'.source l'.target = k
      · exact ih _ (fun l' hl' => hall l' (List.mem_cons_of_mem _ hl')) hex2
      · push_neg at hex2
        rw [foldAddEdge_weights_absent _ _ _ hex2, hbase]
    · rcases hex with ⟨l', hl', hk'⟩
      rcases List.mem_cons.mp hl' with he | hm
      · exfalso
        apply hk
        rw [he] at hk'
        exact hk'
      · exact ih _ (fun l2 hl2 => hall l2 (List.mem_cons_of_mem _ hl2)) ⟨l', hm, hk'⟩

theorem mem_serialize_links (g : Graph) (l : SerLink) :
    l ∈ (serialize g).links ↔
      l.source ∈ nodes g ∧ l.target ∈ adjacent g l.source ∧
      l.weight = getEdgeWeight g l.source l.target ∧
      l.id = getEdgeId g l.source l.target := by
  show l ∈ ((nodes g).map (fun s =>
      (adjacent g s).map (fun t => (⟨s, t, getEdgeWeight g s t, getEdgeId g s t⟩ : SerLink)))).flatten
    ↔ _
  rw [List.mem_flatten]
  constructor
  · rintro ⟨blk, hblk, hlblk⟩
    rcases List.mem_map.mp hblk with ⟨s, hs, rfl⟩
    rcases List.mem_map.mp hlblk with ⟨t, ht, rfl⟩
    exact ⟨hs, ht, rfl, rfl⟩
  · rintro ⟨hs, ht, hw, hid⟩
    refine ⟨(adjacent g l.source).map
      (fun t => (⟨l.source, t, getEdgeWeight g l.source t, getEdgeId g l.source t⟩ : SerLink)),
      List.mem_map_of_mem _ hs, ?_⟩
    rw [List.mem_map]
    refine ⟨l.target, ht, ?_⟩
    cases l with
    | mk s t w i =>
      simp only at hw hid
      rw [hw, hid]

theorem filter_blocks_aux (g : Graph) (m : NodeId) (L : List NodeId) (hL : L.Nodup) :
    ((L.map (fun s => (adjacent g s).map
        (fun t => (⟨s, t, getEdgeWeight g s t, getEdgeId g s t⟩ : SerLink)))).flatten.filter
      (fun l => decide (l.source = m))).map SerLink.target
      = if m ∈ L then adjacent g m else [] := by
  induction L with
  | nil => simp
  | cons a L ih =>
    have hnd := List.nodup_cons.mp hL
    rw [List.map_cons, List.flatten_cons, List.filter_append, List.map_append, ih hnd.2]
    by_cases ham : a = m
    · subst ham
      rw [if_pos (List.mem_cons_self _ _), if_neg hnd.1]
      have hfl : ((adjacent g a).map
          (fun t => (⟨a, t, getEdgeWeight g a t, getEdgeId g a t⟩ : SerLink))).filter
          (fun l => decide (l.source = a)) = (adjacent g a).map
          (fun t => (⟨a, t, getEdgeWeight g a t, getEdgeId g a t⟩ : SerLink)) := by
        rw [List.filter_eq_self]
        intro x hx
        rcases List.mem_map.mp hx with ⟨t, ht, rfl⟩
        simp
      rw [hfl, List.map_map]
      show (adjacent g a).map (fun t => t) ++ [] = adjacent g a
      rw [List.map_id']
      simp
    · have hfl : ((adjacent g a).map
          (fun t => (⟨a, t, getEdgeWeight g a t, getEdgeId g a t⟩ : SerLink))).filter
          (fun l => decide (l.source = m)) = [] := by
        rw [List.filter_eq_nil_iff]
        intro x hx
        rcases List.mem_map.mp hx with ⟨t, ht, rfl⟩
        simp [ham]
      rw [hfl]
      by_cases hm : m ∈ L
      · rw [if_pos hm, if_pos (List.mem_cons_of_mem _ hm)]
        rfl
      · have hnc : m ∉ a :: L := by
          intro hcon
          rcases List.mem_cons.mp hcon with he | he
          · exact ham he.symm
          · exact hm he
        rw [if_neg hm, if_neg hnc]
        rfl

theorem filter_serialize_links (g : Graph) (m : NodeId) :
    (((serialize g).links.filter (fun l => decide (l.source = m))).map SerLink.target)
      = if m ∈ nodes g then adjacent g m else [] := by
  show (((List.map _ (nodes g)).flatten.filter _).map _) = _
  exact filter_blocks_aux g m (nodes g) (nodes_nodup g)

theorem deserialize_fresh_adjacent (g : Graph) (m : NodeId) :
    adjacent (deserialize emptyGraph (serialize g)) m = adjacent g m := by
  show adjacent ((serialize g).links.foldl
      (fun h l => addEdge h l.source l.target (some l.weight) none)
      ((serialize g).nodes.foldl (fun h n => addNode h n.id) emptyGraph)) m = adjacent g m
  rw [foldAddEdge_adjacent, foldAddNode_adjacent, filter_serialize_links]
  have hempty : adjacent emptyGraph m = [] := rfl
  rw [hempty]
  by_cases hm : m ∈ nodes g
  · rw [if_pos hm]
    rfl
  · rw [if_neg hm]
    exact (not_key_adjacent_nil g m (fun hk => hm (mem_nodes_of_key g m hk))).symm

theorem serialize_nodes_map_id (g : Graph) :
    (serialize g).nodes.map SerNode.id = nodes g := by
  show ((nodes g).map (fun i => (⟨i⟩ : SerNode))).map SerNode.id = nodes g
  rw [List.map_map]
  show (nodes g).map (fun i => i) = nodes g
  exact List.map_id' _

theorem deserialize_fresh_keys (g : Graph) :
    (deserialize emptyGraph (serialize g)).edges.map Prod.fst = nodes g := by
  show ((serialize g).links.foldl
      (fun h l => addEdge h l.source l.target (some l.weight) none)
      ((serialize g).nodes.foldl (fun h n => addNode h n.id) emptyGraph)).edges.map Prod.fst
    = nodes g
  have hk1 : ((serialize g).nodes.foldl (fun h n => addNode h n.id) emptyGraph).edges.map
      Prod.fst = nodes g := by
    rw [foldAddNode_keys, serialize_nodes_map_id]
    show (nodes g).foldl addUnique [] = nodes g
    rw [foldl_addUnique_disjoint _ _ (nodes_nodup g) (by simp)]
    rfl
  rw [foldAddEdge_keys_fixed, hk1]
  intro l hl
  rw [hk1]
  have hm := (mem_serialize_links g l).mp hl
  exact ⟨hm.1, mem_nodes_of_adjacent g l.source l.target hm.2.1⟩

theorem deserialize_fresh_edgeIds (g : Graph) :
    (deserialize emptyGraph (serialize g)).edgeIds = [] := by
  show ((serialize g).links.foldl
      (fun h l => addEdge h l.source l.target (some l.weight) none)
      ((serialize g).nodes.foldl (fun h n => addNode h n.id) emptyGraph)).edgeIds = []
  rw [foldAddEdge_edgeIds, foldAddNode_edgeIds]
  rfl

theorem deserialize_fresh_getEdgeId (g : Graph) (u v : NodeId) :
    getEdgeId (deserialize emptyGraph (serialize g)) u v = none := by
  unfold getEdgeId
  rw [deserialize_fresh_edgeIds]
  rfl

theorem deserialize_fresh_weight (g : Graph) (u v : NodeId) (h : hasEdge g u v = true) :
    getEdgeWeight (deserialize emptyGraph (serialize g)) u v = getEdgeWeight g u v := by
  have hvadj : v ∈ adjacent g u := by
    unfold hasEdge at h
    simpa using h
  have hu : u ∈ nodes g :=
    mem_nodes_of_key g u ((alookup_isSome_iff_keys _ _).mp (hasEdge_key g u v h))
  show (alookup (deserialize emptyGraph (serialize g)).edgeWeights (encodeEdge u v)).getD 1 = _
  have hW : alookup (deserialize emptyGraph (serialize g)).edgeWeights (encodeEdge u v)
      = some (getEdgeWeight g u v) := by
    show alookup ((serialize g).links.foldl
        (fun h l => addEdge h l.source l.target (some l.weight) none)
        ((serialize g).nodes.foldl (fun h n => addNode h n.id) emptyGraph)).edgeWeights
        (encodeEdge u v) = _
    apply foldAddEdge_weights_const
    · intro l hl hk
      have hm := (mem_serialize_links g l).mp hl
      rw [hm.2.2.1]
      exact getEdgeWeight_congr_key g _ _ _ _ hk
    · refine ⟨⟨u, v, getEdgeWeight g u v, getEdgeId g u v⟩, ?_, rfl⟩
      exact (mem_serialize_links g _).mpr ⟨hu, hvadj, rfl, rfl⟩
  rw [hW]
  rfl

theorem mem_nodes_iff_keys_or_adjacent (g : Graph) (hnk : (g.edges.map Prod.fst).Nodup)
    (y : NodeId) :
    y ∈ nodes g ↔ y ∈ g.edges.map Prod.fst ∨ ∃ m, y ∈ adjacent g m := by
  constructor
  · intro h
    rcases (mem_nodes_iff g y).mp h with ⟨p, hp, hc | hc⟩
    · exact Or.inl (by rw [hc]; exact List.mem_map_of_mem _ hp)
    · right
      refine ⟨p.1, ?_⟩
      unfold adjacent
      rw [alookup_of_mem_nodup _ _ hnk hp]
      exact hc
  · rintro (h | ⟨m, h⟩)
    · exact mem_nodes_of_key g y h
    · exact mem_nodes_of_adjacent g m y h

theorem deserialize_fresh_nodes_mem (g : Graph) (y : NodeId) :
    y ∈ nodes (deserialize emptyGraph (serialize g)) ↔ y ∈ nodes g := by
  have hnk : ((deserialize emptyGraph (serialize g)).edges.map Prod.fst).Nodup := by
    rw [deserialize_fresh_keys]
    exact nodes_nodup g
  rw [mem_nodes_iff_keys_or_adjacent _ hnk, deserialize_fresh_keys]
  constructor
  · rintro (h | ⟨m, h⟩)
    · exact h
    · rw [deserialize_fresh_adjacent] at h
      exact mem_nodes_of_adjacent g m y h
  · intro h
    exact Or.inl h

/-- C7: serialising a graph with no duplicate adjacency entries and
deserialising the result into a fresh graph yields a graph whose nodes()
has exactly the same members (both without duplicates), with hasEdge
agreeing on every ordered pair and getEdgeWeight agreeing on every edge. -/
theorem claim_C7_roundtrip (g : Graph) (hd : NoDupEdges g) :
    (∀ y, y ∈ nodes (deserialize emptyGraph (serialize g)) ↔ y ∈ nodes g) ∧
    (nodes (deserialize emptyGraph (serialize g))).Nodup ∧ (nodes g).Nodup ∧
    (∀ u v, hasEdge (deserialize emptyGraph (serialize g)) u v = hasEdge g u v) ∧
    (∀ u v, hasEdge g u v = true →
      getEdgeWeight (deserialize emptyGraph (serialize g)) u v = getEdgeWeight g u v) := by
  refine ⟨deserialize_fresh_nodes_mem g, nodes_nodup _, nodes_nodup _, ?_, ?_⟩
  · intro u v
    unfold hasEdge
    rw [deserialize_fresh_adjacent]
  · intro u v h
    exact deserialize_fresh_weight g u v h

/-- Witness for C7 at the graph a → b. -/
theorem claim_C7_witness :
    NoDupEdges gAB ∧
    (∀ u v, hasEdge (deserialize emptyGraph (serialize gAB)) u v = hasEdge gAB u v) :=
  ⟨by decide, (claim_C7_roundtrip gAB (by decide)).2.2.2.1⟩

/-- Counterexample to C5 as stated: a graph with one edge whose weight and
identifier are both set; deserialize drops the identifier, so re-serialising
does not reproduce the record. -/
theorem claim_C5_counterexample :
    NoDupEdges gC5 ∧ AllWeightsSet gC5 ∧ AllIdsSet gC5 ∧
    serialize (deserialize emptyGraph (serialize gC5)) ≠ serialize gC5 := by
  refine ⟨by decide, by decide, by decide, ?_⟩
  decide

/-- C5 (amended): serialising, deserialising into a fresh graph and
serialising again reproduces the node list and the link list up to order,
each link keeping its source, target and weight; but every id field of the
second serialisation is absent, because deserialize does not carry link ids. -/
theorem claim_C5_roundtrip_amended (g : Graph) (hd : NoDupEdges g) (hw : AllWeightsSet g)
    (hi : AllIdsSet g) :
    (serialize (deserialize emptyGraph (serialize g))).nodes.Perm (serialize g).nodes ∧
    (serialize (deserialize emptyGraph (serialize g))).links.Perm
      ((serialize g).links.map (fun l => ⟨l.source, l.target, l.weight, none⟩)) := by
  have hpermN : (nodes (deserialize emptyGraph (serialize g))).Perm (nodes g) :=
    (List.perm_ext_iff_of_nodup (nodes_nodup _) (nodes_nodup _)).mpr
      (deserialize_fresh_nodes_mem g)
  constructor
  · show ((nodes (deserialize emptyGraph (serialize g))).map _).Perm ((nodes g).map _)
    exact hpermN.map _
  · show (((nodes (deserialize emptyGraph (serialize g))).map
        (fun s => (adjacent (deserialize emptyGraph (serialize g)) s).map
          (fun t => (⟨s, t, getEdgeWeight (deserialize emptyGraph (serialize g)) s t,
            getEdgeId (deserialize emptyGraph (serialize g)) s t⟩ : SerLink)))).flatten).Perm _
    have hblock : ∀ s, (adjacent (deserialize emptyGraph (serialize g)) s).map
        (fun t => (⟨s, t, getEdgeWeight (deserialize emptyGraph (serialize g)) s t,
          getEdgeId (deserialize emptyGraph (serialize g)) s t⟩ : SerLink))
        = (adjacent g s).map
          (fun t => (⟨s, t, getEdgeWeight g s t, none⟩ : SerLink)) := by
      intro s
      rw [deserialize_fresh_adjacent]
      apply List.map_eq_map_iff.mpr
      intro t ht
      have hE : hasEdge g s t = true := by
        unfold hasEdge
        simpa using ht
      rw [deserialize_fresh_weight g s t hE, deserialize_fresh_getEdgeId]
    have hmap1 : ((nodes (deserialize emptyGraph (serialize g))).map
        (fun s => (adjacent (deserialize emptyGraph (serialize g)) s).map
          (fun t => (⟨s, t, getEdgeWeight (deserialize emptyGraph (serialize g)) s t,
            getEdgeId (deserialize emptyGraph (serialize g)) s t⟩ : SerLink))))
        = ((nodes (deserialize emptyGraph (serialize g))).map
          (fun s => (adjacent g s).map
            (fun t => (⟨s, t, getEdgeWeight g s t, none⟩ : SerLink)))) :=
      List.map_eq_map_iff.mpr (fun s _ => hblock s)
    rw [hmap1]
    have hstrip : ((serialize g).links.map
        (fun l => (⟨l.source, l.target, l.weight, none⟩ : SerLink)))
        = ((nodes g).map (fun s => (adjacent g s).map
          (fun t => (⟨s, t, getEdgeWeight g s t, none⟩ : SerLink)))).flatten := by
      show (((nodes g).map (fun s => (adjacent g s).map
          (fun t => (⟨s, t, getEdgeWeight g s t, getEdgeId g s t⟩ : SerLink)))).flatten.map
          (fun l => (⟨l.source, l.target, l.weight, none⟩ : SerLink))) = _
      rw [List.map_flatten, List.map_map]
      congr 1
      apply List.map_eq_map_iff.mpr
      intro s _
      show ((adjacent g s).map _).map _ = _
      rw [List.map_map]
      rfl
    rw [hstrip]
    exact (hpermN.map _).flatten

/-- Witness for C5 (amended) at the one-edge graph with weight and id set. -/
theorem claim_C5_witness :
    NoDupEdges gC5 ∧ AllWeightsSet gC5 ∧ AllIdsSet gC5 ∧
    (serialize (deserialize emptyGraph (serialize gC5))).nodes.Perm (serialize gC5).nodes :=
  ⟨by decide, by decide, by decide,
    (claim_C5_roundtrip_amended gC5 (by decide) (by decide) (by decide)).1⟩

/-! ### DFS: unfolding lemmas -/

theorem DFSVisit_cycleErr (g : Graph) (opts : DfsOpts) (fuel : Nat) (frm : Option NodeId)
    (node : NodeId) (s : DfsSt) (hEoc : opts.errorOnCycle = true) (h1 : node ∈ s.visiting) :
    DFSVisit g opts fuel frm node s = .cycleErr := by
  rw [DFSVisit.eq_def]
  rw [if_pos ⟨h1, hEoc⟩]

theorem DFSVisit_collect (g : Graph) (opts : DfsOpts) (fuel : Nat) (frm : Option NodeId)
    (node : NodeId) (s : DfsSt) (hEoc : opts.errorOnCycle = false)
    (hCc : opts.collectCycles = true) (h1 : node ∈ s.visiting) :
    DFSVisit g opts fuel frm node s = .ok { s with cycles := aset s.cycles frm node } := by
  rw [DFSVisit.eq_def]
  rw [if_neg (by rw [hEoc]; rintro ⟨-, h⟩; exact Bool.false_ne_true h),
    if_pos ⟨h1, hCc⟩]

theorem DFSVisit_skip (g : Graph) (opts : DfsOpts) (fuel : Nat) (frm : Option NodeId)
    (node : NodeId) (s : DfsSt) (h1 : node ∉ s.visiting) (h2 : node ∈ s.visited) :
    DFSVisit g opts fuel frm node s = .ok s := by
  rw [DFSVisit.eq_def]
  rw [if_neg (fun hc => h1 hc.1), if_neg (fun hc => h1 hc.1),
    if_neg (not_not_intro h2)]

theorem DFSVisit_descend (g : Graph) (opts : DfsOpts) (f : Nat) (frm : Option NodeId)
    (node : NodeId) (s : DfsSt) (h1 : node ∉ s.visiting) (h2 : node ∉ s.visited) :
    DFSVisit g opts (f + 1) frm node s =
      match visitAdj g opts f node (adjacent g node)
          { s with visited := node :: s.visited, visiting := node :: s.visiting } with
      | .ok s2 => .ok { s2 with visiting := s2.visiting.erase node,
                                nodeList := s2.nodeList ++ [node] }
      | e => e := by
  rw [DFSVisit.eq_def]
  rw [if_neg (fun hc => h1 hc.1), if_neg (fun hc => h1 hc.1), if_pos h2]

theorem DFSVisit_fuelOut (g : Graph) (opts : DfsOpts) (frm : Option NodeId)
    (node : NodeId) (s : DfsSt) (h1 : node ∉ s.visiting) (h2 : node ∉ s.visited) :
    DFSVisit g opts 0 frm node s = .fuelOut := by
  rw [DFSVisit.eq_def]
  rw [if_neg (fun hc => h1 hc.1), if_neg (fun hc => h1 hc.1), if_pos h2]

theorem visitAdj_nil (g : Graph) (opts : DfsOpts) (fuel : Nat) (frm : NodeId) (s : DfsSt) :
    visitAdj g opts fuel frm [] s = .ok s := by
  rw [visitAdj.eq_def]

theorem visitAdj_cons (g : Graph) (opts : DfsOpts) (fuel : Nat) (frm : NodeId) (v : NodeId)
    (rest : List NodeId) (s : DfsSt) :
    visitAdj g opts fuel frm (v :: rest) s =
      match DFSVisit g opts fuel (some frm) v s with
      | .ok s2 => visitAdj g opts fuel frm rest s2
      | e => e := by
  rw [visitAdj.eq_def]

/-! ### EdgePath helpers -/

theorem EdgePath.snoc {g : Graph} {a b c : NodeId} (h : EdgePath g a b)
    (he : hasEdge g b c = true) : EdgePath g a c := by
  induction h with
  | single h1 => exact EdgePath.cons h1 (EdgePath.single he)
  | cons h1 _ ih => exact EdgePath.cons h1 (ih he)

theorem EdgePath.head_edge {g : Graph} {u v : NodeId} (h : EdgePath g u v) :
    ∃ w, hasEdge g u w = true := by
  cases h with
  | single h1 => exact ⟨_, h1⟩
  | cons h1 _ => exact ⟨_, h1⟩

theorem EdgePath.mem_nodes {g : Graph} {u v : NodeId} (h : EdgePath g u v) : u ∈ nodes g := by
  rcases h.head_edge with ⟨w, hw⟩
  exact mem_nodes_of_key g u ((alookup_isSome_iff_keys _ _).mp (hasEdge_key g u w hw))

/-- Following the visiting stack upward from any entry reaches the head
through edges: an entry of a well-formed stack has a path to the head. -/
theorem stack_path (g : Graph) : ∀ (l1 : List NodeId) (v : NodeId) (l2 : List NodeId)
    (f : NodeId), StackOk g (l1 ++ v :: l2) → (l1 ++ v :: l2).head? = some f →
    v = f ∨ EdgePath g v f := by
  intro l1
  induction l1 with
  | nil =>
    intro v l2 f hok hhd
    simp at hhd
    exact Or.inl hhd
  | cons a l1 ih =>
    intro v l2 f hok hhd
    have hhd2 : a = f := by simpa using hhd
    cases hl1 : l1 ++ v :: l2 with
    | nil => simp at hl1
    | cons b rest =>
      rw [List.cons_append, hl1] at hok
      unfold StackOk at hok
      have hedge : hasEdge g b f = true := by
        rw [← hhd2]
        exact hok.1
      have hok2 : StackOk g (l1 ++ v :: l2) := by rw [hl1]; exact hok.2
      have hhd3 : (l1 ++ v :: l2).head? = some b := by rw [hl1]; rfl
      rcases ih v l2 b hok2 hhd3 with he | hp
      · subst he
        exact Or.inr (EdgePath.single hedge)
      · exact Or.inr (hp.snoc hedge)

/-- A back edge into the visiting stack closes a cycle. -/
theorem stack_cycle (g : Graph) (st : List NodeId) (v f : NodeId) (hok : StackOk g st)
    (hmem : v ∈ st) (hhd : st.head? = some f) (hedge : hasEdge g f v = true) :
    HasCycleIn g := by
  rcases List.mem_iff_append.mp hmem with ⟨l1, l2, rfl⟩
  rcases stack_path g l1 v l2 f hok hhd with he | hp
  · subst he
    exact ⟨v, EdgePath.single hedge⟩
  · exact ⟨v, hp.snoc hedge⟩

/-- In an order-closed duplicate-free list, every path target precedes its
source. -/
theorem ordList_path (g : Graph) (L : List NodeId) (hord : OrdList g L) (hnd : L.Nodup) :
    ∀ u v, EdgePath g u v → ∀ l1 l2, L = l1 ++ u :: l2 → v ∈ l1 := by
  intro u v hp
  induction hp with
  | single h1 =>
    intro l1 l2 hsplit
    exact hord l1 _ l2 hsplit _ (by unfold hasEdge at h1; simpa using h1)
  | cons h1 hp ih =>
    intro l1 l2 hsplit
    rename_i a b c
    have hw : b ∈ l1 := hord l1 _ l2 hsplit _ (by unfold hasEdge at h1; simpa using h1)
    rcases List.mem_iff_append.mp hw with ⟨m1, m2, rfl⟩
    have : L = m1 ++ b :: (m2 ++ a :: l2) := by rw [hsplit]; simp
    have hv := ih m1 (m2 ++ a :: l2) this
    exact List.mem_append.mpr (Or.inl hv)

/-- An order-closed duplicate-free list admits no cycle through its members. -/
theorem ordList_no_cycle (g : Graph) (L : List NodeId) (hord : OrdList g L) (hnd : L.Nodup)
    (hall : ∀ x, x ∈ nodes g → x ∈ L) : ¬ HasCycleIn g := by
  rintro ⟨u, hp⟩
  have hu : u ∈ L := hall u hp.mem_nodes
  rcases List.mem_iff_append.mp hu with ⟨l1, l2, rfl⟩
  have hv := ordList_path g _ hord hnd u u hp l1 l2 rfl
  rw [List.nodup_append] at hnd
  exact hnd.2.2 hv (List.mem_cons_self _ _)

/-! ### DFS: monotonicity -/

theorem DFSVisit_skip2 (g : Graph) (opts : DfsOpts) (fuel : Nat) (frm : Option NodeId)
    (node : NodeId) (s : DfsSt)
    (hn1 : ¬ (node ∈ s.visiting ∧ opts.errorOnCycle = true))
    (hn2 : ¬ (node ∈ s.visiting ∧ opts.collectCycles = true))
    (h2 : node ∈ s.visited) :
    DFSVisit g opts fuel frm node s = .ok s := by
  rw [DFSVisit.eq_def]
  rw [if_neg hn1, if_neg hn2, if_neg (not_not_intro h2)]

theorem visitAdj_mono_of (g : Graph) (opts : DfsOpts) (fuel : Nat)
    (hPv : DfsMonoV g opts fuel) : DfsMonoA g opts fuel := by
  intro frm l
  induction l with
  | nil =>
    intro s s2 hres hvv
    rw [visitAdj_nil] at hres
    injection hres with h
    subst h
    exact ⟨rfl, fun x hx => hx, ⟨[], by simp⟩, fun x hx => Or.inl hx, hvv, by simp⟩
  | cons v rest ih =>
    intro s s2 hres hvv
    rw [visitAdj_cons] at hres
    cases hv : DFSVisit g opts fuel (some frm) v s with
    | ok s1 =>
      rw [hv] at hres
      rcases hPv _ _ _ _ hv hvv with ⟨hvis, hmono, ⟨t1, hnl⟩, hdom, hvv1, hnmem⟩
      rcases ih s1 s2 hres hvv1 with ⟨hvis2, hmono2, ⟨t2, hnl2⟩, hdom2, hvv2, hall2⟩
      refine ⟨by rw [hvis2, hvis], fun x hx => hmono2 _ (hmono _ hx),
        ⟨t1 ++ t2, by rw [hnl2, hnl, List.append_assoc]⟩, ?_, hvv2, ?_⟩
      · intro x hx
        rcases hdom2 x hx with hx1 | hx1 | hx1
        · rcases hdom x hx1 with hx2 | hx2 | hx2
          · exact Or.inl hx2
          · exact Or.inr (Or.inl (by rw [hx2]; exact List.mem_cons_self _ _))
          · exact Or.inr (Or.inr hx2)
        · exact Or.inr (Or.inl (List.mem_cons_of_mem _ hx1))
        · exact Or.inr (Or.inr hx1)
      · intro w hw
        rcases List.mem_cons.mp hw with hw1 | hw1
        · subst hw1
          exact hmono2 _ hnmem
        · exact hall2 _ hw1
    | cycleErr =>
      rw [hv] at hres
      simp at hres
    | fuelOut =>
      rw [hv] at hres
      simp at hres

theorem DFSVisit_mono_zero (g : Graph) (opts : DfsOpts) : DfsMonoV g opts 0 := by
  intro frm node s s2 hres hvv
  by_cases h1 : node ∈ s.visiting
  · by_cases he : opts.errorOnCycle = true
    · rw [DFSVisit_cycleErr _ _ _ _ _ _ he h1] at hres
      simp at hres
    · by_cases hc : opts.collectCycles = true
      · rw [DFSVisit_collect _ _ _ _ _ _ (Bool.not_eq_true _ ▸ he) hc h1] at hres
        injection hres with h
        subst h
        exact ⟨rfl, fun x hx => hx, ⟨[], by simp⟩, fun x hx => Or.inl hx, hvv, hvv _ h1⟩
      · rw [DFSVisit_skip2 _ _ _ _ _ _ (fun hx => he hx.2) (fun hx => hc hx.2)
          (hvv _ h1)] at hres
        injection hres with h
        subst h
        exact ⟨rfl, fun x hx => hx, ⟨[], by simp⟩, fun x hx => Or.inl hx, hvv, hvv _ h1⟩
  · by_cases h2 : node ∈ s.visited
    · rw [DFSVisit_skip _ _ _ _ _ _ h1 h2] at hres
      injection hres with h
      subst h
      exact ⟨rfl, fun x hx => hx, ⟨[], by simp⟩, fun x hx => Or.inl hx, hvv, h2⟩
    · rw [DFSVisit_fuelOut _ _ _ _ _ h1 h2] at hres
      simp at hres

theorem DFSVisit_mono_succ (g : Graph) (opts : DfsOpts) (f : Nat)
    (hPa : DfsMonoA g opts f) : DfsMonoV g opts (f + 1) := by
  intro frm node s s2 hres hvv
  by_cases h1 : node ∈ s.visiting
  · by_cases he : opts.errorOnCycle = true
    · rw [DFSVisit_cycleErr _ _ _ _ _ _ he h1] at hres
      simp at hres
    · by_cases hc : opts.collectCycles = true
      · rw [DFSVisit_collect _ _ _ _ _ _ (Bool.not_eq_true _ ▸ he) hc h1] at hres
        injection hres with h
        subst h
        exact ⟨rfl, fun x hx => hx, ⟨[], by simp⟩, fun x hx => Or.inl hx, hvv, hvv _ h1⟩
      · rw [DFSVisit_skip2 _ _ _ _ _ _ (fun hx => he hx.2) (fun hx => hc hx.2)
          (hvv _ h1)] at hres
        injection hres with h
        subst h
        exact ⟨rfl, fun x hx => hx, ⟨[], by simp⟩, fun x hx => Or.inl hx, hvv, hvv _ h1⟩
  · by_cases h2 : node ∈ s.visited
    · rw [DFSVisit_skip _ _ _ _ _ _ h1 h2] at hres
      injection hres with h
      subst h
      exact ⟨rfl, fun x hx => hx, ⟨[], by simp⟩, fun x hx => Or.inl hx, hvv, h2⟩
    · rw [DFSVisit_descend _ _ _ _ _ _ h1 h2] at hres
      cases hv : visitAdj g opts f node (adjacent g node)
          { s with visited := node :: s.visited, visiting := node :: s.visiting } with
      | ok s3 =>
        rw [hv] at hres
        injection hres with h
        subst h
        have hvv1 : ∀ x ∈ node :: s.visiting, x ∈ node :: s.visited := by
          intro x hx
          rcases List.mem_cons.mp hx with hx1 | hx1
          · exact hx1 ▸ List.mem_cons_self _ _
          · exact List.mem_cons_of_mem _ (hvv _ hx1)
        rcases hPa node (adjacent g node) _ s3 hv hvv1 with
          ⟨hvis, hmono, ⟨t1, hnl⟩, hdom, hvv3, hall⟩
        have hvis3 : s3.visiting = node :: s.visiting := hvis
        have hnodemem : node ∈ s3.visited := hmono _ (List.mem_cons_self _ _)
        refine ⟨?_, ?_, ?_, ?_, ?_, hnodemem⟩
        · show s3.visiting.erase node = s.visiting
          rw [hvis3, List.erase_cons_head]
        · intro x hx
          exact hmono _ (List.mem_cons_of_mem _ hx)
        · exact ⟨t1 ++ [node], by show s3.nodeList ++ [node] = _; rw [hnl]; simp⟩
        · intro x hx
          rcases hdom x hx with hx1 | hx1 | hx1
          · rcases List.mem_cons.mp hx1 with hx2 | hx2
            · exact Or.inr (Or.inl hx2)
            · exact Or.inl hx2
          · exact Or.inr (Or.inr ⟨node, hx1⟩)
          · exact Or.inr (Or.inr hx1)
        · intro x hx
          exact hvv3 _ (List.mem_of_mem_erase hx)
      | cycleErr =>
        rw [hv] at hres
        simp at hres
      | fuelOut =>
        rw [hv] at hres
        simp at hres

theorem dfs_mono (g : Graph) (opts : DfsOpts) :
    ∀ fuel, DfsMonoV g opts fuel ∧ DfsMonoA g opts fuel := by
  intro fuel
  induction fuel with
  | zero =>
    have h := DFSVisit_mono_zero g opts
    exact ⟨h, visitAdj_mono_of g opts 0 h⟩
  | succ f ih =>
    have h := DFSVisit_mono_succ g opts f ih.2
    exact ⟨h, visitAdj_mono_of g opts (f + 1) h⟩

/-! ### DFS: invariant preservation -/

theorem hasEdge_of_mem (g : Graph) (u v : NodeId) (h : v ∈ adjacent g u) :
    hasEdge g u v = true := by
  unfold hasEdge
  simpa using h

theorem append_singleton_split {α : Type} (l1 : List α) (u : α) (l2 : List α) (N : List α)
    (x : α) (h : l1 ++ u :: l2 = N ++ [x]) :
    (l2 = [] ∧ u = x ∧ l1 = N) ∨ ∃ l2p, l2 = l2p ++ [x] ∧ N = l1 ++ u :: l2p := by
  rcases List.eq_nil_or_concat l2 with h2 | ⟨l2p, xp, h2⟩
  · subst h2
    have := List.append_inj' h rfl
    rcases this with ⟨hl, he⟩
    injection he with he1
    exact Or.inl ⟨rfl, he1, hl⟩
  · rw [List.concat_eq_append] at h2
    subst h2
    rw [show l1 ++ u :: (l2p ++ [xp]) = (l1 ++ u :: l2p) ++ [xp] by simp] at h
    have := List.append_inj' h rfl
    rcases this with ⟨hl, he⟩
    injection he with he1
    subst he1
    exact Or.inr ⟨l2p, rfl, hl.symm⟩

theorem visitAdj_inv_of (g : Graph) (opts : DfsOpts) (fuel : Nat)
    (hPv : DfsInvV g opts fuel) : DfsInvA g opts fuel := by
  intro frm l
  induction l with
  | nil =>
    intro s s2 hres hinv hhd hall
    rw [visitAdj_nil] at hres
    injection hres with h
    subst h
    exact ⟨hinv, by simp⟩
  | cons v rest ih =>
    intro s s2 hres hinv hhd hall
    rw [visitAdj_cons] at hres
    cases hv : DFSVisit g opts fuel (some frm) v s with
    | ok s1 =>
      rw [hv] at hres
      have hco : CallOk g (some frm) v s := ⟨hhd, hall v (List.mem_cons_self _ _)⟩
      rcases hPv _ _ _ _ hv hinv hco with ⟨hinv1, hvmem⟩
      rcases (dfs_mono g opts fuel).1 _ _ _ _ hv hinv.1 with ⟨hvis, -, ⟨t1, hnl⟩, -, -, -⟩
      have hhd1 : s1.visiting.head? = some frm := by rw [hvis]; exact hhd
      rcases ih s1 s2 hres hinv1 hhd1 (fun w hw => hall w (List.mem_cons_of_mem _ hw)) with
        ⟨hinv2, hall2⟩
      refine ⟨hinv2, ?_⟩
      intro w hw
      rcases List.mem_cons.mp hw with hw1 | hw1
      · subst hw1
        rcases (dfs_mono g opts fuel).2 _ _ _ _ hres hinv1.1 with ⟨-, -, ⟨t2, hnl2⟩, -, -, -⟩
        rw [hnl2]
        exact List.mem_append.mpr (Or.inl hvmem)
      · exact hall2 _ hw1
    | cycleErr =>
      rw [hv] at hres
      simp at hres
    | fuelOut =>
      rw [hv] at hres
      simp at hres

theorem DFSVisit_inv_zero (g : Graph) (opts : DfsOpts) (hEoc : opts.errorOnCycle = true) :
    DfsInvV g opts 0 := by
  intro frm node s s2 hres hinv hco
  by_cases h1 : node ∈ s.visiting
  · rw [DFSVisit_cycleErr _ _ _ _ _ _ hEoc h1] at hres
    simp at hres
  · by_cases h2 : node ∈ s.visited
    · rw [DFSVisit_skip _ _ _ _ _ _ h1 h2] at hres
      injection hres with h
      subst h
      refine ⟨hinv, ?_⟩
      rcases hinv.2.2.2.1 node h2 with h | h
      · exact h
      · exact absurd h h1
    · rw [DFSVisit_fuelOut _ _ _ _ _ h1 h2] at hres
      simp at hres

theorem DFSVisit_inv_succ (g : Graph) (opts : DfsOpts) (hEoc : opts.errorOnCycle = true)
    (f : Nat) (hPa : DfsInvA g opts f) : DfsInvV g opts (f + 1) := by
  intro frm node s s2 hres hinv hco
  obtain ⟨hvv, hnlv, hnlnd, hvcover, hdisj, hvnd, hstk, hord⟩ := hinv
  by_cases h1 : node ∈ s.visiting
  · rw [DFSVisit_cycleErr _ _ _ _ _ _ hEoc h1] at hres
    simp at hres
  · by_cases h2 : node ∈ s.visited
    · rw [DFSVisit_skip _ _ _ _ _ _ h1 h2] at hres
      injection hres with h
      subst h
      refine ⟨⟨hvv, hnlv, hnlnd, hvcover, hdisj, hvnd, hstk, hord⟩, ?_⟩
      rcases hvcover node h2 with h | h
      · exact h
      · exact absurd h h1
    · rw [DFSVisit_descend _ _ _ _ _ _ h1 h2] at hres
      cases hv : visitAdj g opts f node (adjacent g node)
          { s with visited := node :: s.visited, visiting := node :: s.visiting } with
      | ok s3 =>
        rw [hv] at hres
        injection hres with h
        subst h
        have hinv1 : DfsInv g { s with visited := node :: s.visited, visiting := node :: s.visiting } := by
          refine ⟨?_, ?_, hnlnd, ?_, ?_, ?_, ?_, hord⟩
          · intro x hx
            rcases List.mem_cons.mp hx with hx1 | hx1
            · exact hx1 ▸ List.mem_cons_self _ _
            · exact List.mem_cons_of_mem _ (hvv _ hx1)
          · intro x hx
            exact List.mem_cons_of_mem _ (hnlv _ hx)
          · intro x hx
            rcases List.mem_cons.mp hx with hx1 | hx1
            · exact Or.inr (hx1 ▸ List.mem_cons_self _ _)
            · rcases hvcover x hx1 with h | h
              · exact Or.inl h
              · exact Or.inr (List.mem_cons_of_mem _ h)
          · intro x hx hcon
            rcases List.mem_cons.mp hcon with hx1 | hx1
            · exact h2 (hx1 ▸ hnlv _ hx)
            · exact hdisj _ hx hx1
          · exact List.nodup_cons.mpr ⟨fun hc => h2 (hvv _ hc), hvnd⟩
          · show StackOk g (node :: s.visiting)
            unfold CallOk at hco
            cases frm with
            | none =>
              rw [hco]
              trivial
            | some fr =>
              rcases hco with ⟨hh, hedge⟩
              cases hsv : s.visiting with
              | nil => trivial
              | cons a rest =>
                rw [hsv] at hh
                injection hh with hh1
                subst hh1
                rw [hsv] at hstk
                exact ⟨hedge, hstk⟩
        rcases hPa node (adjacent g node) _ s3 hv hinv1 rfl
            (fun v hv2 => hasEdge_of_mem g node v hv2) with ⟨hinv3, hall3⟩
        obtain ⟨hvv3, hnlv3, hnlnd3, hvcover3, hdisj3, hvnd3, hstk3, hord3⟩ := hinv3
        rcases (dfs_mono g opts f).2 _ _ _ _ hv hinv1.1 with
          ⟨hvis3, hmono3, ⟨t3, hnl3⟩, -, -, -⟩
        have hvis3' : s3.visiting = node :: s.visiting := hvis3
        have hnodemem3 : node ∈ s3.visiting := by
          rw [hvis3']
          exact List.mem_cons_self _ _
        have hnodenl3 : node ∉ s3.nodeList := fun hc => hdisj3 _ hc hnodemem3
        have herase : s3.visiting.erase node = s.visiting := by
          rw [hvis3', List.erase_cons_head]
        constructor
        · refine ⟨?_, ?_, ?_, ?_, ?_, ?_, ?_, ?_⟩
          · show ∀ x ∈ s3.visiting.erase node, x ∈ s3.visited
            intro x hx
            exact hvv3 _ (List.mem_of_mem_erase hx)
          · show ∀ x ∈ s3.nodeList ++ [node], x ∈ s3.visited
            intro x hx
            rcases List.mem_append.mp hx with hx1 | hx1
            · exact hnlv3 _ hx1
            · rw [List.mem_singleton.mp hx1]
              exact hvv3 _ hnodemem3
          · show (s3.nodeList ++ [node]).Nodup
            rw [List.nodup_append]
            exact ⟨hnlnd3, List.nodup_singleton _,
              fun x hx hc => hnodenl3 ((List.mem_singleton.mp hc) ▸ hx)⟩
          · show ∀ x ∈ s3.visited, x ∈ s3.nodeList ++ [node] ∨ x ∈ s3.visiting.erase node
            intro x hx
            rcases hvcover3 x hx with h | h
            · exact Or.inl (List.mem_append.mpr (Or.inl h))
            · rw [hvis3'] at h
              rcases List.mem_cons.mp h with h | h
              · exact Or.inl (List.mem_append.mpr (Or.inr (by simp [h])))
              · rw [herase]
                exact Or.inr h
          · show ∀ x ∈ s3.nodeList ++ [node], x ∉ s3.visiting.erase node
            intro x hx
            rw [herase]
            rcases List.mem_append.mp hx with hx1 | hx1
            · intro hc
              exact hdisj3 _ hx1 (by rw [hvis3']; exact List.mem_cons_of_mem _ hc)
            · rw [List.mem_singleton.mp hx1]
              exact h1
          · show (s3.visiting.erase node).Nodup
            rw [herase]
            exact hvnd
          · show StackOk g (s3.visiting.erase node)
            rw [herase]
            exact hstk
          · show OrdList g (s3.nodeList ++ [node])
            intro l1 u l2 hsplit v hvadj
            rcases append_singleton_split l1 u l2 s3.nodeList node hsplit.symm with
              ⟨-, hu, hl1⟩ | ⟨l2p, -, hN⟩
            · subst hu
              rw [hl1]
              exact hall3 v hvadj
            · exact hord3 l1 u l2p hN v hvadj
        · show node ∈ s3.nodeList ++ [node]
          exact List.mem_append.mpr (Or.inr (List.mem_singleton.mpr rfl))
      | cycleErr =>
        rw [hv] at hres
        simp at hres
      | fuelOut =>
        rw [hv] at hres
        simp at hres

theorem dfs_inv (g : Graph) (opts : DfsOpts) (hEoc : opts.errorOnCycle = true) :
    ∀ fuel, DfsInvV g opts fuel ∧ DfsInvA g opts fuel := by
  intro fuel
  induction fuel with
  | zero =>
    have h := DFSVisit_inv_zero g opts hEoc
    exact ⟨h, visitAdj_inv_of g opts 0 h⟩
  | succ f ih =>
    have h := DFSVisit_inv_succ g opts hEoc f ih.2
    exact ⟨h, visitAdj_inv_of g opts (f + 1) h⟩

/-! ### DFS: a CycleError reflects a real cycle -/

theorem stackOk_push (g : Graph) (frm : Option NodeId) (node : NodeId) (s : DfsSt)
    (hstk : StackOk g s.visiting) (hco : CallOk g frm node s) :
    StackOk g (node :: s.visiting) := by
  unfold CallOk at hco
  cases frm with
  | none =>
    rw [hco]
    trivial
  | some fr =>
    rcases hco with ⟨hh, hedge⟩
    cases hsv : s.visiting with
    | nil => trivial
    | cons a rest =>
      rw [hsv] at hh
      injection hh with hh1
      subst hh1
      rw [hsv] at hstk
      exact ⟨hedge, hstk⟩

theorem visitAdj_cyc_of (g : Graph) (opts : DfsOpts) (fuel : Nat)
    (hPv : DfsCycV g opts fuel) : DfsCycA g opts fuel := by
  intro frm l
  induction l with
  | nil =>
    intro s hres hvv hstk hhd hall
    rw [visitAdj_nil] at hres
    simp at hres
  | cons v rest ih =>
    intro s hres hvv hstk hhd hall
    rw [visitAdj_cons] at hres
    cases hv : DFSVisit g opts fuel (some frm) v s with
    | ok s1 =>
      rw [hv] at hres
      rcases (dfs_mono g opts fuel).1 _ _ _ _ hv hvv with ⟨hvis, -, -, -, hvv1, -⟩
      apply ih s1 hres hvv1
      · rw [hvis]
        exact hstk
      · rw [hvis]
        exact hhd
      · exact fun w hw => hall w (List.mem_cons_of_mem _ hw)
    | cycleErr =>
      exact hPv _ _ _ hv hvv hstk ⟨hhd, hall v (List.mem_cons_self _ _)⟩
    | fuelOut =>
      rw [hv] at hres
      simp at hres

theorem DFSVisit_cyc_zero (g : Graph) (opts : DfsOpts) : DfsCycV g opts 0 := by
  intro frm node s hres hvv hstk hco
  by_cases h1 : node ∈ s.visiting
  · unfold CallOk at hco
    cases frm with
    | none =>
      rw [hco] at h1
      simp at h1
    | some fr =>
      exact stack_cycle g s.visiting node fr hstk h1 hco.1 hco.2
  · by_cases h2 : node ∈ s.visited
    · rw [DFSVisit_skip _ _ _ _ _ _ h1 h2] at hres
      simp at hres
    · rw [DFSVisit_fuelOut _ _ _ _ _ h1 h2] at hres
      simp at hres

theorem DFSVisit_cyc_succ (g : Graph) (opts : DfsOpts) (f : Nat)
    (hPa : DfsCycA g opts f) : DfsCycV g opts (f + 1) := by
  intro frm node s hres hvv hstk hco
  by_cases h1 : node ∈ s.visiting
  · unfold CallOk at hco
    cases frm with
    | none =>
      rw [hco] at h1
      simp at h1
    | some fr =>
      exact stack_cycle g s.visiting node fr hstk h1 hco.1 hco.2
  · by_cases h2 : node ∈ s.visited
    · rw [DFSVisit_skip _ _ _ _ _ _ h1 h2] at hres
      simp at hres
    · rw [DFSVisit_descend _ _ _ _ _ _ h1 h2] at hres
      cases hv : visitAdj g opts f node (adjacent g node)
          { s with visited := node :: s.visited, visiting := node :: s.visiting } with
      | ok s3 =>
        rw [hv] at hres
        simp at hres
      | cycleErr =>
        refine hPa node (adjacent g node) _ hv ?_ ?_ rfl
          (fun v hv2 => hasEdge_of_mem g node v hv2)
        · intro x hx
          rcases List.mem_cons.mp hx with hx1 | hx1
          · exact hx1 ▸ List.mem_cons_self _ _
          · exact List.mem_cons_of_mem _ (hvv _ hx1)
        · exact stackOk_push g frm node s hstk hco
      | fuelOut =>
        rw [hv] at hres
        simp at hres

theorem dfs_cyc (g : Graph) (opts : DfsOpts) :
    ∀ fuel, DfsCycV g opts fuel ∧ DfsCycA g opts fuel := by
  intro fuel
  induction fuel with
  | zero =>
    have h := DFSVisit_cyc_zero g opts
    exact ⟨h, visitAdj_cyc_of g opts 0 h⟩
  | succ f ih =>
    have h := DFSVisit_cyc_succ g opts f ih.2
    exact ⟨h, visitAdj_cyc_of g opts (f + 1) h⟩

/-! ### DFS: fuel adequacy -/

theorem filter_length_mono {α : Type} (L : List α) (p q : α → Bool)
    (h : ∀ x ∈ L, p x = true → q x = true) :
    (L.filter p).length ≤ (L.filter q).length := by
  induction L with
  | nil => simp
  | cons a rest ih =>
    have ih2 := ih (fun x hx => h x (List.mem_cons_of_mem _ hx))
    by_cases hp : p a = true
    · rw [List.filter_cons_of_pos hp, List.filter_cons_of_pos (h a (List.mem_cons_self _ _) hp)]
      simpa using ih2
    · rw [List.filter_cons_of_neg (by simpa using hp)]
      by_cases hq : q a = true
      · rw [List.filter_cons_of_pos hq]
        exact le_trans ih2 (by simp)
      · rw [List.filter_cons_of_neg (by simpa using hq)]
        exact ih2

theorem dfsCount_mono (g : Graph) (s s2 : DfsSt)
    (h : ∀ x ∈ s.visited, x ∈ s2.visited) : dfsCount g s2 ≤ dfsCount g s := by
  unfold dfsCount
  apply filter_length_mono
  intro x hx hp
  simp at hp ⊢
  intro hc
  exact hp (h x hc)

theorem count_drop_aux (L vis : List NodeId) (v : NodeId) (hv : v ∈ L) (hnv : v ∉ vis)
    (hnd : L.Nodup) :
    (L.filter (fun x => decide (x ∉ v :: vis))).length + 1
      = (L.filter (fun x => decide (x ∉ vis))).length := by
  induction L with
  | nil => simp at hv
  | cons a rest ih =>
    have hnd2 := List.nodup_cons.mp hnd
    rcases List.mem_cons.mp hv with he | hm
    · subst he
      rw [List.filter_cons_of_neg (by simp), List.filter_cons_of_pos (by simpa using hnv)]
      have heq : rest.filter (fun x => decide (x ∉ v :: vis))
          = rest.filter (fun x => decide (x ∉ vis)) := by
        apply List.filter_congr
        intro x hx
        have hxa : x ≠ v := fun hc => hnd2.1 (hc ▸ hx)
        simp [hxa]
      rw [heq]
      simp
    · have hva : v ≠ a := fun hc => hnd2.1 (hc ▸ hm)
      by_cases ha : a ∈ vis
      · rw [List.filter_cons_of_neg (by simp [ha]),
          List.filter_cons_of_neg (by simp [ha])]
        exact ih hm hnd2.2
      · rw [List.filter_cons_of_pos (by simp [ha, Ne.symm hva]),
          List.filter_cons_of_pos (by simpa using ha)]
        simp only [List.length_cons]
        have hih := ih hm hnd2.2
        omega

theorem dfsCount_drop (g : Graph) (s : DfsSt) (node : NodeId) (hn : node ∈ nodes g)
    (hnv : node ∉ s.visited) :
    dfsCount g { s with visited := node :: s.visited, visiting := node :: s.visiting } + 1
      = dfsCount g s := by
  unfold dfsCount
  exact count_drop_aux (nodes g) s.visited node hn hnv (nodes_nodup g)

theorem visitAdj_fuel_of (g : Graph) (opts : DfsOpts) (fuel : Nat)
    (hPv : DfsFuelV g opts fuel) : DfsFuelA g opts fuel := by
  intro frm l
  induction l with
  | nil =>
    intro s hall hvv hcnt
    rw [visitAdj_nil]
    simp
  | cons v rest ih =>
    intro s hall hvv hcnt
    rw [visitAdj_cons]
    cases hv : DFSVisit g opts fuel (some frm) v s with
    | ok s1 =>
      rcases (dfs_mono g opts fuel).1 _ _ _ _ hv hvv with ⟨-, hmono, -, -, hvv1, -⟩
      apply ih s1 (fun w hw => hall w (List.mem_cons_of_mem _ hw)) hvv1
      exact lt_of_le_of_lt (dfsCount_mono g s s1 hmono) hcnt
    | cycleErr => simp
    | fuelOut =>
      exact absurd hv (hPv _ _ _ (hall v (List.mem_cons_self _ _)) hvv hcnt)

theorem DFSVisit_fuel_zero (g : Graph) (opts : DfsOpts) : DfsFuelV g opts 0 := by
  intro frm node s hn hvv hcnt
  exact absurd hcnt (Nat.not_lt_zero _)

theorem DFSVisit_fuel_succ (g : Graph) (opts : DfsOpts) (f : Nat)
    (hPa : DfsFuelA g opts f) : DfsFuelV g opts (f + 1) := by
  intro frm node s hn hvv hcnt
  by_cases h1 : node ∈ s.visiting
  · by_cases he : opts.errorOnCycle = true
    · rw [DFSVisit_cycleErr _ _ _ _ _ _ he h1]
      simp
    · by_cases hc : opts.collectCycles = true
      · rw [DFSVisit_collect _ _ _ _ _ _ (Bool.not_eq_true _ ▸ he) hc h1]
        simp
      · rw [DFSVisit_skip2 _ _ _ _ _ _ (fun hx => he hx.2) (fun hx => hc hx.2) (hvv _ h1)]
        simp
  · by_cases h2 : node ∈ s.visited
    · rw [DFSVisit_skip _ _ _ _ _ _ h1 h2]
      simp
    · rw [DFSVisit_descend _ _ _ _ _ _ h1 h2]
      have hdrop := dfsCount_drop g s node hn h2
      have hcnt1 : dfsCount g
          { s with visited := node :: s.visited, visiting := node :: s.visiting } < f := by
        omega
      have hvv1 : ∀ x ∈ node :: s.visiting, x ∈ node :: s.visited := by
        intro x hx
        rcases List.mem_cons.mp hx with hx1 | hx1
        · exact hx1 ▸ List.mem_cons_self _ _
        · exact List.mem_cons_of_mem _ (hvv _ hx1)
      have hAdj := hPa node (adjacent g node)
        { s with visited := node :: s.visited, visiting := node :: s.visiting }
        (fun v hv => mem_nodes_of_adjacent g node v hv) hvv1 hcnt1
      cases hv : visitAdj g opts f node (adjacent g node)
          { s with visited := node :: s.visited, visiting := node :: s.visiting } with
      | ok s3 => simp
      | cycleErr => simp
      | fuelOut => exact absurd hv hAdj

theorem dfs_fuel (g : Graph) (opts : DfsOpts) :
    ∀ fuel, DfsFuelV g opts fuel ∧ DfsFuelA g opts fuel := by
  intro fuel
  induction fuel with
  | zero =>
    have h := DFSVisit_fuel_zero g opts
    exact ⟨h, visitAdj_fuel_of g opts 0 h⟩
  | succ f ih =>
    have h := DFSVisit_fuel_succ g opts f ih.2
    exact ⟨h, visitAdj_fuel_of g opts (f + 1) h⟩

/-! ### DFS: top-level runs -/

theorem dfsSourcesInc_spec (g : Graph) (opts : DfsOpts) (hEoc : opts.errorOnCycle = true)
    (fuel : Nat) : ∀ L s s2, dfsSourcesInc g opts fuel L s = .ok s2 →
    DfsInv g s → s.visiting = [] →
    DfsInv g s2 ∧ s2.visiting = [] ∧ (∀ src ∈ L, src ∈ s2.nodeList) ∧
    (∀ x ∈ s2.visited, x ∈ s.visited ∨ x ∈ L ∨ ∃ m, x ∈ adjacent g m) ∧
    (∃ t, s2.nodeList = s.nodeList ++ t) := by
  intro L
  induction L with
  | nil =>
    intro s s2 hres hinv hve
    rw [dfsSourcesInc] at hres
    injection hres with h
    subst h
    exact ⟨hinv, hve, by simp, fun x hx => Or.inl hx, ⟨[], by simp⟩⟩
  | cons src rest ih =>
    intro s s2 hres hinv hve
    rw [dfsSourcesInc] at hres
    cases hv : DFSVisit g opts fuel none src s with
    | ok s1 =>
      rw [hv] at hres
      rcases (dfs_inv g opts hEoc fuel).1 _ _ _ _ hv hinv (by exact hve) with ⟨hinv1, hsrc1⟩
      rcases (dfs_mono g opts fuel).1 _ _ _ _ hv hinv.1 with
        ⟨hvis1, hmono1, ⟨t1, hnl1⟩, hdom1, -, -⟩
      have hve1 : s1.visiting = [] := by rw [hvis1, hve]
      rcases ih s1 s2 hres hinv1 hve1 with ⟨hinv2, hve2, hall2, hdom2, ⟨t2, hnl2⟩⟩
      refine ⟨hinv2, hve2, ?_, ?_, ⟨t1 ++ t2, by rw [hnl2, hnl1, List.append_assoc]⟩⟩
      · intro w hw
        rcases List.mem_cons.mp hw with hw1 | hw1
        · subst hw1
          rw [hnl2]
          exact List.mem_append.mpr (Or.inl hsrc1)
        · exact hall2 _ hw1
      · intro x hx
        rcases hdom2 x hx with hx1 | hx1 | hx1
        · rcases hdom1 x hx1 with hx2 | hx2 | hx2
          · exact Or.inl hx2
          · exact Or.inr (Or.inl (by rw [hx2]; exact List.mem_cons_self _ _))
          · exact Or.inr (Or.inr hx2)
        · exact Or.inr (Or.inl (List.mem_cons_of_mem _ hx1))
        · exact Or.inr (Or.inr hx1)
    | cycleErr =>
      rw [hv] at hres
      simp at hres
    | fuelOut =>
      rw [hv] at hres
      simp at hres

theorem dfsSourcesInc_cyc (g : Graph) (opts : DfsOpts) (fuel : Nat) :
    ∀ L s, dfsSourcesInc g opts fuel L s = .cycleErr →
    (∀ x ∈ s.visiting, x ∈ s.visited) → s.visiting = [] → HasCycleIn g := by
  intro L
  induction L with
  | nil =>
    intro s hres hvv hve
    rw [dfsSourcesInc] at hres
    simp at hres
  | cons src rest ih =>
    intro s hres hvv hve
    rw [dfsSourcesInc] at hres
    cases hv : DFSVisit g opts fuel none src s with
    | ok s1 =>
      rw [hv] at hres
      rcases (dfs_mono g opts fuel).1 _ _ _ _ hv hvv with ⟨hvis1, -, -, -, hvv1, -⟩
      exact ih s1 hres hvv1 (by rw [hvis1, hve])
    | cycleErr =>
      refine (dfs_cyc g opts fuel).1 _ _ _ hv hvv ?_ (by exact hve)
      rw [hve]
      trivial
    | fuelOut =>
      rw [hv] at hres
      simp at hres

theorem dfsSourcesInc_fuel (g : Graph) (opts : DfsOpts) (fuel : Nat) :
    ∀ L s, (∀ v ∈ L, v ∈ nodes g) → (∀ x ∈ s.visiting, x ∈ s.visited) →
    dfsCount g s < fuel → dfsSourcesInc g opts fuel L s ≠ .fuelOut := by
  intro L
  induction L with
  | nil =>
    intro s hall hvv hcnt
    rw [dfsSourcesInc]
    simp
  | cons src rest ih =>
    intro s hall hvv hcnt
    rw [dfsSourcesInc]
    cases hv : DFSVisit g opts fuel none src s with
    | ok s1 =>
      rcases (dfs_mono g opts fuel).1 _ _ _ _ hv hvv with ⟨-, hmono, -, -, hvv1, -⟩
      apply ih s1 (fun w hw => hall w (List.mem_cons_of_mem _ hw)) hvv1
      exact lt_of_le_of_lt (dfsCount_mono g s s1 hmono) hcnt
    | cycleErr => simp
    | fuelOut =>
      exact absurd hv ((dfs_fuel g opts fuel).1 _ _ _
        (hall src (List.mem_cons_self _ _)) hvv hcnt)

theorem dfsInv_empty (g : Graph) : DfsInv g ⟨[], [], [], []⟩ := by
  refine ⟨by simp, by simp, List.nodup_nil, by simp, by simp, List.nodup_nil, trivial, ?_⟩
  intro l1 u l2 hsplit
  simp at hsplit

theorem dfsCount_empty (g : Graph) : dfsCount g ⟨[], [], [], []⟩ = (nodes g).length := by
  unfold dfsCount
  congr 1
  rw [List.filter_eq_self]
  intro a ha
  simp

theorem dfs_default_ok (g : Graph) (s2 : DfsSt)
    (hres : depthFirstSearchBase g ⟨true, true, false⟩ none = .ok s2) :
    DfsInv g s2 ∧ (∀ x, x ∈ s2.nodeList ↔ x ∈ nodes g) := by
  unfold depthFirstSearchBase at hres
  simp only [Option.getD_none, if_pos] at hres
  rcases dfsSourcesInc_spec g ⟨true, true, false⟩ rfl _ _ _ _ hres (dfsInv_empty g) rfl with
    ⟨hinv2, hve2, hall2, hdom2, -⟩
  refine ⟨hinv2, fun x => ⟨?_, ?_⟩⟩
  · intro hx
    rcases hdom2 x (hinv2.2.1 x hx) with h | h | ⟨m, h⟩
    · simp at h
    · exact h
    · exact mem_nodes_of_adjacent g m x h
  · intro hx
    exact hall2 x hx

theorem dfs_default_cycleErr (g : Graph)
    (hres : depthFirstSearchBase g ⟨true, true, false⟩ none = .cycleErr) :
    HasCycleIn g := by
  unfold depthFirstSearchBase at hres
  simp only [Option.getD_none, if_pos] at hres
  exact dfsSourcesInc_cyc g ⟨true, true, false⟩ _ _ _ hres (by simp) rfl

theorem dfs_default_not_fuelOut (g : Graph) :
    depthFirstSearchBase g ⟨true, true, false⟩ none ≠ .fuelOut := by
  unfold depthFirstSearchBase
  simp only [Option.getD_none, if_pos]
  apply dfsSourcesInc_fuel
  · intro v hv
    exact hv
  · simp
  · rw [dfsCount_empty]
    omega

theorem dfs_default_ok_acyclic (g : Graph) (s2 : DfsSt)
    (hres : depthFirstSearchBase g ⟨true, true, false⟩ none = .ok s2) :
    ¬ HasCycleIn g := by
  rcases dfs_default_ok g s2 hres with ⟨hinv2, hmem⟩
  exact ordList_no_cycle g s2.nodeList hinv2.2.2.2.2.2.2.2 hinv2.2.2.1
    (fun x hx => (hmem x).mpr hx)

/-! ### Claims C1, C2, C6 -/

theorem ordCheckAux_sound (g : Graph) : ∀ (L acc : List NodeId),
    ordCheckAux g acc L = true →
    ∀ l1 u l2, L = l1 ++ u :: l2 → ∀ v ∈ adjacent g u, v ∈ acc ++ l1 := by
  intro L
  induction L with
  | nil =>
    intro acc h l1 u l2 hsplit
    simp at hsplit
  | cons a rest ih =>
    intro acc h l1 u l2 hsplit v hv
    rw [ordCheckAux, Bool.and_eq_true] at h
    cases l1 with
    | nil =>
      simp at hsplit
      rcases hsplit with ⟨he, -⟩
      subst he
      have := List.all_eq_true.mp h.1 v hv
      simp at this
      simpa using this
    | cons b l1 =>
      simp at hsplit
      rcases hsplit with ⟨he, hrest⟩
      subst he
      have := ih (acc ++ [a]) h.2 l1 u l2 hrest v hv
      rw [List.append_assoc] at this
      simpa using this

theorem acyclic_of_ordCheck (g : Graph) (L : List NodeId) (hc : ordCheck g L = true)
    (hnd : L.Nodup) (hall : ∀ x ∈ nodes g, x ∈ L) : ¬ HasCycleIn g := by
  apply ordList_no_cycle g L _ hnd hall
  intro l1 u l2 hsplit v hv
  have := ordCheckAux_sound g L [] hc l1 u l2 hsplit v hv
  simpa using this

/-- C2: hasCycle() is true exactly when the graph has a cycle (a self-loop
counting as a one-node cycle), and topologicalSort() with no arguments
raises the distinguished cycle error on exactly those graphs: the same
traversal error surfaces uncaught from topologicalSort and is caught and
turned into the boolean by hasCycle. -/
theorem claim_C2_hasCycle_iff (g : Graph) :
    (hasCycle g = true ↔ HasCycleIn g) ∧
    (topologicalSort g none true = .cycleError ↔ HasCycleIn g) := by
  unfold hasCycle topologicalSort
  cases hres : depthFirstSearchBase g ⟨true, true, false⟩ none with
  | ok s2 =>
    have hnc := dfs_default_ok_acyclic g s2 hres
    constructor
    · constructor
      · intro h
        simp at h
      · intro h
        exact absurd h hnc
    · constructor
      · intro h
        simp at h
      · intro h
        exact absurd h hnc
  | cycleErr =>
    have hcyc := dfs_default_cycleErr g hres
    exact ⟨⟨fun _ => hcyc, fun _ => rfl⟩, ⟨fun _ => hcyc, fun _ => rfl⟩⟩
  | fuelOut =>
    exact absurd hres (dfs_default_not_fuelOut g)

/-- C1: on a graph with no cycle, topologicalSort() with no arguments
returns a sequence containing every node of nodes() exactly once such that
for every edge (u, v) the node u appears before v. -/
theorem claim_C1_topologicalSort (g : Graph) (hacyc : ¬ HasCycleIn g) :
    ∃ L, topologicalSort g none true = .sorted L ∧ L.Nodup ∧
      (∀ x, x ∈ L ↔ x ∈ nodes g) ∧
      (∀ u v, hasEdge g u v = true → Before L u v) := by
  unfold topologicalSort
  cases hres : depthFirstSearchBase g ⟨true, true, false⟩ none with
  | ok s2 =>
    rcases dfs_default_ok g s2 hres with ⟨hinv2, hmem⟩
    refine ⟨s2.nodeList.reverse, rfl, List.nodup_reverse.mpr hinv2.2.2.1, ?_, ?_⟩
    · intro x
      rw [List.mem_reverse]
      exact hmem x
    · intro u v huv
      have hu : u ∈ s2.nodeList := by
        rw [hmem]
        exact mem_nodes_of_key g u ((alookup_isSome_iff_keys _ _).mp (hasEdge_key g u v huv))
      rcases List.mem_iff_append.mp hu with ⟨l1, l2, hsplit⟩
      have hvl1 : v ∈ l1 := hinv2.2.2.2.2.2.2.2 l1 u l2 hsplit v
        (by unfold hasEdge at huv; simpa using huv)
      refine ⟨l2.reverse, l1.reverse, ?_, by simpa using hvl1⟩
      rw [hsplit]
      simp
  | cycleErr =>
    exact absurd (dfs_default_cycleErr g hres) hacyc
  | fuelOut =>
    exact absurd hres (dfs_default_not_fuelOut g)

/-- Witness for C1 at the acyclic graph a → b. -/
theorem claim_C1_witness :
    ¬ HasCycleIn gAB ∧
    ∃ L, topologicalSort gAB none true = .sorted L ∧ L.Nodup ∧
      (∀ x, x ∈ L ↔ x ∈ nodes gAB) ∧
      (∀ u v, hasEdge gAB u v = true → Before L u v) :=
  ⟨acyclic_of_ordCheck gAB ["b", "a"] (by decide) (by decide) (by decide),
    claim_C1_topologicalSort gAB
      (acyclic_of_ordCheck gAB ["b", "a"] (by decide) (by decide) (by decide))⟩

/-! ### Claim C6: getCycles with no sources returns nothing -/

theorem visitAdj_all_visited (g : Graph) (opts : DfsOpts) (fuel : Nat) (frm : NodeId) :
    ∀ (l : List NodeId) (s : DfsSt), (∀ v ∈ l, v ∈ s.visited) → s.visiting = [] →
    visitAdj g opts fuel frm l s = .ok s := by
  intro l
  induction l with
  | nil =>
    intro s hall hve
    rw [visitAdj_nil]
  | cons v rest ih =>
    intro s hall hve
    rw [visitAdj_cons, DFSVisit_skip _ _ _ _ _ _ (by rw [hve]; simp)
      (hall v (List.mem_cons_self _ _))]
    exact ih s (fun w hw => hall w (List.mem_cons_of_mem _ hw)) hve

theorem dfsSourcesExc_noop (g : Graph) (opts : DfsOpts) (fuel : Nat) :
    ∀ (L : List NodeId) (s : DfsSt),
    (∀ src ∈ L, ∀ v ∈ adjacent g src, v ∈ s.visited) → s.visiting = [] →
    dfsSourcesExc g opts fuel L s = .ok s := by
  intro L
  induction L with
  | nil =>
    intro s hall hve
    rw [dfsSourcesExc]
  | cons src rest ih =>
    intro s hall hve
    rw [dfsSourcesExc,
      visitAdj_all_visited g opts fuel src _ s (hall src (List.mem_cons_self _ _)) hve]
    exact ih s (fun m hm => hall m (List.mem_cons_of_mem _ hm)) hve

/-- C6: getCycles() called without sourceNodes returns the empty list even
on cyclic graphs: all nodes become sources with includeSourceNodes false,
so every node is pre-marked visited and no back edge is ever recorded. -/
theorem claim_C6_getCycles_empty (g : Graph) : getCycles g none = [] := by
  unfold getCycles depthFirstSearchBase
  simp only [Option.isSome_none, Option.getD_none]
  rw [if_neg (by simp)]
  rw [dfsSourcesExc_noop g _ _ (nodes g) ⟨nodes g, [], [], []⟩
    (fun src hsrc v hv => mem_nodes_of_adjacent g src v hv) rfl]
  rfl

/-! ### Lowest common ancestors (C10) -/

theorem Reaches.refl0 (g : Graph) (a : NodeId) : Reaches g a a := Or.inl rfl

theorem Reaches.extend {g : Graph} {a b c : NodeId} (h : Reaches g a b)
    (he : hasEdge g b c = true) : Reaches g a c := by
  rcases h with h | h
  · subst h
    exact Or.inr (EdgePath.single he)
  · exact Or.inr (h.snoc he)

theorem CA1Visit_visited (g : Graph) (node2 : NodeId) (fuel : Nat) (node : NodeId)
    (s : LcaSt) (h : node ∈ s.visited) : CA1Visit g node2 fuel node s = some (true, s) := by
  rw [CA1Visit.eq_def]
  rw [if_pos h]

theorem CA1Visit_zero (g : Graph) (node2 : NodeId) (node : NodeId) (s : LcaSt)
    (h : node ∉ s.visited) : CA1Visit g node2 0 node s = none := by
  rw [CA1Visit.eq_def]
  rw [if_neg h]

theorem CA1Visit_hit (g : Graph) (node2 : NodeId) (f : Nat) (node : NodeId) (s : LcaSt)
    (h : node ∉ s.visited) (he : node = node2) :
    CA1Visit g node2 (f + 1) node s = some (false,
      ⟨node :: s.visited, s.node1Ancestors ++ [node], s.lcas ++ [node]⟩) := by
  subst he
  rw [CA1Visit.eq_def]
  rw [if_neg h]
  simp

theorem CA1Visit_descend (g : Graph) (node2 : NodeId) (f : Nat) (node : NodeId) (s : LcaSt)
    (h : node ∉ s.visited) (hne : node ≠ node2) :
    CA1Visit g node2 (f + 1) node s = CA1All g node2 f (adjacent g node)
      ⟨node :: s.visited, s.node1Ancestors ++ [node], s.lcas⟩ := by
  rw [CA1Visit.eq_def]
  rw [if_neg h]
  simp only [if_neg hne]

theorem CA1All_nil (g : Graph) (node2 : NodeId) (fuel : Nat) (s : LcaSt) :
    CA1All g node2 fuel [] s = some (true, s) := by
  rw [CA1All.eq_def]

theorem CA1All_cons (g : Graph) (node2 : NodeId) (fuel : Nat) (v : NodeId)
    (rest : List NodeId) (s : LcaSt) :
    CA1All g node2 fuel (v :: rest) s =
      match CA1Visit g node2 fuel v s with
      | some (true, s2) => CA1All g node2 fuel rest s2
      | r => r := by
  rw [CA1All.eq_def]

theorem ca1_spec (g : Graph) (node1 node2 : NodeId)
    (hne : ∀ x, Reaches g node1 x → x ≠ node2) :
    ∀ fuel,
      (∀ node s res, CA1Visit g node2 fuel node s = some res →
        Reaches g node1 node →
        (∀ x ∈ s.node1Ancestors, Reaches g node1 x) → s.lcas = [] →
        res.1 = true ∧ res.2.lcas = [] ∧
        (∀ x ∈ res.2.node1Ancestors, Reaches g node1 x)) ∧
      (∀ l s res, CA1All g node2 fuel l s = some res →
        (∀ v ∈ l, Reaches g node1 v) →
        (∀ x ∈ s.node1Ancestors, Reaches g node1 x) → s.lcas = [] →
        res.1 = true ∧ res.2.lcas = [] ∧
        (∀ x ∈ res.2.node1Ancestors, Reaches g node1 x)) := by
  have hAll : ∀ fuel, (∀ node s res, CA1Visit g node2 fuel node s = some res →
      Reaches g node1 node →
      (∀ x ∈ s.node1Ancestors, Reaches g node1 x) → s.lcas = [] →
      res.1 = true ∧ res.2.lcas = [] ∧
      (∀ x ∈ res.2.node1Ancestors, Reaches g node1 x)) →
      (∀ l s res, CA1All g node2 fuel l s = some res →
      (∀ v ∈ l, Reaches g node1 v) →
      (∀ x ∈ s.node1Ancestors, Reaches g node1 x) → s.lcas = [] →
      res.1 = true ∧ res.2.lcas = [] ∧
      (∀ x ∈ res.2.node1Ancestors, Reaches g node1 x)) := by
    intro fuel hV l
    induction l with
    | nil =>
      intro s res hres hrl hanc hlc
      rw [CA1All_nil] at hres
      injection hres with h
      subst h
      exact ⟨rfl, hlc, hanc⟩
    | cons v rest ih =>
      intro s res hres hrl hanc hlc
      rw [CA1All_cons] at hres
      cases hv : CA1Visit g node2 fuel v s with
      | none =>
        rw [hv] at hres
        simp at hres
      | some r1 =>
        rw [hv] at hres
        rcases hV v s r1 hv (hrl v (List.mem_cons_self _ _)) hanc hlc with ⟨hb, hlc1, hanc1⟩
        obtain ⟨b1, s1⟩ := r1
        simp only at hb
        subst hb
        simp only at hres
        exact ih s1 res hres (fun w hw => hrl w (List.mem_cons_of_mem _ hw)) hanc1 hlc1
  intro fuel
  induction fuel with
  | zero =>
    have hV : ∀ node s res, CA1Visit g node2 0 node s = some res →
        Reaches g node1 node →
        (∀ x ∈ s.node1Ancestors, Reaches g node1 x) → s.lcas = [] →
        res.1 = true ∧ res.2.lcas = [] ∧
        (∀ x ∈ res.2.node1Ancestors, Reaches g node1 x) := by
      intro node s res hres hrl hanc hlc
      by_cases h : node ∈ s.visited
      · rw [CA1Visit_visited _ _ _ _ _ h] at hres
        injection hres with h2
        subst h2
        exact ⟨rfl, hlc, hanc⟩
      · rw [CA1Visit_zero _ _ _ _ h] at hres
        simp at hres
    exact ⟨hV, hAll 0 hV⟩
  | succ f ihf =>
    have hV : ∀ node s res, CA1Visit g node2 (f + 1) node s = some res →
        Reaches g node1 node →
        (∀ x ∈ s.node1Ancestors, Reaches g node1 x) → s.lcas = [] →
        res.1 = true ∧ res.2.lcas = [] ∧
        (∀ x ∈ res.2.node1Ancestors, Reaches g node1 x) := by
      intro node s res hres hrl hanc hlc
      by_cases h : node ∈ s.visited
      · rw [CA1Visit_visited _ _ _ _ _ h] at hres
        injection hres with h2
        subst h2
        exact ⟨rfl, hlc, hanc⟩
      · rw [CA1Visit_descend _ _ _ _ _ h (hne node hrl)] at hres
        refine hAll f ihf.1 _ _ res hres ?_ ?_ hlc
        · intro v hv
          exact hrl.extend (hasEdge_of_mem g node v hv)
        · intro x hx
          rcases List.mem_append.mp hx with hx1 | hx1
          · exact hanc x hx1
          · rw [List.mem_singleton.mp hx1]
            exact hrl
    exact ⟨hV, hAll (f + 1) hV⟩

theorem CA2Visit_visited (g : Graph) (fuel : Nat) (node : NodeId)
    (vs : List NodeId × LcaSt) (h : node ∈ vs.1) : CA2Visit g fuel node vs = some vs := by
  rw [CA2Visit.eq_def]
  rw [if_pos h]

theorem CA2Visit_zero (g : Graph) (node : NodeId) (vs : List NodeId × LcaSt)
    (h : node ∉ vs.1) : CA2Visit g 0 node vs = none := by
  rw [CA2Visit.eq_def]
  rw [if_neg h]

theorem CA2Visit_descend (g : Graph) (f : Nat) (node : NodeId) (vs : List NodeId × LcaSt)
    (h : node ∉ vs.1) (hanc : node ∉ vs.2.node1Ancestors) (hlc : vs.2.lcas = []) :
    CA2Visit g (f + 1) node vs = CA2All g f (adjacent g node) (node :: vs.1, vs.2) := by
  rw [CA2Visit.eq_def]
  rw [if_neg h]
  simp [hanc, hlc]

theorem CA2All_nil (g : Graph) (fuel : Nat) (vs : List NodeId × LcaSt) :
    CA2All g fuel [] vs = some vs := by
  rw [CA2All.eq_def]

theorem CA2All_cons (g : Graph) (fuel : Nat) (v : NodeId) (rest : List NodeId)
    (vs : List NodeId × LcaSt) :
    CA2All g fuel (v :: rest) vs =
      match CA2Visit g fuel v vs with
      | some vs2 => CA2All g fuel rest vs2
      | none => none := by
  rw [CA2All.eq_def]

theorem ca2_main (g : Graph) (node1 node2 : NodeId)
    (hna : ¬ ∃ c, Reaches g node1 c ∧ Reaches g node2 c) :
    ∀ fuel,
      (∀ node vs res, CA2Visit g fuel node vs = some res →
        Reaches g node2 node → vs.2.lcas = [] →
        (∀ x ∈ vs.2.node1Ancestors, Reaches g node1 x) →
        res.2.node1Ancestors = vs.2.node1Ancestors ∧ res.2.lcas = []) ∧
      (∀ l vs res, CA2All g fuel l vs = some res →
        (∀ v ∈ l, Reaches g node2 v) → vs.2.lcas = [] →
        (∀ x ∈ vs.2.node1Ancestors, Reaches g node1 x) →
        res.2.node1Ancestors = vs.2.node1Ancestors ∧ res.2.lcas = []) := by
  have hAll : ∀ fuel, (∀ node vs res, CA2Visit g fuel node vs = some res →
      Reaches g node2 node → vs.2.lcas = [] →
      (∀ x ∈ vs.2.node1Ancestors, Reaches g node1 x) →
      res.2.node1Ancestors = vs.2.node1Ancestors ∧ res.2.lcas = []) →
      (∀ l vs res, CA2All g fuel l vs = some res →
      (∀ v ∈ l, Reaches g node2 v) → vs.2.lcas = [] →
      (∀ x ∈ vs.2.node1Ancestors, Reaches g node1 x) →
      res.2.node1Ancestors = vs.2.node1Ancestors ∧ res.2.lcas = []) := by
    intro fuel hV l
    induction l with
    | nil =>
      intro vs res hres hrl hlc hanc
      rw [CA2All_nil] at hres
      injection hres with h
      subst h
      exact ⟨rfl, hlc⟩
    | cons v rest ih =>
      intro vs res hres hrl hlc hanc
      rw [CA2All_cons] at hres
      cases hv : CA2Visit g fuel v vs with
      | none =>
        rw [hv] at hres
        simp at hres
      | some vs1 =>
        rw [hv] at hres
        simp only at hres
        rcases hV v vs vs1 hv (hrl v (List.mem_cons_self _ _)) hlc hanc with ⟨hanc1, hlc1⟩
        have := ih vs1 res hres (fun w hw => hrl w (List.mem_cons_of_mem _ hw)) hlc1
          (by rw [hanc1]; exact hanc)
        rw [hanc1] at this
        exact this
  intro fuel
  induction fuel with
  | zero =>
    have hV : ∀ node vs res, CA2Visit g 0 node vs = some res →
        Reaches g node2 node → vs.2.lcas = [] →
        (∀ x ∈ vs.2.node1Ancestors, Reaches g node1 x) →
        res.2.node1Ancestors = vs.2.node1Ancestors ∧ res.2.lcas = [] := by
      intro node vs res hres hrl hlc hanc
      by_cases h : node ∈ vs.1
      · rw [CA2Visit_visited _ _ _ _ h] at hres
        injection hres with h2
        subst h2
        exact ⟨rfl, hlc⟩
      · rw [CA2Visit_zero _ _ _ h] at hres
        simp at hres
    exact ⟨hV, hAll 0 hV⟩
  | succ f ihf =>
    have hV : ∀ node vs res, CA2Visit g (f + 1) node vs = some res →
        Reaches g node2 node → vs.2.lcas = [] →
        (∀ x ∈ vs.2.node1Ancestors, Reaches g node1 x) →
        res.2.node1Ancestors = vs.2.node1Ancestors ∧ res.2.lcas = [] := by
      intro node vs res hres hrl hlc hanc
      by_cases h : node ∈ vs.1
      · rw [CA2Visit_visited _ _ _ _ h] at hres
        injection hres with h2
        subst h2
        exact ⟨rfl, hlc⟩
      · have hnanc : node ∉ vs.2.node1Ancestors := by
          intro hc
          exact hna ⟨node, hanc node hc, hrl⟩
        rw [CA2Visit_descend _ _ _ _ h hnanc hlc] at hres
        exact hAll f ihf.1 (adjacent g node) (node :: vs.1, vs.2) res hres
          (fun v hv => hrl.extend (hasEdge_of_mem g node v hv)) hlc hanc
    exact ⟨hV, hAll (f + 1) hV⟩

theorem lca_eq (g : Graph) (node1 node2 : NodeId) :
    lowestCommonAncestors g node1 node2 =
      match CA1Visit g node2 ((nodes g).length + 2) node1 ⟨[], [], []⟩ with
      | none => []
      | some (b, s) =>
        if b then
          match CA2Visit g ((nodes g).length + 2) node2 ([], s) with
          | none => []
          | some (_, s2) => s2.lcas
        else s.lcas := rfl

/-- C10: lowestCommonAncestors(x, x) returns exactly the sequence with the
one member x; and when no node is reachable from both arguments (the
reaches-relation sense of common ancestor used by the module), the result
is the empty sequence. -/
theorem claim_C10_lca :
    (∀ (g : Graph) (x : NodeId), lowestCommonAncestors g x x = [x]) ∧
    (∀ (g : Graph) (a b : NodeId), (¬ ∃ c, Reaches g a c ∧ Reaches g b c) →
      lowestCommonAncestors g a b = []) := by
  constructor
  · intro g x
    rw [lca_eq]
    have hfu : (nodes g).length + 2 = ((nodes g).length + 1) + 1 := rfl
    rw [hfu, CA1Visit_hit g x ((nodes g).length + 1) x ⟨[], [], []⟩ (by simp) rfl]
    simp
  · intro g a b hna
    have hne : ∀ x, Reaches g a x → x ≠ b := by
      intro x hx he
      exact hna ⟨x, hx, by rw [he]; exact Reaches.refl0 g b⟩
    rw [lca_eq]
    cases hv : CA1Visit g b ((nodes g).length + 2) a ⟨[], [], []⟩ with
    | none => rfl
    | some res =>
      rcases (ca1_spec g a b hne ((nodes g).length + 2)).1 a _ res hv (Reaches.refl0 g a)
        (by simp) rfl with ⟨hb, hlc, hanc⟩
      obtain ⟨b1, s⟩ := res
      simp only at hb hlc hanc
      subst hb
      simp only [if_pos rfl]
      cases hv2 : CA2Visit g ((nodes g).length + 2) b ([], s) with
      | none => rfl
      | some vs2 =>
        rcases (ca2_main g a b hna ((nodes g).length + 2)).1 b ([], s) vs2 hv2
          (Reaches.refl0 g b) hlc hanc with ⟨-, hlc2⟩
        exact hlc2

/-- Witness for C10 at two isolated nodes a and b. -/
theorem claim_C10_witness :
    (¬ ∃ c, Reaches (addNode (addNode emptyGraph "a") "b") "a" c ∧
      Reaches (addNode (addNode emptyGraph "a") "b") "b" c) ∧
    lowestCommonAncestors (addNode (addNode emptyGraph "a") "b") "a" "b" = [] := by
  have hiso : ∀ u, adjacent (addNode (addNode emptyGraph "a") "b") u = [] := by
    intro u
    rw [adjacent_addNode, adjacent_addNode]
    rfl
  have hnoedge : ∀ u v, ¬ EdgePath (addNode (addNode emptyGraph "a") "b") u v := by
    intro u v hp
    rcases hp.head_edge with ⟨w, hw⟩
    unfold hasEdge at hw
    rw [hiso u] at hw
    simp at hw
  have hna : ¬ ∃ c, Reaches (addNode (addNode emptyGraph "a") "b") "a" c ∧
      Reaches (addNode (addNode emptyGraph "a") "b") "b" c := by
    rintro ⟨c, hac, hbc⟩
    rcases hac with hac | hac
    · rcases hbc with hbc | hbc
      · rw [← hac] at hbc
        simp at hbc
      · exact hnoedge _ _ hbc
    · exact hnoedge _ _ hac
  exact ⟨hna, claim_C10_lca.2 _ "a" "b" hna⟩

/-! ### shortestPath: error behaviour (C4) -/

theorem pathWalk_eq (g : Graph) (p : List (NodeId × NodeId)) (source : NodeId)
    (fuel : Nat) (node : NodeId) (acc : List NodeId) (wt : Int) :
    pathWalk g p source fuel node acc wt =
      match alookup p node with
      | some pn =>
        if pn = "" then
          if node = source then .ok ((acc ++ [node]).reverse, wt)
          else .error .noPathFound
        else
          match fuel with
          | 0 => .error .outOfFuel
          | f + 1 => pathWalk g p source f pn (acc ++ [node]) (wt + getEdgeWeight g pn node)
      | none =>
        if node = source then .ok ((acc ++ [node]).reverse, wt)
        else .error .noPathFound := by
  rw [pathWalk.eq_def]

theorem pathWalk_no_endpoint_err (g : Graph) (p : List (NodeId × NodeId)) (source : NodeId) :
    ∀ fuel node acc wt,
      pathWalk g p source fuel node acc wt ≠ .error .srcNotInGraph ∧
      pathWalk g p source fuel node acc wt ≠ .error .dstNotInGraph := by
  intro fuel
  induction fuel with
  | zero =>
    intro node acc wt
    rw [pathWalk_eq]
    cases hlook : alookup p node with
    | some pn =>
      by_cases hpn : pn = ""
      · by_cases h : node = source
        · simp [hpn, h]
        · simp [hpn, h]
      · simp [hpn]
    | none =>
      by_cases h : node = source
      · simp [h]
      · simp [h]
  | succ f ih =>
    intro node acc wt
    cases hlook : alookup p node with
    | some pn =>
      by_cases hpn : pn = ""
      · rw [pathWalk_eq]
        by_cases h : node = source
        · subst h
          simp [hlook, hpn]
        · simp [hlook, hpn, h]
      · have hred : pathWalk g p source (f + 1) node acc wt =
            pathWalk g p source f pn (acc ++ [node]) (wt + getEdgeWeight g pn node) := by
          rw [pathWalk_eq]
          simp only [hlook]
          rw [if_neg hpn]
        rw [hred]
        exact ih pn (acc ++ [node]) (wt + getEdgeWeight g pn node)
    | none =>
      rw [pathWalk_eq]
      by_cases h : node = source
      · subst h
        simp [hlook]
      · simp [hlook, h]

theorem alookup_initFold (l : List NodeId) (acc : List (NodeId × Dist)) (x : NodeId) :
    alookup (l.foldl (fun dd n => aset dd n Dist.inf) acc) x =
      if x ∈ l then some Dist.inf else alookup acc x := by
  induction l generalizing acc with
  | nil => simp
  | cons a rest ih =>
    rw [List.foldl_cons, ih]
    by_cases hx : x ∈ rest
    · simp [hx]
    · by_cases hxa : x = a
      · subst hxa
        simp [hx, alookup_aset_self]
      · simp [hx, hxa, alookup_aset_ne _ _ _ _ hxa]

theorem initDist_mem (g : Graph) (x : NodeId) (h : x ∈ nodes g) :
    alookup ((nodes g).foldl (fun dd n => aset dd n Dist.inf) []) x = some Dist.inf := by
  rw [alookup_initFold]
  simp [h]

theorem initDist_not_mem (g : Graph) (x : NodeId) (h : x ∉ nodes g) :
    alookup ((nodes g).foldl (fun dd n => aset dd n Dist.inf) []) x = none := by
  rw [alookup_initFold]
  simp [h, alookup]

theorem shortestPath_eq (g : Graph) (source destination : NodeId) :
    shortestPath g source destination =
      (if alookup ((nodes g).foldl (fun dd n => aset dd n Dist.inf) []) source ≠ some Dist.inf
       then .error .srcNotInGraph
       else if alookup ((nodes g).foldl (fun dd n => aset dd n Dist.inf) []) destination
              ≠ some Dist.inf
       then .error .dstNotInGraph
       else pathWalk g (dijkstraLoop g (nodes g).length
              (aset ((nodes g).foldl (fun dd n => aset dd n Dist.inf) []) source (Dist.fin 0), [])
              (nodes g)).2 source ((nodes g).length + 1) destination [] 0) := rfl

theorem relax_reachInv (g : Graph) (s : NodeId)
    (dp : List (NodeId × Dist) × List (NodeId × NodeId)) (u v : NodeId)
    (hv : v ∈ adjacent g u) (h : ReachInv g s dp.1 dp.2) :
    ReachInv g s (relax g dp u v).1 (relax g dp u v).2 := by
  unfold relax
  cases hdu : alookup dp.1 u with
  | none => simpa using h
  | some du =>
    simp only
    by_cases hgt : distGtD (alookup dp.1 v) (distAdd du (getEdgeWeight g u v)) = true
    · rw [if_pos hgt]
      constructor
      · intro v' x hx
        by_cases hv' : v' = v
        · subst hv'
          rw [alookup_aset_self] at hx
          cases du with
          | inf => simp [distAdd] at hx
          | fin a =>
            exact (h.1 u a hdu).extend (hasEdge_of_mem g u v' hv)
        · rw [alookup_aset_ne _ _ _ _ hv'] at hx
          exact h.1 v' x hx
      · intro v' u' hu'
        by_cases hv' : v' = v
        · subst hv'
          rw [alookup_aset_self] at hu'
          cases hdgt : distGtD (alookup dp.1 v') (distAdd du (getEdgeWeight g u v')) with
          | false => rw [hdgt] at hgt; simp at hgt
          | true =>
            cases du with
            | inf =>
              cases hdv : alookup dp.1 v' with
              | none => rw [hdv] at hdgt; simp [distGtD] at hdgt
              | some dv =>
                rw [hdv] at hdgt
                cases dv with
                | inf => simp [distGtD, distAdd] at hdgt
                | fin b => simp [distGtD, distAdd] at hdgt
            | fin a => exact (h.1 u a hdu).extend (hasEdge_of_mem g u v' hv)
        · rw [alookup_aset_ne _ _ _ _ hv'] at hu'
          exact h.2 v' u' hu'
    · rw [if_neg hgt]
      exact h

theorem relaxAll_reachInv (g : Graph) (s : NodeId) (u : NodeId) :
    ∀ (l : List NodeId) (dp : List (NodeId × Dist) × List (NodeId × NodeId)),
      (∀ v ∈ l, v ∈ adjacent g u) → ReachInv g s dp.1 dp.2 →
      ReachInv g s (relaxAll g dp u l).1 (relaxAll g dp u l).2 := by
  intro l
  induction l with
  | nil =>
    intro dp hsub h
    exact h
  | cons v rest ih =>
    intro dp hsub h
    show ReachInv g s (relaxAll g (relax g dp u v) u rest).1 (relaxAll g (relax g dp u v) u rest).2
    exact ih (relax g dp u v) (fun w hw => hsub w (List.mem_cons_of_mem _ hw))
      (relax_reachInv g s dp u v (hsub v (List.mem_cons_self _ _)) h)

theorem dijkstraLoop_reachInv (g : Graph) (s : NodeId) :
    ∀ (fuel : Nat) (dp : List (NodeId × Dist) × List (NodeId × NodeId)) (q : List NodeId),
      ReachInv g s dp.1 dp.2 →
      ReachInv g s (dijkstraLoop g fuel dp q).1 (dijkstraLoop g fuel dp q).2 := by
  intro fuel
  induction fuel with
  | zero => intro dp q h; exact h
  | succ f ih =>
    intro dp q h
    show ReachInv g s (dijkstraLoop g (f + 1) dp q).1 (dijkstraLoop g (f + 1) dp q).2
    rw [dijkstraLoop]
    by_cases hq : q.isEmpty
    · simpa [hq] using h
    · rw [if_neg hq]
      cases hm : extractMin dp.1 q with
      | none => exact h
      | some u =>
        exact ih _ _ (relaxAll_reachInv g s u (adjacent g u) dp (fun v hv => hv) h)

theorem initial_reachInv (g : Graph) (s : NodeId) :
    ReachInv g s (aset ((nodes g).foldl (fun dd n => aset dd n Dist.inf) []) s (Dist.fin 0)) [] := by
  constructor
  · intro v x hx
    by_cases hv : v = s
    · subst hv
      exact Or.inl rfl
    · rw [alookup_aset_ne _ _ _ _ hv, alookup_initFold] at hx
      by_cases hm : v ∈ nodes g
      · simp [hm] at hx
      · simp [hm, alookup] at hx
  · intro v u hu
    simp [alookup] at hu

/-- C4: shortestPath raises the source missing-endpoint error exactly when
the source is absent from nodes(); with the source present, the destination
missing-endpoint error exactly when the destination is absent; with both
present but the destination unreachable from the source, the no-path
error; and an error is never accompanied by a successful result. -/
theorem claim_C4_shortestPath_errors (g : Graph) (s t : NodeId) :
    (shortestPath g s t = .error .srcNotInGraph ↔ s ∉ nodes g) ∧
    (s ∈ nodes g → (shortestPath g s t = .error .dstNotInGraph ↔ t ∉ nodes g)) ∧
    (s ∈ nodes g → t ∈ nodes g → ¬ Reaches g s t →
      shortestPath g s t = .error .noPathFound) ∧
    (∀ e l w, shortestPath g s t = .error e → shortestPath g s t ≠ .ok (l, w)) := by
  refine ⟨?_, ?_, ?_, ?_⟩
  · constructor
    · intro herr hs
      rw [shortestPath_eq] at herr
      rw [if_neg (by rw [initDist_mem g s hs]; simp)] at herr
      by_cases ht : t ∈ nodes g
      · rw [if_neg (by rw [initDist_mem g t ht]; simp)] at herr
        exact (pathWalk_no_endpoint_err g _ s _ t [] 0).1 herr
      · rw [if_pos (by rw [initDist_not_mem g t ht]; simp)] at herr
        simp at herr
    · intro hs
      rw [shortestPath_eq]
      rw [if_pos (by rw [initDist_not_mem g s hs]; simp)]
  · intro hs
    constructor
    · intro herr ht
      rw [shortestPath_eq] at herr
      rw [if_neg (by rw [initDist_mem g s hs]; simp)] at herr
      rw [if_neg (by rw [initDist_mem g t ht]; simp)] at herr
      exact (pathWalk_no_endpoint_err g _ s _ t [] 0).2 herr
    · intro ht
      rw [shortestPath_eq]
      rw [if_neg (by rw [initDist_mem g s hs]; simp)]
      rw [if_pos (by rw [initDist_not_mem g t ht]; simp)]
  · intro hs ht hnr
    rw [shortestPath_eq]
    rw [if_neg (by rw [initDist_mem g s hs]; simp)]
    rw [if_neg (by rw [initDist_mem g t ht]; simp)]
    have hinv := dijkstraLoop_reachInv g s (nodes g).length
      (aset ((nodes g).foldl (fun dd n => aset dd n Dist.inf) []) s (Dist.fin 0), [])
      (nodes g) (initial_reachInv g s)
    rw [pathWalk_eq]
    cases hp : alookup (dijkstraLoop g (nodes g).length
        (aset ((nodes g).foldl (fun dd n => aset dd n Dist.inf) []) s (Dist.fin 0), [])
        (nodes g)).2 t with
    | some pn => exact absurd (hinv.2 t pn hp) hnr
    | none =>
      have hts : ¬ (t = s) := by
        intro he
        exact hnr (he ▸ Or.inl rfl)
      simp [hts]
  · intro e l w herr hok
    rw [herr] at hok
    simp at hok

theorem adjacent_gIso (u : NodeId) : adjacent gIso u = [] := by
  unfold gIso
  rw [adjacent_addNode, adjacent_addNode]
  rfl

theorem not_reaches_gIso_ab : ¬ Reaches gIso "a" "b" := by
  rintro (h | h)
  · simp at h
  · rcases h.head_edge with ⟨z, hz⟩
    unfold hasEdge at hz
    rw [adjacent_gIso] at hz
    simp at hz

/-- Witness for C4 at the two-isolated-node graph: the no-path error for
a → b, and the source error when the source is absent. -/
theorem claim_C4_witness :
    "a" ∈ nodes gIso ∧ "b" ∈ nodes gIso ∧ ¬ Reaches gIso "a" "b" ∧
    shortestPath gIso "a" "b" = .error .noPathFound ∧
    shortestPath gIso "c" "b" = .error .srcNotInGraph :=
  ⟨by decide, by decide, not_reaches_gIso_ab,
   (claim_C4_shortestPath_errors gIso "a" "b").2.2.1 (by decide) (by decide) not_reaches_gIso_ab,
   (claim_C4_shortestPath_errors gIso "c" "b").1.mpr (by decide)⟩

/-! ### Walks and weights: basic lemmas (C3) -/

theorem getEdgeWeight_nonneg (g : Graph) (hw : nonnegWeights g) (u v : NodeId)
    (h : hasEdge g u v = true) : 0 ≤ getEdgeWeight g u v := by
  unfold hasEdge at h
  rw [decide_eq_true_iff] at h
  unfold adjacent at h
  cases hl : alookup g.edges u with
  | none => rw [hl] at h; simp at h
  | some lst =>
    rw [hl] at h
    simp only [Option.getD_some] at h
    exact hw (u, lst) (alookup_mem _ _ _ hl) v h

theorem chainList_concat (g : Graph) :
    ∀ (l : List NodeId) (y z : NodeId), l.getLast? = some y →
      chainList g (l ++ [z]) = (chainList g l && hasEdge g y z) := by
  intro l
  induction l with
  | nil => intro y z hy; simp at hy
  | cons a rest ih =>
    intro y z hy
    cases rest with
    | nil =>
      simp only [List.getLast?_singleton] at hy
      injection hy with hy
      subst hy
      simp [chainList]
    | cons b rest2 =>
      have hy2 : (b :: rest2).getLast? = some y := by
        rw [← hy]
        rfl
      show chainList g (a :: (b :: rest2) ++ [z]) = _
      rw [show (a :: (b :: rest2)) ++ [z] = a :: ((b :: rest2) ++ [z]) from rfl]
      rw [show chainList g (a :: ((b :: rest2) ++ [z])) =
        (hasEdge g a b && chainList g ((b :: rest2) ++ [z])) from rfl]
      rw [ih y z hy2]
      rw [show chainList g (a :: b :: rest2) = (hasEdge g a b && chainList g (b :: rest2)) from rfl]
      rw [Bool.and_assoc]

theorem walkWeight_concat (g : Graph) :
    ∀ (l : List NodeId) (y z : NodeId), l.getLast? = some y →
      walkWeight g (l ++ [z]) = walkWeight g l + getEdgeWeight g y z := by
  intro l
  induction l with
  | nil => intro y z hy; simp at hy
  | cons a rest ih =>
    intro y z hy
    cases rest with
    | nil =>
      simp only [List.getLast?_singleton] at hy
      injection hy with hy
      subst hy
      show getEdgeWeight g a z + 0 = 0 + getEdgeWeight g a z
      omega
    | cons b rest2 =>
      have hy2 : (b :: rest2).getLast? = some y := by
        rw [← hy]
        rfl
      show getEdgeWeight g a b + walkWeight g ((b :: rest2) ++ [z]) = _
      rw [ih y z hy2]
      show _ = getEdgeWeight g a b + walkWeight g (b :: rest2) + getEdgeWeight g y z
      omega

theorem walkWeight_nonneg (g : Graph) (hw : nonnegWeights g) :
    ∀ (l : List NodeId), chainList g l = true → 0 ≤ walkWeight g l := by
  intro l
  induction l with
  | nil => intro h; simp [walkWeight]
  | cons a rest ih =>
    intro h
    cases rest with
    | nil => simp [walkWeight]
    | cons b rest2 =>
      rw [show chainList g (a :: b :: rest2) =
        (hasEdge g a b && chainList g (b :: rest2)) from rfl] at h
      rw [Bool.and_eq_true] at h
      have h1 := getEdgeWeight_nonneg g hw a b h.1
      have h2 := ih h.2
      show 0 ≤ getEdgeWeight g a b + walkWeight g (b :: rest2)
      omega

theorem isWalk_single (g : Graph) (z : NodeId) : IsWalk g z z [z] := by
  refine ⟨rfl, rfl, rfl⟩

theorem isWalk_ne_nil {g : Graph} {s t : NodeId} {l : List NodeId} (h : IsWalk g s t l) :
    l ≠ [] := by
  intro he
  rw [he] at h
  exact Option.noConfusion h.1

theorem isWalk_singleton {g : Graph} {s t z : NodeId} (h : IsWalk g s t [z]) :
    z = s ∧ z = t :=
  ⟨Option.some.inj h.1, Option.some.inj h.2.1⟩

theorem isWalk_snoc {g : Graph} {s y : NodeId} {l : List NodeId} (h : IsWalk g s y l)
    (z : NodeId) (he : hasEdge g y z = true) : IsWalk g s z (l ++ [z]) := by
  obtain ⟨h1, h2, h3⟩ := h
  refine ⟨?_, ?_, ?_⟩
  · rw [← h1]
    cases l with
    | nil => exact Option.noConfusion h1
    | cons a rest => rfl
  · exact List.getLast?_concat l
  · rw [chainList_concat g l y z h2, h3, he]
    rfl

theorem walk_snoc_decomp (g : Graph) {s z : NodeId} {l : List NodeId}
    (h : IsWalk g s z l) (hlen : 2 ≤ l.length) :
    ∃ l2 y, l = l2 ++ [z] ∧ IsWalk g s y l2 ∧ hasEdge g y z = true ∧
      walkWeight g l = walkWeight g l2 + getEdgeWeight g y z ∧ l2.length < l.length := by
  rcases List.eq_nil_or_concat l with hnil | ⟨l2, b, hl⟩
  · rw [hnil] at h
    exact absurd rfl (isWalk_ne_nil h)
  · rw [List.concat_eq_append] at hl
    obtain ⟨h1, h2, h3⟩ := h
    have hb : b = z := by
      rw [hl, List.getLast?_concat] at h2
      injection h2 with h2
    subst hb
    subst hl
    cases hl2 : l2.getLast? with
    | none =>
      rw [List.getLast?_eq_none_iff] at hl2
      subst hl2
      simp at hlen
    | some y =>
      have hl2ne : l2 ≠ [] := by
        intro he
        rw [he] at hl2
        exact Option.noConfusion hl2
      have hhead : l2.head? = some s := by
        rw [← h1]
        cases l2 with
        | nil => exact absurd rfl hl2ne
        | cons a rest => rfl
      rw [chainList_concat g l2 y b hl2, Bool.and_eq_true] at h3
      refine ⟨l2, y, rfl, ⟨hhead, hl2, h3.1⟩, h3.2, walkWeight_concat g l2 y b hl2, ?_⟩
      rw [List.length_append]
      simp

theorem isWalk_cons {g : Graph} {u w t : NodeId} {l : List NodeId}
    (he : hasEdge g u w = true) (h : IsWalk g w t l) : IsWalk g u t (u :: l) := by
  obtain ⟨h1, h2, h3⟩ := h
  cases l with
  | nil => exact Option.noConfusion h1
  | cons a rest =>
    injection h1 with h1
    subst h1
    refine ⟨rfl, h2, ?_⟩
    rw [show chainList g (u :: a :: rest) = (hasEdge g u a && chainList g (a :: rest)) from rfl]
    rw [he, h3]
    rfl

theorem edgePath_isWalk {g : Graph} {u v : NodeId} (h : EdgePath g u v) :
    ∃ l, IsWalk g u v l := by
  induction h with
  | single h1 =>
    rename_i a b
    exact ⟨[a, b], isWalk_snoc (isWalk_single g a) b h1⟩
  | cons h1 _ ih =>
    rcases ih with ⟨l, hl⟩
    exact ⟨_ :: l, isWalk_cons h1 hl⟩

theorem reaches_isWalk {g : Graph} {u v : NodeId} (h : Reaches g u v) :
    ∃ l, IsWalk g u v l := by
  rcases h with h | h
  · subst h
    exact ⟨[u], isWalk_single g u⟩
  · exact edgePath_isWalk h

theorem mem_nodes_of_adjacent_src (g : Graph) (m z : NodeId) (h : z ∈ adjacent g m) :
    m ∈ nodes g := by
  unfold adjacent at h
  cases hl : alookup g.edges m with
  | none => rw [hl] at h; simp at h
  | some lst =>
    apply mem_nodes_of_key
    rw [← alookup_isSome_iff_keys, hl]
    rfl

/-! ### extractMin: linear scan characterisation (C3) -/

theorem extractMin_scan (d : List (NodeId × Dist)) :
    ∀ (l : List NodeId) (acc : Dist × Option NodeId),
      ((l.foldl (fun acc node => if distLtD (alookup d node) acc.1
          then ((alookup d node).getD .inf, some node) else acc) acc) = acc ∧
        (∀ v ∈ l, distLtD (alookup d v) acc.1 = false)) ∨
      (∃ n0 a, n0 ∈ l ∧
        (l.foldl (fun acc node => if distLtD (alookup d node) acc.1
          then ((alookup d node).getD .inf, some node) else acc) acc) = (Dist.fin a, some n0) ∧
        alookup d n0 = some (Dist.fin a) ∧
        distLtD (some (Dist.fin a)) acc.1 = true ∧
        (∀ v ∈ l, distLtD (alookup d v) (Dist.fin a) = false)) := by
  intro l
  induction l with
  | nil => intro acc; exact Or.inl ⟨rfl, by simp⟩
  | cons node l ih =>
    intro acc
    rw [List.foldl_cons]
    cases ht : distLtD (alookup d node) acc.1 with
    | false =>
      rw [if_neg (by decide : ¬ false = true)]
      rcases ih acc with ⟨hfold, hall⟩ | ⟨n0, a, hn0, hfold, hd, hlt, hall⟩
      · refine Or.inl ⟨hfold, ?_⟩
        intro v hv
        rcases List.mem_cons.mp hv with hv | hv
        · rw [hv]; exact ht
        · exact hall v hv
      · refine Or.inr ⟨n0, a, List.mem_cons_of_mem _ hn0, hfold, hd, hlt, ?_⟩
        intro v hv
        rcases List.mem_cons.mp hv with hv | hv
        · subst hv
          cases hdv : alookup d v with
          | none => rfl
          | some dv =>
            cases dv with
            | inf => rfl
            | fin c =>
              cases hacc : acc.1 with
              | inf =>
                rw [hdv, hacc] at ht
                simp [distLtD] at ht
              | fin b =>
                rw [hdv, hacc] at ht
                rw [hacc] at hlt
                simp only [distLtD, decide_eq_false_iff_not, not_lt] at ht
                simp only [distLtD, decide_eq_true_eq] at hlt
                simp only [distLtD, decide_eq_false_iff_not, not_lt]
                omega
        · exact hall v hv
    | true =>
      rw [if_pos (rfl : true = true)]
      have hfin : ∃ c, alookup d node = some (Dist.fin c) := by
        cases hdv : alookup d node with
        | none => rw [hdv] at ht; simp [distLtD] at ht
        | some dv =>
          cases dv with
          | inf => rw [hdv] at ht; simp [distLtD] at ht
          | fin c => exact ⟨c, rfl⟩
      rcases hfin with ⟨c, hc⟩
      rw [hc]
      simp only [Option.getD_some]
      rcases ih (Dist.fin c, some node) with ⟨hfold, hall⟩ | ⟨n0, a, hn0, hfold, hd, hlt, hall⟩
      · refine Or.inr ⟨node, c, List.mem_cons_self _ _, hfold, hc, ?_, ?_⟩
        · rw [← hc]; exact ht
        · intro v hv
          rcases List.mem_cons.mp hv with hv | hv
          · subst hv
            rw [hc]
            simp [distLtD]
          · exact hall v hv
      · have hac : a < c := by
          simp only [distLtD, decide_eq_true_eq] at hlt
          exact hlt
        refine Or.inr ⟨n0, a, List.mem_cons_of_mem _ hn0, hfold, hd, ?_, ?_⟩
        · rw [hc] at ht
          cases hacc : acc.1 with
          | inf => simp [distLtD]
          | fin b =>
            rw [hacc] at ht
            simp only [distLtD, decide_eq_true_eq] at ht ⊢
            omega
        · intro v hv
          rcases List.mem_cons.mp hv with hv | hv
          · subst hv
            rw [hc]
            simp only [distLtD, decide_eq_false_iff_not, not_lt]
            omega
          · exact hall v hv

theorem extractMin_some (d : List (NodeId × Dist)) (q : List NodeId) (u : NodeId)
    (h : extractMin d q = some u) :
    u ∈ q ∧ ∃ x, alookup d u = some (Dist.fin x) ∧
      ∀ v ∈ q, ∀ y, alookup d v = some (Dist.fin y) → x ≤ y := by
  unfold extractMin at h
  rcases extractMin_scan d q ((Dist.inf, none) : Dist × Option NodeId) with
    ⟨hfold, hall⟩ | ⟨n0, a, hn0, hfold, hd, hlt, hall⟩
  · rw [hfold] at h
    simp at h
  · rw [hfold] at h
    simp only at h
    injection h with h
    subst h
    refine ⟨hn0, a, hd, ?_⟩
    intro v hv y hy
    have := hall v hv
    rw [hy] at this
    simp only [distLtD, decide_eq_false_iff_not, not_lt] at this
    exact this

theorem extractMin_none_spec (d : List (NodeId × Dist)) (q : List NodeId)
    (h : extractMin d q = none) :
    ∀ v ∈ q, ∀ y, alookup d v ≠ some (Dist.fin y) := by
  unfold extractMin at h
  rcases extractMin_scan d q ((Dist.inf, none) : Dist × Option NodeId) with
    ⟨hfold, hall⟩ | ⟨n0, a, hn0, hfold, hd, hlt, hall⟩
  · intro v hv y hy
    have := hall v hv
    rw [hy] at this
    simp [distLtD] at this
  · rw [hfold] at h
    simp at h

/-! ### relax and relaxAll: monotonicity (C3) -/

theorem relax_dmono (g : Graph)
    (dp : List (NodeId × Dist) × List (NodeId × NodeId)) (u v : NodeId) :
    ∀ w y, alookup dp.1 w = some (Dist.fin y) →
      ∃ y2, alookup (relax g dp u v).1 w = some (Dist.fin y2) ∧ y2 ≤ y := by
  intro w y hy
  unfold relax
  cases hdu : alookup dp.1 u with
  | none => exact ⟨y, hy, le_refl y⟩
  | some du =>
    simp only
    by_cases hgt : distGtD (alookup dp.1 v) (distAdd du (getEdgeWeight g u v)) = true
    · rw [if_pos hgt]
      by_cases hw : w = v
      · subst hw
        rw [hy] at hgt
        cases du with
        | inf => simp [distAdd, distGtD] at hgt
        | fin a =>
          simp only [distAdd] at hgt ⊢
          simp only [distGtD, decide_eq_true_eq] at hgt
          refine ⟨a + getEdgeWeight g u w, ?_, le_of_lt hgt⟩
          rw [alookup_aset_self]
      · rw [alookup_aset_ne _ _ _ _ hw]
        exact ⟨y, hy, le_refl y⟩
    · rw [if_neg hgt]
      exact ⟨y, hy, le_refl y⟩

theorem relaxAll_dmono (g : Graph) (u : NodeId) :
    ∀ (l : List NodeId) (dp : List (NodeId × Dist) × List (NodeId × NodeId)) (w : NodeId)
      (y : Int), alookup dp.1 w = some (Dist.fin y) →
      ∃ y2, alookup (relaxAll g dp u l).1 w = some (Dist.fin y2) ∧ y2 ≤ y := by
  intro l
  induction l with
  | nil => intro dp w y hy; exact ⟨y, hy, le_refl y⟩
  | cons v rest ih =>
    intro dp w y hy
    rcases relax_dmono g dp u v w y hy with ⟨y1, hy1, hle1⟩
    rcases ih (relax g dp u v) w y1 hy1 with ⟨y2, hy2, hle2⟩
    exact ⟨y2, hy2, le_trans hle2 hle1⟩

/-! ### The extracted minimum is optimal (C3) -/

theorem adjacent_of_hasEdge {g : Graph} {u v : NodeId} (h : hasEdge g u v = true) :
    v ∈ adjacent g u := by
  unfold hasEdge at h
  exact of_decide_eq_true h

theorem reals_nonneg (g : Graph) (hw : nonnegWeights g) (s : NodeId)
    (d : List (NodeId × Dist))
    (hreals : ∀ v x, alookup d v = some (Dist.fin x) → ∃ l, IsWalk g s v l ∧ walkWeight g l = x)
    (v : NodeId) (x : Int) (hx : alookup d v = some (Dist.fin x)) : 0 ≤ x := by
  rcases hreals v x hx with ⟨l, hl, hwt⟩
  rw [← hwt]
  exact walkWeight_nonneg g hw l hl.2.2

theorem walk_bound (g : Graph) (s : NodeId) (hw : nonnegWeights g)
    (d : List (NodeId × Dist)) (p : List (NodeId × NodeId)) (q E : List NodeId)
    (hinv : DijInv g s d p q E) (xu : Int)
    (hmin : ∀ v ∈ q, ∀ y, alookup d v = some (Dist.fin y) → xu ≤ y) :
    ∀ (n : Nat) (l : List NodeId) (z : NodeId), l.length ≤ n → IsWalk g s z l → z ∈ q →
      xu ≤ walkWeight g l := by
  intro n
  induction n with
  | zero =>
    intro l z hlen hwk hz
    rw [Nat.le_zero, List.length_eq_zero] at hlen
    rw [hlen] at hwk
    exact absurd rfl (isWalk_ne_nil hwk)
  | succ n ih =>
    intro l z hlen hwk hz
    cases l with
    | nil => exact absurd rfl (isWalk_ne_nil hwk)
    | cons a rest =>
      cases rest with
      | nil =>
        rcases isWalk_singleton hwk with ⟨has, haz⟩
        have hsq : s ∈ q := by
          rw [← has, haz]
          exact hz
        have := hmin s hsq 0 hinv.dsrc
        show xu ≤ 0
        exact this
      | cons b rest2 =>
        have hlen2 : 2 ≤ (a :: b :: rest2).length := by
          simp
        rcases walk_snoc_decomp g hwk hlen2 with ⟨l2, y, heq, hwk2, hedge, hwt, hlt⟩
        rw [hwt]
        have hl2n : l2.length ≤ n := by
          rw [heq, List.length_append] at hlen
          simp at hlen
          omega
        by_cases hyq : y ∈ q
        · have h1 := ih l2 y hl2n hwk2 hyq
          have h2 := getEdgeWeight_nonneg g hw y z hedge
          omega
        · have hzadj : z ∈ adjacent g y := adjacent_of_hasEdge hedge
          have hyN : y ∈ nodes g := mem_nodes_of_adjacent_src g y z hzadj
          have hyE : y ∈ E := hinv.seds y hyN hyq
          rcases hinv.sfin y hyE with ⟨xy, hxy⟩
          have hopt := hinv.sopt y hyE xy hxy l2 hwk2
          rcases hinv.sfront y hyE z hzadj xy hxy with ⟨yz, hyz, hle⟩
          have hxuz := hmin z hz yz hyz
          omega

/-! ### relaxAll: the intermediate invariant (C3) -/

theorem relax_eq_update (g : Graph) (d1 : List (NodeId × Dist)) (p1 : List (NodeId × NodeId))
    (u v : NodeId) (du : Dist) (hdu : alookup d1 u = some du)
    (hgt : distGtD (alookup d1 v) (distAdd du (getEdgeWeight g u v)) = true) :
    relax g (d1, p1) u v =
      (aset d1 v (distAdd du (getEdgeWeight g u v)), aset p1 v u) := by
  unfold relax
  simp only [hdu]
  rw [if_pos hgt]

theorem relax_eq_skip (g : Graph) (d1 : List (NodeId × Dist)) (p1 : List (NodeId × NodeId))
    (u v : NodeId) (du : Dist) (hdu : alookup d1 u = some du)
    (hgt : distGtD (alookup d1 v) (distAdd du (getEdgeWeight g u v)) = false) :
    relax g (d1, p1) u v = (d1, p1) := by
  unfold relax
  simp only [hdu]
  rw [if_neg (by rw [hgt]; decide)]

theorem mid_d1u (g : Graph) (s u : NodeId) (xu : Int) (d : List (NodeId × Dist))
    (p : List (NodeId × NodeId)) (q : List NodeId) (d1 : List (NodeId × Dist))
    (p1 : List (NodeId × NodeId)) (hqnd : q.Nodup)
    (hxu : alookup d u = some (Dist.fin xu))
    (hmid : MidInv g s u xu d p q d1 p1) : alookup d1 u = some (Dist.fin xu) := by
  rcases hmid.2.1 u with ⟨h1, _⟩ | ⟨_, hqe, _⟩
  · rw [h1, hxu]
  · exact absurd rfl ((hqnd.mem_erase_iff).mp hqe).1

theorem relax_mid (g : Graph) (s : NodeId) (hw : nonnegWeights g)
    (d : List (NodeId × Dist)) (p : List (NodeId × NodeId)) (q E : List NodeId)
    (u : NodeId) (xu : Int) (hinv : DijInv g s d p q E) (hu : u ∈ q)
    (hxu : alookup d u = some (Dist.fin xu))
    (v : NodeId) (hv : v ∈ adjacent g u)
    (d1 : List (NodeId × Dist)) (p1 : List (NodeId × NodeId))
    (hmid : MidInv g s u xu d p q d1 p1) :
    MidInv g s u xu d p q (relax g (d1, p1) u v).1 (relax g (d1, p1) u v).2 := by
  have hd1u : alookup d1 u = some (Dist.fin xu) :=
    mid_d1u g s u xu d p q d1 p1 hinv.qnd hxu hmid
  obtain ⟨hdom1, hdelta, hreals1⟩ := hmid
  have hedgeuv : hasEdge g u v = true := hasEdge_of_mem g u v hv
  have hwuv : 0 ≤ getEdgeWeight g u v := getEdgeWeight_nonneg g hw u v hedgeuv
  cases hgt : distGtD (alookup d1 v) (distAdd (Dist.fin xu) (getEdgeWeight g u v)) with
  | false =>
    rw [relax_eq_skip g d1 p1 u v (Dist.fin xu) hd1u hgt]
    exact ⟨hdom1, hdelta, hreals1⟩
  | true =>
    have hvN : v ∈ nodes g := mem_nodes_of_adjacent g u v hv
    have hvunch : alookup d1 v = alookup d v ∧ alookup p1 v = alookup p v := by
      rcases hdelta v with h | ⟨_, _, _, hdv, _⟩
      · exact h
      · exfalso
        rw [hdv] at hgt
        simp [distGtD, distAdd] at hgt
    have hstrict : distGtD (alookup d v) (Dist.fin (xu + getEdgeWeight g u v)) = true := by
      rw [← hvunch.1]
      exact hgt
    have hvne_u : v ≠ u := by
      intro he
      rw [he, hd1u] at hgt
      simp only [distAdd, distGtD, decide_eq_true_eq] at hgt
      rw [he] at hwuv
      omega
    have hvnotE : v ∉ E := by
      intro hvE
      rcases hinv.sfin v hvE with ⟨xv, hxv⟩
      have hle := hinv.sdom v hvE xv hxv u hu xu hxu
      rw [hxv] at hstrict
      simp only [distGtD, decide_eq_true_eq] at hstrict
      omega
    have hvq : v ∈ q.erase u := by
      have hvnq : v ∈ q := by
        by_contra hnq
        exact hvnotE (hinv.seds v hvN hnq)
      exact (List.mem_erase_of_ne hvne_u).mpr hvnq
    rw [relax_eq_update g d1 p1 u v (Dist.fin xu) hd1u hgt]
    show MidInv g s u xu d p q (aset d1 v (Dist.fin (xu + getEdgeWeight g u v))) (aset p1 v u)
    refine ⟨?_, ?_, ?_⟩
    · intro y
      by_cases hy : y = v
      · subst hy
        rw [alookup_aset_self]
        simpa using hvN
      · rw [alookup_aset_ne _ _ _ _ hy]
        exact hdom1 y
    · intro y
      by_cases hy : y = v
      · subst hy
        refine Or.inr ⟨hv, hvq, hstrict, ?_, ?_⟩
        · rw [alookup_aset_self]
        · rw [alookup_aset_self]
      · rw [alookup_aset_ne _ _ _ _ hy, alookup_aset_ne _ _ _ _ hy]
        exact hdelta y
    · intro y x hx
      by_cases hy : y = v
      · subst hy
        rw [alookup_aset_self] at hx
        injection hx with hx
        have hxval : x = xu + getEdgeWeight g u y := by
          injection hx with hx2
          exact hx2.symm
        rcases hinv.reals u xu hxu with ⟨l, hl, hwt⟩
        refine ⟨l ++ [y], isWalk_snoc hl y (hasEdge_of_mem g u y hv), ?_⟩
        rw [walkWeight_concat g l u y hl.2.1, hwt, hxval]
      · rw [alookup_aset_ne _ _ _ _ hy] at hx
        exact hreals1 y x hx

theorem relaxAll_mid (g : Graph) (s : NodeId) (hw : nonnegWeights g)
    (d : List (NodeId × Dist)) (p : List (NodeId × NodeId)) (q E : List NodeId)
    (u : NodeId) (xu : Int) (hinv : DijInv g s d p q E) (hu : u ∈ q)
    (hxu : alookup d u = some (Dist.fin xu)) :
    ∀ (rest : List NodeId) (d1 : List (NodeId × Dist)) (p1 : List (NodeId × NodeId)),
      (∀ v ∈ rest, v ∈ adjacent g u) → MidInv g s u xu d p q d1 p1 →
      MidInv g s u xu d p q (relaxAll g (d1, p1) u rest).1 (relaxAll g (d1, p1) u rest).2 ∧
      ∀ v ∈ rest, ∃ y, alookup (relaxAll g (d1, p1) u rest).1 v = some (Dist.fin y) ∧
        y ≤ xu + getEdgeWeight g u v := by
  intro rest
  induction rest with
  | nil =>
    intro d1 p1 hsub hmid
    exact ⟨hmid, by simp⟩
  | cons v rest ih =>
    intro d1 p1 hsub hmid
    have hvadj : v ∈ adjacent g u := hsub v (List.mem_cons_self _ _)
    have hd1u : alookup d1 u = some (Dist.fin xu) :=
      mid_d1u g s u xu d p q d1 p1 hinv.qnd hxu hmid
    have hmid1 := relax_mid g s hw d p q E u xu hinv hu hxu v hvadj d1 p1 hmid
    have hfront1 : ∃ y, alookup (relax g (d1, p1) u v).1 v = some (Dist.fin y) ∧
        y ≤ xu + getEdgeWeight g u v := by
      cases hgt : distGtD (alookup d1 v) (distAdd (Dist.fin xu) (getEdgeWeight g u v)) with
      | true =>
        rw [relax_eq_update g d1 p1 u v (Dist.fin xu) hd1u hgt]
        refine ⟨xu + getEdgeWeight g u v, ?_, le_refl _⟩
        show alookup (aset d1 v (Dist.fin (xu + getEdgeWeight g u v))) v = _
        rw [alookup_aset_self]
      | false =>
        rw [relax_eq_skip g d1 p1 u v (Dist.fin xu) hd1u hgt]
        cases hdv : alookup d1 v with
        | none =>
          exfalso
          have hsome := (hmid.1 v).mpr (mem_nodes_of_adjacent g u v hvadj)
          rw [hdv] at hsome
          simp at hsome
        | some dv =>
          cases dv with
          | inf =>
            exfalso
            rw [hdv] at hgt
            simp [distGtD, distAdd] at hgt
          | fin y =>
            refine ⟨y, rfl, ?_⟩
            rw [hdv] at hgt
            simp only [distAdd, distGtD, decide_eq_false_iff_not, not_lt] at hgt
            exact hgt
    have hstep : relaxAll g (d1, p1) u (v :: rest) = relaxAll g (relax g (d1, p1) u v) u rest :=
      rfl
    rw [hstep]
    have hih := ih (relax g (d1, p1) u v).1 (relax g (d1, p1) u v).2
      (fun w hw2 => hsub w (List.mem_cons_of_mem _ hw2)) hmid1
    refine ⟨hih.1, ?_⟩
    intro v2 hv2
    rcases List.mem_cons.mp hv2 with hv2 | hv2
    · subst hv2
      rcases hfront1 with ⟨y, hy, hle⟩
      rcases relaxAll_dmono g u rest (relax g (d1, p1) u v2) v2 y hy with ⟨y2, hy2, hle2⟩
      exact ⟨y2, hy2, le_trans hle2 hle⟩
    · exact hih.2 v2 hv2

/-! ### One Dijkstra round preserves the invariant (C3) -/

theorem before_append_right {E : List NodeId} {u v : NodeId} (w : NodeId)
    (h : Before E u v) : Before (E ++ [w]) u v := by
  rcases h with ⟨l1, l2, hE, hv⟩
  refine ⟨l1, l2 ++ [w], ?_, List.mem_append_left _ hv⟩
  rw [hE]
  simp

theorem before_last {E : List NodeId} (u w : NodeId) (h : u ∈ E) :
    Before (E ++ [w]) u w := by
  rcases List.mem_iff_append.mp h with ⟨l1, l2, hE⟩
  refine ⟨l1, l2 ++ [w], ?_, List.mem_append_right _ (List.mem_singleton.mpr rfl)⟩
  rw [hE]
  simp

theorem dijkstra_step (g : Graph) (s : NodeId) (hw : nonnegWeights g)
    (d : List (NodeId × Dist)) (p : List (NodeId × NodeId)) (q E : List NodeId)
    (u : NodeId) (xu : Int) (hinv : DijInv g s d p q E) (hu : u ∈ q)
    (hxu : alookup d u = some (Dist.fin xu))
    (hmin : ∀ v ∈ q, ∀ y, alookup d v = some (Dist.fin y) → xu ≤ y) :
    DijInv g s (relaxAll g (d, p) u (adjacent g u)).1 (relaxAll g (d, p) u (adjacent g u)).2
      (q.erase u) (E ++ [u]) := by
  have hmid0 : MidInv g s u xu d p q d p := ⟨hinv.dom, fun v => Or.inl ⟨rfl, rfl⟩, hinv.reals⟩
  rcases relaxAll_mid g s hw d p q E u xu hinv hu hxu (adjacent g u) d p
    (fun v hv => hv) hmid0 with ⟨hmidf, hfront⟩
  obtain ⟨hdom1, hdelta, hreals1⟩ := hmidf
  set d1 : List (NodeId × Dist) := (relaxAll g (d, p) u (adjacent g u)).1 with hd1
  set p1 : List (NodeId × NodeId) := (relaxAll g (d, p) u (adjacent g u)).2 with hp1
  have hnonneg : ∀ v y, alookup d v = some (Dist.fin y) → 0 ≤ y :=
    reals_nonneg g hw s d hinv.reals
  have huN : u ∈ nodes g := hinv.qsub u hu
  have hsettled_unch : ∀ z ∈ E, alookup d1 z = alookup d z ∧ alookup p1 z = alookup p z := by
    intro z hz
    rcases hdelta z with h | ⟨_, hzq, _⟩
    · exact h
    · exact absurd (List.mem_of_mem_erase hzq) (hinv.esub z hz).2
  have hu_unch : alookup d1 u = alookup d u ∧ alookup p1 u = alookup p u := by
    rcases hdelta u with h | ⟨_, hzq, _⟩
    · exact h
    · exact absurd rfl ((hinv.qnd.mem_erase_iff).mp hzq).1
  have hsunch : alookup d1 s = alookup d s ∧ alookup p1 s = alookup p s := by
    rcases hdelta s with h | ⟨hsadj, _, hstr, _⟩
    · exact h
    · exfalso
      rw [hinv.dsrc] at hstr
      simp only [distGtD, decide_eq_true_eq] at hstr
      have h0 : 0 ≤ xu := hnonneg u xu hxu
      have hws : 0 ≤ getEdgeWeight g u s :=
        getEdgeWeight_nonneg g hw u s (hasEdge_of_mem g u s hsadj)
      omega
  have hnotqe : ∀ v, v ∈ E ++ [u] → v ∉ q.erase u := by
    intro v hv hc
    rcases List.mem_append.mp hv with hvE | hvu
    · exact (hinv.esub v hvE).2 (List.mem_of_mem_erase hc)
    · rw [List.mem_singleton.mp hvu] at hc
      exact absurd rfl ((hinv.qnd.mem_erase_iff).mp hc).1
  refine ⟨hdom1, ?_, hinv.qnd.erase u, ?_, ?_, ?_, ?_, hreals1, ?_, ?_, ?_, ?_, ?_, ?_, ?_, ?_⟩
  · intro v hv
    exact hinv.qsub v (List.mem_of_mem_erase hv)
  · intro v hvN hvq
    by_cases hvu : v = u
    · exact List.mem_append_right _ (List.mem_singleton.mpr hvu)
    · refine List.mem_append_left _ (hinv.seds v hvN ?_)
      intro hvq2
      exact hvq ((List.mem_erase_of_ne hvu).mpr hvq2)
  · intro v hv
    refine ⟨?_, hnotqe v hv⟩
    rcases List.mem_append.mp hv with hvE | hvu
    · exact (hinv.esub v hvE).1
    · rw [List.mem_singleton.mp hvu]
      exact huN
  · rw [List.nodup_append]
    refine ⟨hinv.educ, List.nodup_singleton u, ?_⟩
    intro a ha hb
    rw [List.mem_singleton.mp hb] at ha
    exact (hinv.esub u ha).2 hu
  · rw [hsunch.1]
    exact hinv.dsrc
  · intro z hz
    rcases List.mem_append.mp hz with hzE | hzu
    · rcases hinv.sfin z hzE with ⟨x, hx⟩
      refine ⟨x, ?_⟩
      rw [(hsettled_unch z hzE).1]
      exact hx
    · rw [List.mem_singleton.mp hzu]
      refine ⟨xu, ?_⟩
      rw [hu_unch.1]
      exact hxu
  · intro z hz x hx l hl
    rcases List.mem_append.mp hz with hzE | hzu
    · rw [(hsettled_unch z hzE).1] at hx
      exact hinv.sopt z hzE x hx l hl
    · rw [List.mem_singleton.mp hzu] at hx hl
      rw [hu_unch.1, hxu] at hx
      injection hx with hx
      injection hx with hx
      rw [← hx]
      exact walk_bound g s hw d p q E hinv xu hmin l.length l u (le_refl _) hl hu
  · intro z hz v hvadj x hx
    rcases List.mem_append.mp hz with hzE | hzu
    · rw [(hsettled_unch z hzE).1] at hx
      rcases hinv.sfront z hzE v hvadj x hx with ⟨y, hy, hle⟩
      rcases hdelta v with ⟨hdv, _⟩ | ⟨_, _, hstr, hdv1, _⟩
      · refine ⟨y, ?_, hle⟩
        rw [hdv]
        exact hy
      · rw [hy] at hstr
        simp only [distGtD, decide_eq_true_eq] at hstr
        exact ⟨xu + getEdgeWeight g u v, hdv1, by omega⟩
    · rw [List.mem_singleton.mp hzu] at hx hvadj ⊢
      rw [hu_unch.1, hxu] at hx
      injection hx with hx
      injection hx with hx
      rcases hfront v hvadj with ⟨y, hy, hle⟩
      exact ⟨y, hy, by omega⟩
  · intro z hz x hx v hvq y hy
    have hvq2 : v ∈ q := List.mem_of_mem_erase hvq
    rcases hdelta v with ⟨hdv, _⟩ | ⟨hva, _, _, hdv1, _⟩
    · rw [hdv] at hy
      rcases List.mem_append.mp hz with hzE | hzu
      · rw [(hsettled_unch z hzE).1] at hx
        exact hinv.sdom z hzE x hx v hvq2 y hy
      · rw [List.mem_singleton.mp hzu] at hx
        rw [hu_unch.1, hxu] at hx
        injection hx with hx
        injection hx with hx
        rw [← hx]
        exact hmin v hvq2 y hy
    · rw [hdv1] at hy
      injection hy with hy
      injection hy with hy
      have hwuv : 0 ≤ getEdgeWeight g u v :=
        getEdgeWeight_nonneg g hw u v (hasEdge_of_mem g u v hva)
      rcases List.mem_append.mp hz with hzE | hzu
      · rw [(hsettled_unch z hzE).1] at hx
        have hxle : x ≤ xu := hinv.sdom z hzE x hx u hu xu hxu
        omega
      · rw [List.mem_singleton.mp hzu] at hx
        rw [hu_unch.1, hxu] at hx
        injection hx with hx
        injection hx with hx
        omega
  · intro v z hpv
    rcases hdelta v with ⟨hdv, hpvu⟩ | ⟨hva, _, _, hdv1, hpv1⟩
    · rw [hpvu] at hpv
      rcases hinv.pred v z hpv with ⟨hzE, hedge, xz, hxz, hdveq⟩
      refine ⟨List.mem_append_left _ hzE, hedge, xz, ?_, ?_⟩
      · rw [(hsettled_unch z hzE).1]
        exact hxz
      · rw [hdv]
        exact hdveq
    · rw [hpv1] at hpv
      injection hpv with hpv
      subst hpv
      refine ⟨List.mem_append_right _ (List.mem_singleton.mpr rfl),
        hasEdge_of_mem g u v hva, xu, ?_, hdv1⟩
      rw [hu_unch.1]
      exact hxu
  · intro v z hpv hvE2
    have hvunch : alookup p1 v = alookup p v := by
      rcases hdelta v with ⟨_, h⟩ | ⟨_, hvq, _⟩
      · exact h
      · exact absurd hvq (hnotqe v hvE2)
    rw [hvunch] at hpv
    rcases hinv.pred v z hpv with ⟨hzE, _, _⟩
    rcases List.mem_append.mp hvE2 with hvE | hvu
    · exact before_append_right u (hinv.pord v z hpv hvE)
    · rw [List.mem_singleton.mp hvu]
      exact before_last z u hzE
  · rw [hsunch.2]
    exact hinv.psrc
  · intro v hvs x hx
    rcases hdelta v with ⟨hdv, hpv⟩ | ⟨_, _, _, _, hpv1⟩
    · rw [hdv] at hx
      rw [hpv]
      exact hinv.pson v hvs x hx
    · rw [hpv1]
      rfl

/-! ### Running the loop to completion (C3) -/

theorem dijkstraLoop_post (g : Graph) (s : NodeId) (hw : nonnegWeights g) :
    ∀ (fuel : Nat) (d : List (NodeId × Dist)) (p : List (NodeId × NodeId)) (q E : List NodeId),
      DijInv g s d p q E → q.length ≤ fuel →
      ∃ q2 E2,
        DijInv g s (dijkstraLoop g fuel (d, p) q).1 (dijkstraLoop g fuel (d, p) q).2 q2 E2 ∧
        (q2 = [] ∨ ∀ v ∈ q2, alookup (dijkstraLoop g fuel (d, p) q).1 v = some Dist.inf) := by
  intro fuel
  induction fuel with
  | zero =>
    intro d p q E hinv hlen
    rw [Nat.le_zero, List.length_eq_zero] at hlen
    subst hlen
    exact ⟨[], E, hinv, Or.inl rfl⟩
  | succ f ih =>
    intro d p q E hinv hlen
    rw [dijkstraLoop]
    by_cases hq : q.isEmpty
    · rw [if_pos hq]
      have hqnil : q = [] := by
        cases q with
        | nil => rfl
        | cons a t => simp [List.isEmpty] at hq
      subst hqnil
      exact ⟨[], E, hinv, Or.inl rfl⟩
    · rw [if_neg hq]
      cases hm : extractMin d q with
      | none =>
        refine ⟨q, E, hinv, Or.inr ?_⟩
        intro v hv
        have hne := extractMin_none_spec d q hm v hv
        have hsome := (hinv.dom v).mpr (hinv.qsub v hv)
        cases hdv : alookup d v with
        | none => rw [hdv] at hsome; simp at hsome
        | some dv =>
          cases dv with
          | inf => rfl
          | fin y => exact absurd hdv (hne y)
      | some u =>
        rcases extractMin_some d q u hm with ⟨hu, xu, hxu, hmin⟩
        have hstep := dijkstra_step g s hw d p q E u xu hinv hu hxu hmin
        have hlen2 : (q.erase u).length ≤ f := by
          rw [List.length_erase_of_mem hu]
          have hpos : 0 < q.length := List.length_pos_of_mem hu
          omega
        exact ih (relaxAll g (d, p) u (adjacent g u)).1 (relaxAll g (d, p) u (adjacent g u)).2
          (q.erase u) (E ++ [u]) hstep hlen2

theorem no_walk_when_inf (g : Graph) (s : NodeId) (d : List (NodeId × Dist))
    (p : List (NodeId × NodeId)) (q E : List NodeId) (hinv : DijInv g s d p q E)
    (hinf : ∀ v ∈ q, alookup d v = some Dist.inf) :
    ∀ (n : Nat) (l : List NodeId) (z : NodeId), l.length ≤ n → IsWalk g s z l → z ∉ q := by
  intro n
  induction n with
  | zero =>
    intro l z hlen hwk
    rw [Nat.le_zero, List.length_eq_zero] at hlen
    rw [hlen] at hwk
    exact fun _ => (isWalk_ne_nil hwk) rfl
  | succ n ih =>
    intro l z hlen hwk hz
    cases l with
    | nil => exact (isWalk_ne_nil hwk) rfl
    | cons a rest =>
      cases rest with
      | nil =>
        rcases isWalk_singleton hwk with ⟨has, haz⟩
        have hsq : s ∈ q := by
          rw [← has, haz]
          exact hz
        have hc := hinf s hsq
        rw [hinv.dsrc] at hc
        simp at hc
      | cons b rest2 =>
        rcases walk_snoc_decomp g hwk (by simp) with ⟨l2, y, heq, hwk2, hedge, hwt, hlt⟩
        by_cases hyq : y ∈ q
        · refine ih l2 y ?_ hwk2 hyq
          rw [heq, List.length_append] at hlen
          simp at hlen
          omega
        · have hzadj : z ∈ adjacent g y := adjacent_of_hasEdge hedge
          have hyN : y ∈ nodes g := mem_nodes_of_adjacent_src g y z hzadj
          have hyE : y ∈ E := hinv.seds y hyN hyq
          rcases hinv.sfin y hyE with ⟨xy, hxy⟩
          rcases hinv.sfront y hyE z hzadj xy hxy with ⟨yz, hyz, _⟩
          have hc := hinf z hz
          rw [hyz] at hc
          simp at hc

theorem dij_initial (g : Graph) (s : NodeId) (hs : s ∈ nodes g) :
    DijInv g s (aset ((nodes g).foldl (fun dd n => aset dd n Dist.inf) []) s (Dist.fin 0)) []
      (nodes g) [] := by
  refine ⟨?_, fun v hv => hv, nodes_nodup g, ?_, ?_, List.nodup_nil, ?_, ?_, ?_, ?_, ?_, ?_,
    ?_, ?_, ?_, ?_⟩
  · intro v
    by_cases hv : v = s
    · subst hv
      rw [alookup_aset_self]
      simpa using hs
    · rw [alookup_aset_ne _ _ _ _ hv, alookup_initFold]
      by_cases hm : v ∈ nodes g
      · simp [hm]
      · simp [hm, alookup]
  · intro v hvN hvq
    exact absurd hvN hvq
  · intro v hv
    exact absurd hv (List.not_mem_nil v)
  · rw [alookup_aset_self]
  · intro v x hx
    by_cases hv : v = s
    · subst hv
      rw [alookup_aset_self] at hx
      injection hx with hx
      injection hx with hx
      refine ⟨[v], isWalk_single g v, ?_⟩
      rw [← hx]
      rfl
    · rw [alookup_aset_ne _ _ _ _ hv, alookup_initFold] at hx
      by_cases hm : v ∈ nodes g
      · simp [hm] at hx
      · simp [hm, alookup] at hx
  · intro u hu
    exact absurd hu (List.not_mem_nil u)
  · intro u hu
    exact absurd hu (List.not_mem_nil u)
  · intro u hu
    exact absurd hu (List.not_mem_nil u)
  · intro u hu
    exact absurd hu (List.not_mem_nil u)
  · intro v u h
    simp [alookup] at h
  · intro v u h
    simp [alookup] at h
  · rfl
  · intro v hvs x hx
    rw [alookup_aset_ne _ _ _ _ hvs, alookup_initFold] at hx
    by_cases hm : v ∈ nodes g
    · simp [hm] at hx
    · simp [hm, alookup] at hx

/-! ### Reconstructing the path from the predecessor table (C3) -/

theorem before_rank {E : List NodeId} (hnd : E.Nodup) {t u : NodeId} {l1 l2 : List NodeId}
    (hE : E = l1 ++ t :: l2) (hb : Before E u t) :
    ∃ m1 m2, E = m1 ++ u :: m2 ∧ m1.length < l1.length := by
  rcases hb with ⟨m1, m2, hEm, htm⟩
  refine ⟨m1, m2, hEm, ?_⟩
  by_contra hle
  push_neg at hle
  have hdropm : E.drop (m1.length + 1) = m2 := by
    rw [hEm, List.append_cons]
    have h1 : (m1 ++ [u]).length = m1.length + 1 := by simp
    rw [← h1]
    exact List.drop_left _ _
  have hdropl : E.drop (l1.length + 1) = l2 := by
    rw [hE, List.append_cons]
    have h1 : (l1 ++ [t]).length = l1.length + 1 := by simp
    rw [← h1]
    exact List.drop_left _ _
  have htl2 : t ∈ l2 := by
    have h2 : E.drop (m1.length + 1) =
        (E.drop (l1.length + 1)).drop (m1.length - l1.length) := by
      rw [List.drop_drop]
      congr 1
      omega
    rw [← hdropl]
    have htm2 := htm
    rw [← hdropm, h2] at htm2
    exact List.drop_subset _ _ htm2
  rw [hE] at hnd
  rcases List.nodup_append.mp hnd with ⟨-, hnd2, -⟩
  exact (List.nodup_cons.mp hnd2).1 htl2

theorem pathWalk_ok (g : Graph) (s : NodeId) (d : List (NodeId × Dist))
    (p : List (NodeId × NodeId)) (q E : List NodeId) (hinv : DijInv g s d p q E)
    (hns : "" ∉ nodes g) :
    ∀ (fuel : Nat) (t : NodeId) (x : Int) (l1 l2 : List NodeId), E = l1 ++ t :: l2 →
      l1.length < fuel → alookup d t = some (Dist.fin x) →
      ∀ (acc : List NodeId) (wt : Int), ∃ chain,
        pathWalk g p s fuel t acc wt = .ok ((acc ++ chain).reverse, wt + x) ∧
        chain.head? = some t ∧ chain.reverse.head? = some s ∧
        chainList g chain.reverse = true ∧ walkWeight g chain.reverse = x := by
  intro fuel
  induction fuel with
  | zero =>
    intro t x l1 l2 hE hlen
    exact absurd hlen (Nat.not_lt_zero _)
  | succ f ih =>
    intro t x l1 l2 hE hlen hx acc wt
    cases hpt : alookup p t with
    | none =>
      rw [pathWalk_eq]
      simp only [hpt]
      have hts : t = s := by
        by_contra hts
        have hc := hinv.pson t hts x hx
        rw [hpt] at hc
        simp at hc
      subst hts
      have hx0 : x = 0 := by
        rw [hinv.dsrc] at hx
        injection hx with hx
        injection hx with hx
        exact hx.symm
      refine ⟨[t], ?_, rfl, rfl, rfl, ?_⟩
      · rw [if_pos rfl, hx0, add_zero]
      · rw [hx0]
        rfl
    | some u =>
      rcases hinv.pred t u hpt with ⟨huE, hedge, xu, hxu, hdt⟩
      have hune : ¬ (u = "") := by
        intro he
        have hmem := (hinv.esub u huE).1
        rw [he] at hmem
        exact hns hmem
      have hred : pathWalk g p s (f + 1) t acc wt =
          pathWalk g p s f u (acc ++ [t]) (wt + getEdgeWeight g u t) := by
        rw [pathWalk_eq]
        simp only [hpt]
        rw [if_neg hune]
      rw [hred]
      have hxval : x = xu + getEdgeWeight g u t := by
        rw [hdt] at hx
        injection hx with hx
        injection hx with hx
        exact hx.symm
      have htE : t ∈ E := by
        rw [hE]
        exact List.mem_append_right _ (List.mem_cons_self _ _)
      have hbef : Before E u t := hinv.pord t u hpt htE
      rcases before_rank hinv.educ hE hbef with ⟨m1, m2, hEm, hm1len⟩
      have hm1f : m1.length < f := by omega
      rcases ih u xu m1 m2 hEm hm1f hxu (acc ++ [t]) (wt + getEdgeWeight g u t) with
        ⟨chain, hok, hhd, hrevhd, hchain, hwt⟩
      have hlast : chain.reverse.getLast? = some u := by
        rw [List.getLast?_reverse]
        exact hhd
      refine ⟨t :: chain, ?_, rfl, ?_, ?_, ?_⟩
      · show pathWalk g p s f u (acc ++ [t]) (wt + getEdgeWeight g u t) = _
        rw [hok, List.append_assoc, List.singleton_append, hxval]
        have harith : wt + getEdgeWeight g u t + xu = wt + (xu + getEdgeWeight g u t) := by
          ring
        rw [harith]
      · rw [List.reverse_cons]
        cases hcr : chain.reverse with
        | nil =>
          rw [hcr] at hrevhd
          simp at hrevhd
        | cons c0 crest =>
          rw [hcr] at hrevhd
          simpa using hrevhd
      · rw [List.reverse_cons]
        rw [chainList_concat g chain.reverse u t hlast, hchain, hedge]
        rfl
      · rw [List.reverse_cons]
        rw [walkWeight_concat g chain.reverse u t hlast, hwt, hxval]

/-- C3, corrected: the claim as stated is refuted by the counterexample
below (an empty-string node id is falsy in the JS truthiness test
`while (p[node])`, so the predecessor walk can stop early and raise the
no-path error although a path exists).  Amended statement: on a graph
with nonnegative edge weights none of whose node ids is the empty
string, with both endpoints present and the destination reachable from
the source, shortestPath returns a walk from source to destination
through edges of the graph whose total weight is minimal over all such
walks, and the weight tag attached to the result equals that walk's
total weight. -/
theorem claim_C3_shortestPath_amended (g : Graph) (s t : NodeId)
    (hw : nonnegWeights g) (hns : "" ∉ nodes g)
    (hs : s ∈ nodes g) (ht : t ∈ nodes g) (hr : Reaches g s t) :
    ∃ l w, shortestPath g s t = .ok (l, w) ∧ IsWalk g s t l ∧ walkWeight g l = w ∧
      ∀ l2, IsWalk g s t l2 → w ≤ walkWeight g l2 := by
  rw [shortestPath_eq]
  rw [if_neg (by rw [initDist_mem g s hs]; simp)]
  rw [if_neg (by rw [initDist_mem g t ht]; simp)]
  have hinit := dij_initial g s hs
  rcases dijkstraLoop_post g s hw (nodes g).length
    (aset ((nodes g).foldl (fun dd n => aset dd n Dist.inf) []) s (Dist.fin 0)) []
    (nodes g) [] hinit (le_refl _) with ⟨q2, E2, hinvf, hexit⟩
  rcases reaches_isWalk hr with ⟨lw, hlw⟩
  have htq2 : t ∉ q2 := by
    rcases hexit with hq2 | hallinf
    · rw [hq2]
      exact List.not_mem_nil t
    · exact no_walk_when_inf g s _ _ q2 E2 hinvf hallinf lw.length lw t (le_refl _) hlw
  have htE2 : t ∈ E2 := hinvf.seds t ht htq2
  rcases List.mem_iff_append.mp htE2 with ⟨l1, l2, hE2⟩
  rcases hinvf.sfin t htE2 with ⟨x, hx⟩
  have hE2len : E2.length ≤ (nodes g).length :=
    List.Subperm.length_le
      (List.subperm_of_subset hinvf.educ (fun v hv => (hinvf.esub v hv).1))
  have hfuel : l1.length < (nodes g).length + 1 := by
    have hlen3 : E2.length = l1.length + (l2.length + 1) := by
      rw [hE2]
      simp
    omega
  rcases pathWalk_ok g s _ _ q2 E2 hinvf hns ((nodes g).length + 1) t x l1 l2 hE2 hfuel hx
    [] 0 with ⟨chain, hok, hhd, hrevhd, hchain, hwt⟩
  rw [List.nil_append] at hok
  refine ⟨chain.reverse, 0 + x, hok, ⟨hrevhd, ?_, hchain⟩, ?_, ?_⟩
  · rw [List.getLast?_reverse]
    exact hhd
  · rw [hwt, zero_add]
  · intro l3 hl3
    have hle := hinvf.sopt t htE2 x hx l3 hl3
    omega

/-- Counterexample to C3 as stated: on the one-edge graph from the
empty-string node id to b, every hypothesis of the claim holds (default
weight 1 is nonnegative, both endpoints are in nodes(), b is reachable),
yet the predecessor of b is the empty string, the JS truthiness test on
it fails, and the program raises the no-path error instead of returning
the existing one-edge path. -/
theorem claim_C3_counterexample :
    nonnegWeights gEB ∧ "" ∈ nodes gEB ∧ "b" ∈ nodes gEB ∧ Reaches gEB "" "b" ∧
    shortestPath gEB "" "b" = .error .noPathFound ∧
    ¬ ∃ l w, shortestPath gEB "" "b" = .ok (l, w) := by
  have he : shortestPath gEB "" "b" = .error .noPathFound := rfl
  refine ⟨by decide, by decide, by decide, Or.inr (EdgePath.single (by decide)), he, ?_⟩
  rintro ⟨l, w, h⟩
  rw [he] at h
  simp at h

/-- Witness for the amended C3 at the one-edge graph a → b with the
default weight 1. -/
theorem claim_C3_witness :
    nonnegWeights gAB ∧ "" ∉ nodes gAB ∧ "a" ∈ nodes gAB ∧ "b" ∈ nodes gAB ∧
    Reaches gAB "a" "b" ∧
    (∃ l w, shortestPath gAB "a" "b" = .ok (l, w) ∧ IsWalk gAB "a" "b" l ∧
      walkWeight gAB l = w ∧ ∀ l2, IsWalk gAB "a" "b" l2 → w ≤ walkWeight gAB l2) :=
  ⟨by decide, by decide, by decide, by decide, Or.inr (EdgePath.single (by decide)),
   claim_C3_shortestPath_amended gAB "a" "b" (by decide) (by decide) (by decide) (by decide)
     (Or.inr (EdgePath.single (by decide)))⟩

end GraphDS